import Mathlib

/-!
# Verification of the PythonAlgorithms core (union-find, Kruskal, range query tree)

This file gives a shallow embedding, in Lean 4, of the core data structures of the
`tommyod/PythonAlgorithms` repository:

* `algorithms/unionfind.py` — the `UnionFind` class (`get_root` with path compression,
  `in_same_set`, `union` with union-by-rank, `add`);
* `algorithms/range_query_tree.py` — the `RQT` class (segment tree with point `update`,
  `__getitem__` and range `query`);
* `algorithms/graph_undirected.py` — the `UndirectedGraph` class (construction from edge
  and weight lists, `edges`, `neighbors`, `remove`, `__eq__`, `kruskal` and
  `minimum_spanning_tree` (Prim)).

Python values are modelled as follows: vertices and union-find elements are `Nat`
(the Python code is generic over hashables; the claims under study only require a
countable type with decidable equality and a total order for heap tie-breaking);
edge weights are `Option Int` (`none` models Python `None`, which is also the value
a `defaultdict(lambda: None)` inserts on a missing-key access); Python `dict`s are
modelled as a `Finset` of present keys together with a value function (so that
Python dict equality — equal key sets and equal values on those keys — is expressible);
fallible operations (`KeyError`, `IndexError`, `ValueError`, a `heappop` from an empty
list) return `Option`/`none`.  Loops that walk parent pointers are given explicit fuel;
the fuel is the number of tracked elements, which is proved sufficient for every
well-formed state.  Python `set`/`dict` iteration order is not observable in any of the
properties proved here except through heap tie-breaking among equal keys; iterations
are modelled in canonical sorted order, one representative of the source's
unspecified-order behaviour.
-/

/-! ## Union-find (`algorithms/unionfind.py`)

`findRoot p fuel x` follows parent links until a fixed point, as the `while` loop of
`UnionFind.get_root` does, returning `none` when the fuel runs out (which is proved
impossible from well-formed states).  `chainTo` collects the elements visited strictly
before the root — the `chain` set of the source — which get repointed to the root
(path compression). -/

def findRoot (p : Nat → Nat) : Nat → Nat → Option Nat
  | 0, _ => none
  | fuel + 1, x => if p x = x then some x else findRoot p fuel (p x)

def chainTo (p : Nat → Nat) : Nat → Nat → List Nat
  | 0, _ => []
  | fuel + 1, x => if p x = x then [] else x :: chainTo p fuel (p x)

/-- State of a `UnionFind` instance: the keys of the `_parent`/`_rank` dicts (both
always have the same keys in the source), and the two stored maps.  Outside `elems`
the two functions carry no meaning (a lookup there would raise `KeyError`). -/
structure UnionFind where
  elems : Finset Nat
  parent : Nat → Nat
  rank : Nat → Nat

/-- `UnionFind.__init__`: every element its own parent, rank 0. -/
def mkUnionFind (s : Finset Nat) : UnionFind :=
  { elems := s, parent := fun z => z, rank := fun _ => 0 }

/-- The abstract root of `x`: follow parent links (no mutation), with the canonical
fuel `elems.card`. -/
def UnionFind.root? (s : UnionFind) (x : Nat) : Option Nat :=
  findRoot s.parent s.elems.card x

/-- `UnionFind.get_root`: returns the root and the state after path compression
(every element of the walked chain is repointed to the root).  `none` models a
`KeyError` on an untracked argument (or fuel exhaustion, impossible when well-formed). -/
def UnionFind.get_root (s : UnionFind) (x : Nat) : Option (Nat × UnionFind) :=
  if x ∈ s.elems then
    match findRoot s.parent s.elems.card x with
    | some r =>
        some (r, { s with
          parent := fun z => if z ∈ chainTo s.parent s.elems.card x then r else s.parent z })
    | none => none
  else none

/-- `UnionFind.in_same_set`: `get_root(x) == get_root(y)`, threading the two
compressions left to right. -/
def UnionFind.in_same_set (s : UnionFind) (x y : Nat) : Option (Bool × UnionFind) :=
  match s.get_root x with
  | none => none
  | some (rx, s1) =>
    match s1.get_root y with
    | none => none
    | some (ry, s2) => some (decide (rx = ry), s2)

/-- `UnionFind.union` (the two-argument form): find both roots, then attach by rank.
On a rank tie the source executes `self._parent[root_y] = root_x` and
`self._rank[x] += 1` — note: the increment lands on the *argument* `x`,
not on `root_x`; this is embedded faithfully. -/
def UnionFind.union (s : UnionFind) (x y : Nat) : Option (Nat × UnionFind) :=
  match s.get_root x with
  | none => none
  | some (rx, s1) =>
    match s1.get_root y with
    | none => none
    | some (ry, s2) =>
      if rx = ry then some (rx, s2)
      else if s2.rank rx < s2.rank ry then
        some (ry, { s2 with parent := fun z => if z = rx then ry else s2.parent z })
      else if s2.rank ry < s2.rank rx then
        some (rx, { s2 with parent := fun z => if z = ry then rx else s2.parent z })
      else
        some (rx, { s2 with
          parent := fun z => if z = ry then rx else s2.parent z,
          rank := fun z => if z = x then s2.rank z + 1 else s2.rank z })

/-- `UnionFind.add`: register the items as fresh singleton roots with rank 0
(resetting them if they were already tracked, as the source does). -/
def UnionFind.add (s : UnionFind) (items : Finset Nat) : UnionFind :=
  { elems := s.elems ∪ items,
    parent := fun z => if z ∈ items then z else s.parent z,
    rank := fun z => if z ∈ items then 0 else s.rank z }

/-! ### The compression-free variant

`get_root_nc` follows parent links without repointing them; the derived operations
`in_same_set_nc` / `union_nc` / `add` form the "no path compression" variant of the
structure that the specification compares against. -/

def UnionFind.get_root_nc (s : UnionFind) (x : Nat) : Option (Nat × UnionFind) :=
  if x ∈ s.elems then
    match findRoot s.parent s.elems.card x with
    | some r => some (r, s)
    | none => none
  else none

def UnionFind.in_same_set_nc (s : UnionFind) (x y : Nat) : Option (Bool × UnionFind) :=
  match s.get_root_nc x with
  | none => none
  | some (rx, s1) =>
    match s1.get_root_nc y with
    | none => none
    | some (ry, s2) => some (decide (rx = ry), s2)

def UnionFind.union_nc (s : UnionFind) (x y : Nat) : Option (Nat × UnionFind) :=
  match s.get_root_nc x with
  | none => none
  | some (rx, s1) =>
    match s1.get_root_nc y with
    | none => none
    | some (ry, s2) =>
      if rx = ry then some (rx, s2)
      else if s2.rank rx < s2.rank ry then
        some (ry, { s2 with parent := fun z => if z = rx then ry else s2.parent z })
      else if s2.rank ry < s2.rank rx then
        some (rx, { s2 with parent := fun z => if z = ry then rx else s2.parent z })
      else
        some (rx, { s2 with
          parent := fun z => if z = ry then rx else s2.parent z,
          rank := fun z => if z = x then s2.rank z + 1 else s2.rank z })

/-! ### Runs

A run is a list of operations applied from a freshly initialized structure.  The
binary operations cover the claims under study; the single-iterable form of `union`
(a left fold of binary unions) adds nothing to the properties considered. -/

inductive UFOp where
  | union : Nat → Nat → UFOp
  | query : Nat → Nat → UFOp
  | find : Nat → UFOp
  | add : Finset Nat → UFOp

def runOp (s : UnionFind) : UFOp → Option UnionFind
  | .union a b => (s.union a b).map Prod.snd
  | .query a b => (s.in_same_set a b).map Prod.snd
  | .find a => (s.get_root a).map Prod.snd
  | .add items => some (s.add items)

def runOps (s : UnionFind) : List UFOp → Option UnionFind
  | [] => some s
  | op :: rest =>
    match runOp s op with
    | none => none
    | some s' => runOps s' rest

def runOpNC (s : UnionFind) : UFOp → Option UnionFind
  | .union a b => (s.union_nc a b).map Prod.snd
  | .query a b => (s.in_same_set_nc a b).map Prod.snd
  | .find a => (s.get_root_nc a).map Prod.snd
  | .add items => some (s.add items)

/-- The booleans produced by the `in_same_set` calls of a run (with compression). -/
def runOuts (s : UnionFind) : List UFOp → Option (List Bool)
  | [] => some []
  | .query a b :: rest =>
    match s.in_same_set a b with
    | none => none
    | some (t, s') => (runOuts s' rest).map (fun l => t :: l)
  | op :: rest =>
    match runOp s op with
    | none => none
    | some s' => runOuts s' rest

/-- The booleans produced by the `in_same_set` calls of a run (without compression). -/
def runOutsNC (s : UnionFind) : List UFOp → Option (List Bool)
  | [] => some []
  | .query a b :: rest =>
    match s.in_same_set_nc a b with
    | none => none
    | some (t, s') => (runOutsNC s' rest).map (fun l => t :: l)
  | op :: rest =>
    match runOpNC s op with
    | none => none
    | some s' => runOutsNC s' rest

/-- Well-formedness of a union-find state: parents of tracked elements are tracked,
and every tracked element reaches a root within `elems.card` steps. -/
def UnionFind.WF (s : UnionFind) : Prop :=
  (∀ x ∈ s.elems, s.parent x ∈ s.elems) ∧ ∀ x ∈ s.elems, (s.root? x).isSome

/-- Simulation relation between a compressed and an uncompressed run: same tracked
elements, same ranks, same abstract partition, both well-formed. -/
def UFRel (s t : UnionFind) : Prop :=
  s.elems = t.elems ∧ s.rank = t.rank ∧ (∀ z ∈ s.elems, s.root? z = t.root? z) ∧
    s.WF ∧ t.WF

/-- `freshAdds E ops` holds when every `add` of the run registers only elements that
are not yet tracked (the intended use of `add`; re-registering a tracked element
resets it to a singleton). -/
def freshAdds (E : Finset Nat) : List UFOp → Bool
  | [] => true
  | .add items :: rest => decide (∀ z ∈ items, z ∉ E) && freshAdds (E ∪ items) rest
  | _ :: rest => freshAdds E rest

/-! ## Range query tree (`algorithms/range_query_tree.py`)

The `RQT` class stores a flat list `seq` of size `tree_size = 2^(ceil(log2 n) + 1)`:
internal nodes in the first half (the root at index 1; index 0 is written once during
construction but never read by queries), the `n` user values at
`[tree_size/2, tree_size/2 + n)`, and identity padding after them.  `math.ceil(math.log2 n)`
is `Nat.clog 2 n`; `math.floor(math.log2 i)` is `Nat.log 2 i`.  For nodes strictly
below the leaf level the source's `2 ** (negative)` would produce Python floats; such
nodes are never visited by a valid query (proved below), and the embedding's
truncated-subtraction values there are equally unreachable.  List reads are embedded
with `List.getD` (every read is in bounds on the code paths exercised); the unchecked
`__getitem__` uses `List.get?` so that an out-of-bounds `IndexError` is observable. -/

structure RQT (α : Type) where
  f : α → α → α
  e : α
  n : Nat
  tree_size : Nat
  seq : List α

/-- The backward construction loop `for i in range(tree_size // 2 - 1, -1, -1):
seq[i] = function(seq[2i], seq[2i+1])`, processing `start, start-1, ..., 0`. -/
def buildLoop {α : Type} (f : α → α → α) (e : α) : Nat → List α → List α
  | 0, s => s.set 0 (f (s.getD 0 e) (s.getD 1 e))
  | i + 1, s =>
      buildLoop f e i (s.set (i + 1) (f (s.getD (2 * (i + 1)) e) (s.getD (2 * (i + 1) + 1) e)))

/-- `RQT.__init__` on a non-empty sequence (the constructor body after the
`math.log2` of the length is taken): allocate `tree_size` identity slots, splice the
sequence into the leaf window, then run the backward construction loop. -/
def mkRQT {α : Type} (sequence : List α) (f : α → α → α) (e : α) : RQT α :=
  { f := f, e := e, n := sequence.length,
    tree_size := 2 ^ (Nat.clog 2 sequence.length + 1),
    seq := buildLoop f e (2 ^ (Nat.clog 2 sequence.length + 1) / 2 - 1)
      (List.replicate (2 ^ (Nat.clog 2 sequence.length + 1) / 2) e ++ sequence ++
        List.replicate (2 ^ (Nat.clog 2 sequence.length + 1) / 2 - sequence.length) e) }

/-- `RQT(sequence, ...)`: `math.log2(0)` raises on an empty sequence. -/
def RQT.make {α : Type} (sequence : List α) (f : α → α → α) (e : α) : Option (RQT α) :=
  if sequence.isEmpty then none else some (mkRQT sequence f e)

/-- The `while p_i != 0` ancestor loop of `RQT.update`. -/
def updateLoop {α : Type} (f : α → α → α) (e : α) (s : List α) (pi : Nat) : List α :=
  if pi = 0 then s
  else updateLoop f e (s.set pi (f (s.getD (2 * pi) e) (s.getD (2 * pi + 1) e))) (pi / 2)
termination_by pi
decreasing_by
  exact Nat.div_lt_self (Nat.pos_of_ne_zero (by assumption)) (by omega)

/-- `RQT.update`: bounds check (`IndexError` outside `[0, n)`), overwrite the leaf,
then recompute the ancestors up to the root. -/
def RQT.update {α : Type} (t : RQT α) (index : Nat) (value : α) : Option (RQT α) :=
  if index < t.n then
    some { t with
      seq := updateLoop t.f t.e (t.seq.set (index + t.tree_size / 2) value)
        ((index + t.tree_size / 2) / 2) }
  else none

/-- `RQT.__getitem__`: `self.seq[index + tree_size // 2]`, with no bounds check of
its own — only the list access can fail (`none` = `IndexError`).  (Python's negative
indices are outside this `Nat`-indexed model.) -/
def RQT.get {α : Type} (t : RQT α) (index : Nat) : Option α :=
  t.seq.get? (index + t.tree_size / 2)

/-- `RQT._node_info`: level, covered external range (inclusive) and position of a
node, derived from the node index. -/
def RQT.node_info {α : Type} (t : RQT α) (i : Nat) : Nat × Nat × Nat × Nat :=
  let level := Nat.log 2 i
  let rm := 2 ^ (Nat.clog 2 t.n - level) - 1
  let num := i - 2 ^ level
  let node_min := num * (rm + 1)
  let node_max := rm + node_min
  (level, node_min, node_max, num)

/-- `RQT._query_node`, with explicit recursion fuel (the source recursion descends
one tree level per call; the fuel `clog2 n + 1` passed by `query` is proved
sufficient). -/
def RQT.queryNode {α : Type} (t : RQT α) : Nat → Nat → Nat → Nat → Option α
  | 0, _, _, _ => none
  | fuel + 1, node, i, j =>
    let info := t.node_info node
    let node_min := info.2.1
    let node_max := info.2.2.1
    if i ≤ node_min ∧ j ≥ node_max then some (t.seq.getD node t.e)
    else if (i > node_min ∧ i > node_max) ∨ (j < node_min ∧ j < node_max) then some t.e
    else
      (t.queryNode fuel (2 * node) i j).bind fun l =>
        (t.queryNode fuel (2 * node + 1) i j).bind fun r => some (t.f l r)

/-- `RQT.query`: three input checks (each an `IndexError`), then the recursive node
query from the root (node 1). -/
def RQT.query {α : Type} (t : RQT α) (i j : Nat) : Option α :=
  if i < t.n then
    if j < t.n then
      if j < i then none
      else t.queryNode (Nat.clog 2 t.n + 1) 1 i j
    else none
  else none

/-- The value stored in leaf slot `k` (external index `k`). -/
def RQT.leaf {α : Type} (t : RQT α) (k : Nat) : α :=
  t.seq.getD (t.tree_size / 2 + k) t.e

/-- The fold of the combine operator over `w` consecutive leaf slots starting at
slot `a`. -/
def RQT.winFold {α : Type} (t : RQT α) (a w : Nat) : α :=
  ((List.range w).map (fun k => t.leaf (a + k))).foldr t.f t.e

/-- The fold of the combine operator over the leaf slots `a..b` inclusive (the
identity when the range is empty). -/
def RQT.foldWin {α : Type} (t : RQT α) (a b : Nat) : α :=
  t.winFold a (b + 1 - a)

/-- The ancestor chain `pi, pi/2, ..., 1` — exactly the indices written by
`updateLoop`. -/
def ancChain : Nat → List Nat
  | 0 => []
  | pi + 1 => (pi + 1) :: ancChain ((pi + 1) / 2)
decreasing_by
  exact Nat.div_lt_self (Nat.succ_pos pi) (by omega)

/-- The structural invariant of a built tree: every internal node above the leaf
level holds `f` of its two children. -/
def RQT.Inv {α : Type} (t : RQT α) : Prop :=
  1 ≤ t.n ∧ t.tree_size = 2 ^ (Nat.clog 2 t.n + 1) ∧ t.seq.length = t.tree_size ∧
  ∀ j, 1 ≤ j → j < t.tree_size / 2 →
    t.seq.getD j t.e = t.f (t.seq.getD (2 * j) t.e) (t.seq.getD (2 * j + 1) t.e)

/-! ## Undirected graphs (`algorithms/graph_undirected.py`)

The `UndirectedGraph` class stores two `defaultdict`s: `_edges` (vertex → set of
neighbors, default `set()`) and `_weights` (frozenset `{a, b}` → weight, default
`None`).  The embedding restricts vertices to `int` (`Nat`) and weights to
`int`-or-`None` (`Option Int`), and models each dict as a key `Finset` plus a total
lookup function whose values outside the key set carry no meaning; dict equality
(`__eq__`) compares key sets and the values on the keys.  A frozenset `{a, b}` is
represented by the canonical pair `cp a b = (min a b, max a b)`.

Mutating reads of a `defaultdict` (`d[k]` inserts the default when `k` is absent)
are embedded explicitly: `touchW` for `_weights[p]`, `nbTouch` for `_edges[v]`;
non-mutating reads used to describe values are `wGet`/`adjGet`.

`heapq`: successive `heappop`s of a heap return exactly the nondecreasing
enumeration of its entry multiset (ties in the first component broken by Python's
lexicographic tuple comparison), so the queue is modeled as a list kept sorted under
`entryR`, built with `List.insertionSort` and extended with `List.orderedInsert`.
Comparing `None` with an `int` raises `TypeError` in Python; on the code paths
modeled a queue is either all-`None` or all-`int`, so the order chosen between
`none` and `some` is never observable.  Iteration order of a set of small
non-negative ints in CPython is ascending (`finsetAsc`), and `edges()` is modeled
as yielding each edge in canonical `(min, max)` orientation; the claims proved
below are invariant under the enumeration orientation, which only shifts
tie-breaking among equal-weight edges. -/

/-- The canonical form of the frozenset `{a, b}` (meaningful for `a ≠ b`). -/
def cp (a b : Nat) : Nat × Nat := (min a b, max a b)

/-- State of an `UndirectedGraph` instance: `adjKeys`/`adj` model the `_edges`
defaultdict, `wKeys`/`w` model the `_weights` defaultdict. -/
structure UGraph where
  adjKeys : Finset Nat
  adj : Nat → Finset Nat
  wKeys : Finset (Nat × Nat)
  w : Nat × Nat → Option Int

/-- The state created by `__init__` before any edge is inserted. -/
def emptyG : UGraph := ⟨∅, fun _ => ∅, ∅, fun _ => none⟩

/-- Reading `_edges[v]` without mutating: the stored set if present, else the
default `set()`. -/
def adjGet (g : UGraph) (v : Nat) : Finset Nat := if v ∈ g.adjKeys then g.adj v else ∅

/-- Reading `_weights[p]` without mutating: the stored value if present, else
`None`. -/
def wGet (g : UGraph) (p : Nat × Nat) : Option Int := if p ∈ g.wKeys then g.w p else none

/-- One unweighted `__init__` iteration: skip self-loops, then
`_edges[a].add(b)` followed by `_edges[b].add(a)` (under the guard `a ≠ b` the
second read sees the first write only at key `a`). -/
def addEdgeU (g : UGraph) (a b : Nat) : UGraph :=
  if a = b then g else
  { g with
    adjKeys := insert b (insert a g.adjKeys),
    adj := fun z =>
      if z = b then insert a (adjGet g b)
      else if z = a then insert b (adjGet g a)
      else g.adj z }

/-- One weighted `__init__` iteration: the unweighted insertion plus
`_weights[frozenset((a, b))] = weight`. -/
def addEdgeW (g : UGraph) (a b : Nat) (c : Option Int) : UGraph :=
  if a = b then g else
  { adjKeys := insert b (insert a g.adjKeys),
    adj := fun z =>
      if z = b then insert a (adjGet g b)
      else if z = a then insert b (adjGet g a)
      else g.adj z,
    wKeys := insert (cp a b) g.wKeys,
    w := fun q => if q = cp a b then c else g.w q }

/-- `UndirectedGraph(edges)` (no weights, or an empty — hence falsy — weight
list). -/
def mkGraphU (edges : List (Nat × Nat)) : UGraph :=
  edges.foldl (fun g p => addEdgeU g p.1 p.2) emptyG

/-- `UndirectedGraph(edges, weights)` — a falsy (empty) weight list selects the
unweighted path, otherwise a length mismatch raises `ValueError` (`none`). -/
def mkGraphW (edges : List (Nat × Nat)) (weights : List (Option Int)) : Option UGraph :=
  if weights.isEmpty then some (mkGraphU edges)
  else if edges.length = weights.length then
    some ((edges.zip weights).foldl (fun g pc => addEdgeW g pc.1.1 pc.1.2 pc.2) emptyG)
  else none

/-- The elements of a `Finset Nat` in ascending order (CPython's iteration order
for a set of small non-negative ints). -/
def finsetAsc (s : Finset Nat) : List Nat :=
  (List.range (s.sup id + 1)).filter (fun x => x ∈ s)

/-- The edges yielded by `edges()`: one canonical `(v, u)` pair with `v < u` per
stored edge (the generator's frozenset bookkeeping yields each edge once). -/
def UGraph.edgeList (g : UGraph) : List (Nat × Nat) :=
  (finsetAsc g.adjKeys).flatMap (fun v =>
    (finsetAsc (adjGet g v)).filterMap (fun u => if v < u then some (v, u) else none))

/-- The set of edges of the graph, as canonical pairs. -/
def UGraph.edgeFinset (g : UGraph) : Finset (Nat × Nat) := g.edgeList.toFinset

/-- The mutating read `_weights[p]`: a missing key is inserted with the default
`None`. -/
def touchW (g : UGraph) (p : Nat × Nat) : UGraph :=
  { g with wKeys := insert p g.wKeys, w := fun q => if q = p then wGet g p else g.w q }

def touchAll (g : UGraph) (ps : List (Nat × Nat)) : UGraph := ps.foldl touchW g

/-- A heap entry `(weight, (u, v))`. -/
abbrev QEntry := Option Int × Nat × Nat

def pairLE (p q : Nat × Nat) : Bool :=
  decide (p.1 < q.1 ∨ (p.1 = q.1 ∧ p.2 ≤ q.2))

/-- Python's lexicographic comparison of heap entries (the `none`-versus-`some`
case never arises on the modeled code paths, see the section comment). -/
def entryLE (x y : QEntry) : Bool :=
  match x.1, y.1 with
  | none, none => pairLE x.2 y.2
  | none, some _ => true
  | some _, none => false
  | some c, some d => decide (c < d) || (decide (c = d) && pairLE x.2 y.2)

def entryR (x y : QEntry) : Prop := entryLE x y = true

instance : DecidableRel entryR := fun x y => by unfold entryR; infer_instance

instance : IsTotal QEntry entryR := by
  constructor
  intro x y
  rcases x with ⟨xc, xp⟩
  rcases y with ⟨yc, yp⟩
  rcases xc with _ | c <;> rcases yc with _ | d
  · show pairLE xp yp = true ∨ pairLE yp xp = true
    unfold pairLE
    simp only [decide_eq_true_eq]
    omega
  · left; rfl
  · right; rfl
  · show (decide (c < d) || (decide (c = d) && pairLE xp yp)) = true ∨
      (decide (d < c) || (decide (d = c) && pairLE yp xp)) = true
    unfold pairLE
    simp only [Bool.or_eq_true, Bool.and_eq_true, decide_eq_true_eq]
    omega

instance : IsTrans QEntry entryR := by
  constructor
  intro x y z hxy hyz
  rcases x with ⟨xc, xp⟩
  rcases y with ⟨yc, yp⟩
  rcases z with ⟨zc, zp⟩
  rcases xc with _ | c <;> rcases yc with _ | d <;> rcases zc with _ | e
  · show pairLE xp zp = true
    have h1 : pairLE xp yp = true := hxy
    have h2 : pairLE yp zp = true := hyz
    unfold pairLE at h1 h2 ⊢
    simp only [decide_eq_true_eq] at h1 h2 ⊢
    omega
  · rfl
  · exact absurd hyz (by simp [entryR, entryLE])
  · rfl
  · exact absurd hxy (by simp [entryR, entryLE])
  · exact absurd hxy (by simp [entryR, entryLE])
  · exact absurd hyz (by simp [entryR, entryLE])
  · have h1 : (decide (c < d) || (decide (c = d) && pairLE xp yp)) = true := hxy
    have h2 : (decide (d < e) || (decide (d = e) && pairLE yp zp)) = true := hyz
    show (decide (c < e) || (decide (c = e) && pairLE xp zp)) = true
    unfold pairLE at h1 h2 ⊢
    simp only [Bool.or_eq_true, Bool.and_eq_true, decide_eq_true_eq] at h1 h2 ⊢
    omega

/-- The heapified queue of `kruskal`: all edges with their weights (the
`_weights` reads also touch the weight dict, see `UGraph.kruskal`). -/
def kruskalQueue (g : UGraph) : List QEntry :=
  List.insertionSort entryR (g.edgeList.map (fun p => (wGet g p, p.1, p.2)))

/-- The `while not (num_taken_edges == num_vertices - 1)` loop of `kruskal`:
check the counter, pop the minimum (an empty pop raises `IndexError`, modeled
`none`), skip edges whose endpoints are in the same union-find set, otherwise
union and take the edge. -/
def kruskalLoop (target : Int) :
    UnionFind → List QEntry → Nat → List QEntry → Option (List QEntry)
  | uf, taken, numTaken, queue =>
    if (numTaken : Int) = target then some taken
    else
      match queue with
      | [] => none
      | (c, u, v) :: rest =>
        match uf.in_same_set u v with
        | none => none
        | some (b, uf') =>
          if b then kruskalLoop target uf' taken numTaken rest
          else
            match uf'.union u v with
            | none => none
            | some (_, uf'') =>
              kruskalLoop target uf'' (taken ++ [(c, u, v)]) (numTaken + 1) rest

/-- `UndirectedGraph.kruskal`: the taken edges (`none` models the uncaught
`IndexError`/`KeyError` paths) together with the state of `self` after the call —
building the queue iterates `edges(and_weights=True)`, whose `_weights[...]`
reads touch every edge key.  The returned graph object is
`type(self)(mst_edges, mst_weights)`, i.e. `mkGraphW` of the taken list. -/
def UGraph.kruskal (g : UGraph) : Option (List QEntry) × UGraph :=
  (kruskalLoop ((g.adjKeys.card : Int) - 1) (mkUnionFind g.adjKeys) [] 0 (kruskalQueue g),
   touchAll g g.edgeList)

/-- The pair set of a taken-edge list. -/
def pairsOf (l : List QEntry) : Finset (Nat × Nat) :=
  (l.map (fun t => (t.2.1, t.2.2))).toFinset

def wVal (g : UGraph) (p : Nat × Nat) : Int := (wGet g p).getD 0

/-- Total weight of an edge set. -/
def Wsum (g : UGraph) (T : Finset (Nat × Nat)) : Int := T.sum (wVal g)

/-- The mutating read `_edges[v]`: a missing key is inserted with the default
`set()`. -/
def nbTouch (g : UGraph) (v : Nat) : UGraph :=
  { g with adjKeys := insert v g.adjKeys, adj := fun z => if z = v then adjGet g v else g.adj z }

/-- The state effect of exhausting `neighbors(v, and_weights=True)`: the
`_edges[v]` read plus a `_weights` read per incident edge. -/
def nbWTouch (g : UGraph) (v : Nat) : UGraph :=
  touchAll (nbTouch g v) ((finsetAsc (adjGet g v)).map (fun u => cp v u))

/-- The entries pushed after taking vertex `v` in Prim's algorithm: outgoing
edges to vertices not yet taken (the weight values read are unchanged by the
concurrent touches, so they are read off the pre-touch state). -/
def primPushes (g : UGraph) (takenV : Finset Nat) (v : Nat) : List QEntry :=
  (finsetAsc (adjGet g v)).filterMap
    (fun u => if u ∈ takenV then none else some (wGet g (cp v u), v, u))

/-- The `while not (taken_vertices == all_vertices)` loop of
`minimum_spanning_tree`, threading the state of `self`; the fuel argument only
bounds the number of iterations (each pops one entry), `0` is never reached for
the fuel supplied by `UGraph.minimum_spanning_tree`. -/
def primLoop (allV : Finset Nat) :
    Nat → UGraph → Finset Nat → List QEntry → List QEntry → Option (List QEntry) × UGraph
  | 0, g, _, _, _ => (none, g)
  | fuel + 1, g, takenV, takenE, queue =>
    if takenV = allV then (some takenE, g)
    else
      match queue with
      | [] => (none, g)
      | (c, u, v) :: rest =>
        if v ∈ takenV then primLoop allV fuel g takenV takenE rest
        else
          primLoop allV fuel (nbWTouch g v) (insert v takenV) (takenE ++ [(c, u, v)])
            ((primPushes g (insert v takenV) v).foldl
              (fun q e => List.orderedInsert entryR e q) rest)

/-- `UndirectedGraph.minimum_spanning_tree(start)` (Prim): `all_vertices` is read
before the `neighbors(start, ...)` generator runs, the initial queue holds the
edges out of `start`, and the source state is threaded as in `kruskal`. -/
def UGraph.minimum_spanning_tree (g : UGraph) (start : Nat) : Option (List QEntry) × UGraph :=
  primLoop g.adjKeys (2 * g.edgeList.length + g.adjKeys.card + 2) (nbWTouch g start)
    {start} []
    (List.insertionSort entryR
      ((finsetAsc (adjGet g start)).map (fun v => (wGet g (cp start v), start, v))))

/-- `UndirectedGraph.remove(vertex)`: delete the vertex key (a `KeyError` is
swallowed) and prune the vertex from every neighbor set; `_weights` is not
touched. -/
def UGraph.remove (g : UGraph) (vertex : Nat) : UGraph :=
  { g with adjKeys := g.adjKeys.erase vertex, adj := fun z => (g.adj z).erase vertex }

/-- Python dict equality on the `_edges` defaultdicts. -/
def adjDictEq (g h : UGraph) : Prop :=
  g.adjKeys = h.adjKeys ∧ ∀ v ∈ g.adjKeys, g.adj v = h.adj v

/-- Python dict equality on the `_weights` defaultdicts. -/
def wDictEq (g h : UGraph) : Prop :=
  g.wKeys = h.wKeys ∧ ∀ p ∈ g.wKeys, g.w p = h.w p

/-- `UndirectedGraph.__eq__`. -/
def graphEq (g h : UGraph) : Prop := adjDictEq g h ∧ wDictEq g h

instance (g h : UGraph) : Decidable (adjDictEq g h) :=
  inferInstanceAs (Decidable (_ ∧ _))

instance (g h : UGraph) : Decidable (wDictEq g h) :=
  inferInstanceAs (Decidable (_ ∧ _))

instance (g h : UGraph) : Decidable (graphEq g h) :=
  inferInstanceAs (Decidable (_ ∧ _))

/-- Well-formedness of a graph state: neighbor sets link tracked vertices
symmetrically and carry no self-loops (true of every constructed graph). -/
def GWF (g : UGraph) : Prop :=
  ∀ v ∈ g.adjKeys, ∀ u ∈ adjGet g v, v ≠ u ∧ u ∈ g.adjKeys ∧ v ∈ adjGet g u

instance (g : UGraph) : Decidable (GWF g) :=
  inferInstanceAs (Decidable (∀ v ∈ g.adjKeys, _))

/-- Every edge has a `_weights` entry (true after a weighted `__init__`). -/
def FullyWeighted (g : UGraph) : Prop :=
  ∀ v ∈ g.adjKeys, ∀ u ∈ adjGet g v, cp v u ∈ g.wKeys

instance (g : UGraph) : Decidable (FullyWeighted g) :=
  inferInstanceAs (Decidable (∀ v ∈ g.adjKeys, _))

/-- Every edge carries an actual `int` weight. -/
def IntWeighted (g : UGraph) : Prop :=
  ∀ v ∈ g.adjKeys, ∀ u ∈ adjGet g v, (wGet g (cp v u)).isSome

instance (g : UGraph) : Decidable (IntWeighted g) :=
  inferInstanceAs (Decidable (∀ v ∈ g.adjKeys, _))

/-- One undirected step along an edge set of canonical pairs. -/
def estep (E : Finset (Nat × Nat)) (a b : Nat) : Prop := a ≠ b ∧ cp a b ∈ E

/-- Reachability (the reflexive–transitive closure of `estep`). -/
def Reach (E : Finset (Nat × Nat)) : Nat → Nat → Prop := Relation.ReflTransGen (estep E)

/-- `E` connects every pair of vertices of `V`. -/
def Spans (V : Finset Nat) (E : Finset (Nat × Nat)) : Prop := ∀ a ∈ V, ∀ b ∈ V, Reach E a b

/-- The graph is connected (nonempty and spanned by its edges). -/
def ConnectedG (g : UGraph) : Prop := g.adjKeys.Nonempty ∧ Spans g.adjKeys g.edgeFinset

/-- `E` is a set of canonical pairs over `V`. -/
def EdgesOn (V : Finset Nat) (E : Finset (Nat × Nat)) : Prop :=
  ∀ p ∈ E, p.1 ∈ V ∧ p.2 ∈ V ∧ p.1 < p.2

/-- A spanning tree of the graph: a set of its edges that connects all vertices
with `|V| - 1` edges (such a set is automatically acyclic). -/
def IsSpanningTree (g : UGraph) (T : Finset (Nat × Nat)) : Prop :=
  T ⊆ g.edgeFinset ∧ Spans g.adjKeys T ∧ T.card + 1 = g.adjKeys.card

/-- Acyclicity, constructively: a forest is built by repeatedly adding an edge
between two vertices not yet connected (equivalently, no edge closes a cycle). -/
inductive Forest : Finset (Nat × Nat) → Prop where
  | empty : Forest ∅
  | grow {T : Finset (Nat × Nat)} {a b : Nat} :
      Forest T → a ≠ b → ¬ Reach T a b → Forest (insert (cp a b) T)

/-- `C` is closed under the edges of `E` (no edge crosses the boundary of `C`). -/
def EClosed (C : Finset Nat) (E : Finset (Nat × Nat)) : Prop :=
  ∀ p ∈ E, (p.1 ∈ C ↔ p.2 ∈ C)

instance (C : Finset Nat) (E : Finset (Nat × Nat)) : Decidable (EClosed C E) :=
  inferInstanceAs (Decidable (∀ p ∈ E, _))

/-- The page-140 Halim example graph used by the doctests of `kruskal` and
`minimum_spanning_tree`. -/
def halimG : UGraph :=
  (mkGraphW [(0,1),(1,2),(0,2),(2,3),(0,3),(0,4),(3,4)]
    [some 4, some 2, some 4, some 8, some 6, some 6, some 9]).getD emptyG

/-- A disconnected weighted graph: two components `{0, 1}` and `{2, 3}`. -/
def discG : UGraph := (mkGraphW [(0,1),(2,3)] [some 1, some 2]).getD emptyG

/-- A one-edge unweighted graph. -/
def pathG : UGraph := mkGraphU [(0,1)]

/-- A two-edge weighted path graph. -/
def wG10 : UGraph := (mkGraphW [(0,1),(1,2)] [some 5, some 7]).getD emptyG

-- ===================== THEOREMS =====================

/-! ### Core lemmas about `findRoot` and `chainTo` -/

theorem findRoot_mono {p : Nat → Nat} :
    ∀ {n m x r}, findRoot p n x = some r → n ≤ m → findRoot p m x = some r := by
  intro n
  induction n with
  | zero => intro m x r h _; simp [findRoot] at h
  | succ n ih =>
    intro m x r h hm
    match m, hm with
    | m + 1, hm =>
      rw [findRoot] at h ⊢
      by_cases hx : p x = x
      · simpa [hx] using h
      · rw [if_neg hx] at h ⊢
        exact ih h (by omega)

theorem findRoot_agree {p : Nat → Nat} {n m x r r'}
    (h : findRoot p n x = some r) (h' : findRoot p m x = some r') : r = r' := by
  rcases Nat.le_total n m with hle | hle
  · have := findRoot_mono h hle
    rw [this] at h'; exact Option.some_injective _ h'
  · have := findRoot_mono h' hle
    rw [this] at h; exact (Option.some_injective _ h).symm

theorem findRoot_isRoot {p : Nat → Nat} :
    ∀ {n x r}, findRoot p n x = some r → p r = r := by
  intro n
  induction n with
  | zero => intro x r h; simp [findRoot] at h
  | succ n ih =>
    intro x r h
    rw [findRoot] at h
    by_cases hx : p x = x
    · rw [if_pos hx] at h
      cases h; exact hx
    · rw [if_neg hx] at h
      exact ih h

theorem findRoot_of_isRoot {p : Nat → Nat} {x : Nat} (hx : p x = x) (n : Nat) :
    findRoot p (n + 1) x = some x := by
  rw [findRoot, if_pos hx]

theorem findRoot_mem {p : Nat → Nat} {E : Finset Nat} (hcl : ∀ z ∈ E, p z ∈ E) :
    ∀ {n x r}, x ∈ E → findRoot p n x = some r → r ∈ E := by
  intro n
  induction n with
  | zero => intro x r _ h; simp [findRoot] at h
  | succ n ih =>
    intro x r hx h
    rw [findRoot] at h
    by_cases hpx : p x = x
    · rw [if_pos hpx] at h; cases h; exact hx
    · rw [if_neg hpx] at h
      exact ih (hcl x hx) h

theorem iterate_mem {p : Nat → Nat} {E : Finset Nat} (hcl : ∀ z ∈ E, p z ∈ E)
    {x : Nat} (hx : x ∈ E) : ∀ j, p^[j] x ∈ E := by
  intro j
  induction j with
  | zero => simpa using hx
  | succ j ih =>
    rw [Function.iterate_succ_apply']
    exact hcl _ ih

/-- `findRoot` reaches the root at a minimal iterate index: no earlier point on the
parent walk is a fixed point. -/
theorem findRoot_min_index {p : Nat → Nat} :
    ∀ {n x r}, findRoot p n x = some r →
      ∃ k < n, p^[k] x = r ∧ ∀ j < k, p (p^[j] x) ≠ p^[j] x := by
  intro n
  induction n with
  | zero => intro x r h; simp [findRoot] at h
  | succ n ih =>
    intro x r h
    rw [findRoot] at h
    by_cases hx : p x = x
    · rw [if_pos hx] at h
      cases h
      exact ⟨0, by omega, rfl, by omega⟩
    · rw [if_neg hx] at h
      obtain ⟨k, hk, hit, hmin⟩ := ih h
      refine ⟨k + 1, by omega, ?_, ?_⟩
      · rw [Function.iterate_succ_apply]; exact hit
      · intro j hj
        match j with
        | 0 => simpa using hx
        | j + 1 =>
          rw [Function.iterate_succ_apply]
          exact hmin j (by omega)

/-- If some iterate of `x` is a fixed point of `p`, then `findRoot` succeeds with
fuel one more than that index. -/
theorem findRoot_total {p : Nat → Nat} :
    ∀ {k x}, p (p^[k] x) = p^[k] x → ∃ r, findRoot p (k + 1) x = some r := by
  intro k
  induction k with
  | zero =>
    intro x hx
    exact ⟨x, findRoot_of_isRoot (by simpa using hx) 0⟩
  | succ k ih =>
    intro x hx
    by_cases hpx : p x = x
    · exact ⟨x, findRoot_of_isRoot hpx (k + 1)⟩
    · rw [Function.iterate_succ_apply] at hx
      obtain ⟨r, hr⟩ := ih hx
      exact ⟨r, by rw [findRoot, if_neg hpx]; exact hr⟩

/-- Fuel sufficiency: if the walk from a tracked element terminates with any fuel at
all, then fuel `E.card` suffices, because the walk visits pairwise distinct tracked
elements until it first hits the root. -/
theorem findRoot_card {p : Nat → Nat} {E : Finset Nat} (hcl : ∀ z ∈ E, p z ∈ E)
    {n x r} (hx : x ∈ E) (h : findRoot p n x = some r) :
    findRoot p E.card x = some r := by
  obtain ⟨k, _, hit, hmin⟩ := findRoot_min_index h
  have hroot : p r = r := findRoot_isRoot h
  -- the first k+1 points of the walk are pairwise distinct
  have hinj : ∀ i ≤ k, ∀ j ≤ k, p^[i] x = p^[j] x → i = j := by
    intro i hi j hj hij
    by_contra hne
    -- by symmetry assume i < j
    rcases Nat.lt_or_ge i j with hlt | hge
    · have : p^[i + (k - j)] x = r := by
        have h1 : p^[k - j] (p^[j] x) = p^[k - j + j] x := by
          rw [← Function.iterate_add_apply]
        have h2 : k - j + j = k := by omega
        calc p^[i + (k - j)] x = p^[k - j] (p^[i] x) := by
              rw [← Function.iterate_add_apply]; ring_nf
          _ = p^[k - j] (p^[j] x) := by rw [hij]
          _ = r := by rw [h1, h2, hit]
      have hlt2 : i + (k - j) < k := by omega
      exact hmin _ hlt2 (by rw [this, hroot])
    · have hlt : j < i := by omega
      have : p^[j + (k - i)] x = r := by
        have h1 : p^[k - i] (p^[i] x) = p^[k - i + i] x := by
          rw [← Function.iterate_add_apply]
        have h2 : k - i + i = k := by omega
        calc p^[j + (k - i)] x = p^[k - i] (p^[j] x) := by
              rw [← Function.iterate_add_apply]; ring_nf
          _ = p^[k - i] (p^[i] x) := by rw [hij]
          _ = r := by rw [h1, h2, hit]
      have hlt2 : j + (k - i) < k := by omega
      exact hmin _ hlt2 (by rw [this, hroot])
  -- hence k + 1 ≤ E.card
  have hnodup : ((List.range (k + 1)).map (fun j => p^[j] x)).Nodup := by
    refine List.Nodup.map_on ?_ (List.nodup_range _)
    intro i hi j hj hij
    exact hinj i (by simpa using Nat.lt_succ_iff.mp (List.mem_range.mp hi))
      j (by simpa using Nat.lt_succ_iff.mp (List.mem_range.mp hj)) hij
  have hsub : ((List.range (k + 1)).map (fun j => p^[j] x)).toFinset ⊆ E := by
    intro z hz
    simp only [List.mem_toFinset, List.mem_map, List.mem_range] at hz
    obtain ⟨j, _, rfl⟩ := hz
    exact iterate_mem hcl hx j
  have hlen : k + 1 ≤ E.card := by
    have h1 := List.toFinset_card_of_nodup hnodup
    have h2 := Finset.card_le_card hsub
    simp only [List.length_map, List.length_range] at h1
    omega
  obtain ⟨r', hr'⟩ := @findRoot_total p k x (by rw [hit, hroot])
  have : r' = r := findRoot_agree hr' h
  subst this
  exact findRoot_mono hr' hlen

theorem chainTo_root {p : Nat → Nat} :
    ∀ {n x r z}, findRoot p n x = some r → z ∈ chainTo p n x →
      ∃ m ≤ n, findRoot p m z = some r := by
  intro n
  induction n with
  | zero => intro x r z _ hz; simp [chainTo] at hz
  | succ n ih =>
    intro x r z h hz
    rw [chainTo] at hz
    by_cases hx : p x = x
    · rw [if_pos hx] at hz; simp at hz
    · rw [if_neg hx] at hz
      rw [findRoot, if_neg hx] at h
      rcases List.mem_cons.mp hz with rfl | hz'
      · exact ⟨n + 1, le_refl _, by rw [findRoot, if_neg hx]; exact h⟩
      · obtain ⟨m, hm, hfr⟩ := ih h hz'
        exact ⟨m, by omega, hfr⟩

theorem chainTo_not_root {p : Nat → Nat} :
    ∀ {n x z}, z ∈ chainTo p n x → p z ≠ z := by
  intro n
  induction n with
  | zero => intro x z hz; simp [chainTo] at hz
  | succ n ih =>
    intro x z hz
    rw [chainTo] at hz
    by_cases hx : p x = x
    · rw [if_pos hx] at hz; simp at hz
    · rw [if_neg hx] at hz
      rcases List.mem_cons.mp hz with rfl | hz'
      · exact hx
      · exact ih hz'

theorem chainTo_mem {p : Nat → Nat} {E : Finset Nat} (hcl : ∀ z ∈ E, p z ∈ E) :
    ∀ {n x z}, x ∈ E → z ∈ chainTo p n x → z ∈ E := by
  intro n
  induction n with
  | zero => intro x z _ hz; simp [chainTo] at hz
  | succ n ih =>
    intro x z hx hz
    rw [chainTo] at hz
    by_cases hpx : p x = x
    · rw [if_pos hpx] at hz; simp at hz
    · rw [if_neg hpx] at hz
      rcases List.mem_cons.mp hz with rfl | hz'
      · exact hx
      · exact ih (hcl x hx) hz'

/-- Path compression preserves every element's abstract root: walking the compressed
parent map from any point finds the same root as before (with some fuel). -/
theorem findRoot_compress {p : Nat → Nat} {n x r}
    (hr : findRoot p n x = some r) :
    ∀ {m z w}, findRoot p m z = some w →
      ∃ m', findRoot (fun a => if a ∈ chainTo p n x then r else p a) m' z = some w := by
  intro m
  induction m with
  | zero => intro z w h; simp [findRoot] at h
  | succ m ih =>
    intro z w h
    set p' := fun a => if a ∈ chainTo p n x then r else p a with hp'
    have hrroot : p r = r := findRoot_isRoot hr
    have hrnotchain : r ∉ chainTo p n x := fun hc => chainTo_not_root hc hrroot
    rw [findRoot] at h
    by_cases hz : z ∈ chainTo p n x
    · -- the chain element's old root is r, and the compressed parent is r directly
      have hw : w = r := by
        obtain ⟨m0, _, hfr⟩ := chainTo_root hr hz
        have hzw : findRoot p (m + 1) z = some w := by
          rw [findRoot]; exact h
        exact findRoot_agree hzw hfr
      have hzr : z ≠ r := fun hzr => chainTo_not_root hz (by rw [hzr]; exact hrroot)
      refine ⟨2, ?_⟩
      have h1 : p' z = r := by simp only [hp', if_pos hz]
      have h2 : p' r = r := by simp only [hp', if_neg hrnotchain]; exact hrroot
      rw [findRoot, if_neg (by rw [h1]; exact fun hh => hzr hh.symm), h1, findRoot, if_pos h2, hw]
    · have hpz : p' z = p z := by simp only [hp', if_neg hz]
      by_cases hzz : p z = z
      · rw [if_pos hzz] at h
        cases h
        exact ⟨1, by rw [findRoot, if_pos (by rw [hpz]; exact hzz)]⟩
      · rw [if_neg hzz] at h
        obtain ⟨m', hm'⟩ := ih h
        refine ⟨m' + 1, ?_⟩
        rw [findRoot, if_neg (by rw [hpz]; exact hzz), hpz]
        exact hm'

/-- Attaching the root `ry` under the distinct root `rx` re-roots exactly the
elements whose old root was `ry`. -/
theorem findRoot_attach {p : Nat → Nat} {rx ry : Nat}
    (hrx : p rx = rx) (hry : p ry = ry) (hne : rx ≠ ry) :
    ∀ {m z w}, findRoot p m z = some w →
      ∃ m', findRoot (fun a => if a = ry then rx else p a) m' z =
        some (if w = ry then rx else w) := by
  intro m
  induction m with
  | zero => intro z w h; simp [findRoot] at h
  | succ m ih =>
    intro z w h
    set p' := fun a => if a = ry then rx else p a with hp'
    have hprx : p' rx = rx := by simp only [hp', if_neg hne]; exact hrx
    rw [findRoot] at h
    by_cases hzz : p z = z
    · rw [if_pos hzz] at h
      cases h
      by_cases hzy : z = ry
      · subst hzy
        refine ⟨2, ?_⟩
        have h1 : p' z = rx := by simp only [hp', if_pos rfl]
        rw [findRoot, if_neg (by rw [h1]; exact fun hh => hne hh), h1, findRoot, if_pos hprx]
        simp
      · refine ⟨1, ?_⟩
        rw [findRoot, if_pos (by simp only [hp', if_neg hzy]; exact hzz)]
        rw [if_neg hzy]
    · rw [if_neg hzz] at h
      obtain ⟨m', hm'⟩ := ih h
      have hzy : z ≠ ry := fun hzy => hzz (by rw [hzy]; exact hry)
      refine ⟨m' + 1, ?_⟩
      have h1 : p' z = p z := by simp only [hp', if_neg hzy]
      rw [findRoot, if_neg (by rw [h1]; exact hzz), h1]
      exact hm'

/-- Resetting the elements of `items` to self-parents keeps every walk terminating. -/
theorem findRoot_reset {p : Nat → Nat} {items : Finset Nat} :
    ∀ {m z w}, findRoot p m z = some w →
      ∃ m' w', findRoot (fun a => if a ∈ items then a else p a) m' z = some w' := by
  intro m
  induction m with
  | zero => intro z w h; simp [findRoot] at h
  | succ m ih =>
    intro z w h
    by_cases hz : z ∈ items
    · exact ⟨1, z, by rw [findRoot, if_pos (by simp only [if_pos hz])]⟩
    · rw [findRoot] at h
      by_cases hzz : p z = z
      · exact ⟨1, z, by rw [findRoot, if_pos (by simp only [if_neg hz]; exact hzz)]⟩
      · rw [if_neg hzz] at h
        obtain ⟨m', w', hm'⟩ := ih h
        refine ⟨m' + 1, w', ?_⟩
        rw [findRoot, if_neg (by simp only [if_neg hz]; exact hzz)]
        simp only [if_neg hz]
        exact hm'

/-- Resetting elements disjoint from a closed tracked set does not affect walks that
stay inside the tracked set. -/
theorem findRoot_reset_fresh {p : Nat → Nat} {E items : Finset Nat}
    (hcl : ∀ z ∈ E, p z ∈ E) (hdisj : ∀ z ∈ E, z ∉ items) :
    ∀ {m z w}, z ∈ E → findRoot p m z = some w →
      findRoot (fun a => if a ∈ items then a else p a) m z = some w := by
  intro m
  induction m with
  | zero => intro z w _ h; simp [findRoot] at h
  | succ m ih =>
    intro z w hz h
    rw [findRoot] at h ⊢
    have hzi : z ∉ items := hdisj z hz
    simp only [if_neg hzi]
    by_cases hzz : p z = z
    · rw [if_pos hzz] at h ⊢; exact h
    · rw [if_neg hzz] at h ⊢
      exact ih (hcl z hz) h

/-! ### Specification lemmas for the `UnionFind` operations -/

theorem UnionFind.WF.root_exists {s : UnionFind} (hwf : s.WF) {x : Nat}
    (hx : x ∈ s.elems) : ∃ r, s.root? x = some r := by
  have := hwf.2 x hx
  exact Option.isSome_iff_exists.mp this

theorem root_self_of_isRoot {s : UnionFind} {r : Nat} (hr : s.parent r = r)
    (hne : s.elems.Nonempty) : s.root? r = some r := by
  have hcard : 1 ≤ s.elems.card := Finset.card_pos.mpr hne
  have : s.root? r = findRoot s.parent (s.elems.card - 1 + 1) r := by
    unfold UnionFind.root?
    congr 1
    omega
  rw [this, findRoot_of_isRoot hr]

theorem root_of_root {s : UnionFind} {x r : Nat} (h : s.root? x = some r)
    (hcl : ∀ z ∈ s.elems, s.parent z ∈ s.elems) (hx : x ∈ s.elems) :
    r ∈ s.elems ∧ s.parent r = r ∧ s.root? r = some r := by
  have hmem : r ∈ s.elems := findRoot_mem hcl hx h
  have hroot : s.parent r = r := findRoot_isRoot h
  exact ⟨hmem, hroot, root_self_of_isRoot hroot ⟨x, hx⟩⟩

/-- Full specification of `get_root` from a well-formed state: it succeeds, returns
the abstract root, and the compressed state has the same tracked elements, the same
ranks, the same abstract roots everywhere, and is again well-formed. -/
theorem get_root_spec {s : UnionFind} (hwf : s.WF) {x : Nat} (hx : x ∈ s.elems) :
    ∃ r s', s.get_root x = some (r, s') ∧ s.root? x = some r ∧
      s'.elems = s.elems ∧ s'.rank = s.rank ∧ s'.WF ∧
      (∀ z ∈ s.elems, s'.root? z = s.root? z) := by
  obtain ⟨r, hr⟩ := hwf.root_exists hx
  have hr' : findRoot s.parent s.elems.card x = some r := hr
  have hcl := hwf.1
  have hcl' : ∀ a ∈ s.elems,
      (if a ∈ chainTo s.parent s.elems.card x then r else s.parent a) ∈ s.elems := by
    intro a ha
    by_cases hc : a ∈ chainTo s.parent s.elems.card x
    · rw [if_pos hc]; exact findRoot_mem hcl hx hr'
    · rw [if_neg hc]; exact hcl a ha
  have hpres : ∀ z ∈ s.elems,
      findRoot (fun a => if a ∈ chainTo s.parent s.elems.card x then r else s.parent a)
        s.elems.card z = findRoot s.parent s.elems.card z := by
    intro z hz
    obtain ⟨w, hw⟩ := hwf.root_exists hz
    have hw' : findRoot s.parent s.elems.card z = some w := hw
    obtain ⟨m', hm'⟩ := findRoot_compress hr' hw'
    rw [findRoot_card hcl' hz hm', hw']
  refine ⟨r, { s with
      parent := fun z => if z ∈ chainTo s.parent s.elems.card x then r else s.parent z },
    ?_, hr, rfl, rfl, ⟨hcl', ?_⟩, ?_⟩
  · unfold UnionFind.get_root
    rw [if_pos hx, hr']
  · intro z hz
    have h2 := hpres z hz
    obtain ⟨w, hw⟩ := hwf.root_exists hz
    have hw' : findRoot s.parent s.elems.card z = some w := hw
    show (findRoot (fun a => if a ∈ chainTo s.parent s.elems.card x then r else s.parent a)
        s.elems.card z).isSome
    rw [h2, hw']
    rfl
  · intro z hz
    show findRoot (fun a => if a ∈ chainTo s.parent s.elems.card x then r else s.parent a)
        s.elems.card z = s.root? z
    exact hpres z hz

/-- Attaching root `l` under root `w` (both tracked, distinct) yields a well-formed
state whose abstract roots are those of `s` with `l` replaced by `w`. -/
theorem attach_spec {s : UnionFind} (hwf : s.WF) {w l : Nat}
    (hwmem : w ∈ s.elems) (hlmem : l ∈ s.elems)
    (hwr : s.parent w = w) (hlr : s.parent l = l) (hne : w ≠ l) :
    ∀ (rk : Nat → Nat),
      UnionFind.WF { elems := s.elems, parent := fun z => if z = l then w else s.parent z,
                     rank := rk } ∧
      (∀ z ∈ s.elems,
        UnionFind.root? { elems := s.elems, parent := fun z => if z = l then w else s.parent z,
                          rank := rk } z =
          if s.root? z = some l then some w else s.root? z) := by
  intro rk
  have hcl := hwf.1
  have hcl' : ∀ a ∈ s.elems, (if a = l then w else s.parent a) ∈ s.elems := by
    intro a ha
    by_cases hal : a = l
    · rw [if_pos hal]; exact hwmem
    · rw [if_neg hal]; exact hcl a ha
  have key : ∀ z ∈ s.elems,
      findRoot (fun z => if z = l then w else s.parent z) s.elems.card z =
        if s.root? z = some l then some w else s.root? z := by
    intro z hz
    obtain ⟨u, hu⟩ := hwf.root_exists hz
    obtain ⟨m', hm'⟩ := findRoot_attach hwr hlr hne hu
    have := findRoot_card hcl' hz hm'
    rw [this, hu]
    by_cases hul : u = l
    · rw [if_pos hul, if_pos (by rw [hul])]
    · rw [if_neg hul, if_neg (by simpa using fun hh => hul hh)]
  constructor
  · constructor
    · exact hcl'
    · intro z hz
      show (findRoot (fun z => if z = l then w else s.parent z) s.elems.card z).isSome
      rw [key z hz]
      by_cases hcase : s.root? z = some l
      · rw [if_pos hcase]; rfl
      · rw [if_neg hcase]
        obtain ⟨u, hu⟩ := hwf.root_exists hz
        rw [hu]; rfl
  · intro z hz
    show findRoot (fun z => if z = l then w else s.parent z) s.elems.card z =
      if s.root? z = some l then some w else s.root? z
    exact key z hz

theorem get_root_mem_of_some {s : UnionFind} {x : Nat} {p : Nat × UnionFind}
    (h : s.get_root x = some p) : x ∈ s.elems := by
  by_contra hx
  unfold UnionFind.get_root at h
  rw [if_neg hx] at h
  exact Option.noConfusion h

theorem get_root_some_inv {s : UnionFind} {x r : Nat} {s' : UnionFind}
    (h : s.get_root x = some (r, s')) :
    x ∈ s.elems ∧ s'.elems = s.elems ∧ s'.rank = s.rank := by
  have hx : x ∈ s.elems := get_root_mem_of_some h
  unfold UnionFind.get_root at h
  rw [if_pos hx] at h
  rcases hfr : findRoot s.parent s.elems.card x with _ | r0
  · rw [hfr] at h; exact Option.noConfusion h
  · rw [hfr] at h
    rw [Option.some.injEq, Prod.mk.injEq] at h
    obtain ⟨h1, h2⟩ := h
    subst h2
    exact ⟨hx, rfl, rfl⟩

/-- Full specification of `union` from a well-formed state: it succeeds, and the new
abstract partition either is unchanged (equal roots) or merges the two root classes,
the surviving root being one of the two. -/
theorem union_spec {s : UnionFind} (hwf : s.WF) {x y : Nat}
    (hx : x ∈ s.elems) (hy : y ∈ s.elems) :
    ∃ rx ry r s', s.root? x = some rx ∧ s.root? y = some ry ∧
      s.union x y = some (r, s') ∧ s'.elems = s.elems ∧ s'.WF ∧
      ((rx = ry ∧ r = rx ∧ ∀ z ∈ s.elems, s'.root? z = s.root? z) ∨
       (rx ≠ ry ∧
         ((r = rx ∧ ∀ z ∈ s.elems,
             s'.root? z = if s.root? z = some ry then some rx else s.root? z) ∨
          (r = ry ∧ ∀ z ∈ s.elems,
             s'.root? z = if s.root? z = some rx then some ry else s.root? z)))) := by
  obtain ⟨rx, s1, hgr1, hrx, he1, _, hwf1, hp1⟩ := get_root_spec hwf hx
  have hy1 : y ∈ s1.elems := he1 ▸ hy
  obtain ⟨ry, s2, hgr2, hry1, he2, _, hwf2, hp2⟩ := get_root_spec hwf1 hy1
  have hry : s.root? y = some ry := by rw [← hp1 y hy]; exact hry1
  have he12 : s2.elems = s.elems := by rw [he2, he1]
  have hp12 : ∀ z ∈ s.elems, s2.root? z = s.root? z := by
    intro z hz
    rw [hp2 z (he1 ▸ hz), hp1 z hz]
  have hrxmem : rx ∈ s.elems := (root_of_root hrx hwf.1 hx).1
  have hrymem : ry ∈ s.elems := (root_of_root hry hwf.1 hy).1
  have hrx2 : s2.root? rx = some rx := by
    rw [hp12 rx hrxmem]; exact (root_of_root hrx hwf.1 hx).2.2
  have hry2 : s2.root? ry = some ry := by
    rw [hp12 ry hrymem]; exact (root_of_root hry hwf.1 hy).2.2
  have hrx2p : s2.parent rx = rx := findRoot_isRoot hrx2
  have hry2p : s2.parent ry = ry := findRoot_isRoot hry2
  have hrxmem2 : rx ∈ s2.elems := by rw [he12]; exact hrxmem
  have hrymem2 : ry ∈ s2.elems := by rw [he12]; exact hrymem
  have hz2 : ∀ z : Nat, z ∈ s.elems → z ∈ s2.elems := by
    intro z hz; rw [he12]; exact hz
  by_cases hxy : rx = ry
  · refine ⟨rx, ry, rx, s2, hrx, hry, ?_, he12, hwf2, Or.inl ⟨hxy, rfl, hp12⟩⟩
    simp only [UnionFind.union, hgr1, hgr2, if_pos hxy]
  · by_cases hlt : s2.rank rx < s2.rank ry
    · -- attach root_x under root_y; the result root is ry
      obtain ⟨hwf', hroots'⟩ := attach_spec hwf2 hrymem2 hrxmem2 hry2p hrx2p
        (by exact fun hh => hxy hh.symm) s2.rank
      refine ⟨rx, ry, ry,
        { elems := s2.elems, parent := fun z => if z = rx then ry else s2.parent z,
          rank := s2.rank },
        hrx, hry, ?_, he12, hwf', Or.inr ⟨hxy, Or.inr ⟨rfl, ?_⟩⟩⟩
      · simp only [UnionFind.union, hgr1, hgr2, if_neg hxy, if_pos hlt]
      · intro z hz
        have := hroots' z (hz2 z hz)
        rw [hp12 z hz] at this
        exact this
    · by_cases hgt : s2.rank ry < s2.rank rx
      · obtain ⟨hwf', hroots'⟩ := attach_spec hwf2 hrxmem2 hrymem2 hrx2p hry2p hxy s2.rank
        refine ⟨rx, ry, rx,
          { elems := s2.elems, parent := fun z => if z = ry then rx else s2.parent z,
            rank := s2.rank },
          hrx, hry, ?_, he12, hwf', Or.inr ⟨hxy, Or.inl ⟨rfl, ?_⟩⟩⟩
        · simp only [UnionFind.union, hgr1, hgr2, if_neg hxy, if_neg hlt, if_pos hgt]
        · intro z hz
          have := hroots' z (hz2 z hz)
          rw [hp12 z hz] at this
          exact this
      · obtain ⟨hwf', hroots'⟩ := attach_spec hwf2 hrxmem2 hrymem2 hrx2p hry2p hxy
          (fun z => if z = x then s2.rank z + 1 else s2.rank z)
        refine ⟨rx, ry, rx,
          { elems := s2.elems, parent := fun z => if z = ry then rx else s2.parent z,
            rank := fun z => if z = x then s2.rank z + 1 else s2.rank z },
          hrx, hry, ?_, he12, hwf', Or.inr ⟨hxy, Or.inl ⟨rfl, ?_⟩⟩⟩
        · simp only [UnionFind.union, hgr1, hgr2, if_neg hxy, if_neg hlt, if_neg hgt]
        · intro z hz
          have := hroots' z (hz2 z hz)
          rw [hp12 z hz] at this
          exact this

/-- Full specification of `in_same_set` from a well-formed state: it succeeds,
returns whether the abstract roots agree, and preserves the abstract partition,
the tracked elements, and the ranks. -/
theorem in_same_set_spec {s : UnionFind} (hwf : s.WF) {x y : Nat}
    (hx : x ∈ s.elems) (hy : y ∈ s.elems) :
    ∃ rx ry s', s.root? x = some rx ∧ s.root? y = some ry ∧
      s.in_same_set x y = some (decide (rx = ry), s') ∧ s'.elems = s.elems ∧
      s'.rank = s.rank ∧ s'.WF ∧ (∀ z ∈ s.elems, s'.root? z = s.root? z) := by
  obtain ⟨rx, s1, hgr1, hrx, he1, hk1, hwf1, hp1⟩ := get_root_spec hwf hx
  have hy1 : y ∈ s1.elems := he1 ▸ hy
  obtain ⟨ry, s2, hgr2, hry1, he2, hk2, hwf2, hp2⟩ := get_root_spec hwf1 hy1
  have hry : s.root? y = some ry := by rw [← hp1 y hy]; exact hry1
  refine ⟨rx, ry, s2, hrx, hry, ?_, by rw [he2, he1], by rw [hk2, hk1], hwf2, ?_⟩
  · simp only [UnionFind.in_same_set, hgr1, hgr2]
  · intro z hz
    rw [hp2 z (he1 ▸ hz), hp1 z hz]

theorem add_wf {s : UnionFind} (hwf : s.WF) (items : Finset Nat) :
    (s.add items).WF := by
  have hcl' : ∀ z ∈ (s.add items).elems, (s.add items).parent z ∈ (s.add items).elems := by
    intro z hz
    show (if z ∈ items then z else s.parent z) ∈ s.elems ∪ items
    by_cases hzi : z ∈ items
    · rw [if_pos hzi]; exact hz
    · rw [if_neg hzi]
      rcases Finset.mem_union.mp hz with hz' | hz'
      · exact Finset.mem_union_left _ (hwf.1 z hz')
      · exact absurd hz' hzi
  refine ⟨hcl', ?_⟩
  intro z hz
  by_cases hzi : z ∈ items
  · have hroot : (s.add items).parent z = z := by
      show (if z ∈ items then z else s.parent z) = z
      rw [if_pos hzi]
    rw [root_self_of_isRoot hroot ⟨z, hz⟩]
    rfl
  · rcases Finset.mem_union.mp hz with hz' | hz'
    · obtain ⟨w, hw⟩ := hwf.root_exists hz'
      have hw' : findRoot s.parent s.elems.card z = some w := hw
      obtain ⟨m', w', hm'⟩ := @findRoot_reset s.parent items _ _ _ hw'
      have := findRoot_card hcl' hz hm'
      show (findRoot (s.add items).parent (s.add items).elems.card z).isSome
      rw [this]
      rfl
    · exact absurd hz' hzi

theorem mkUnionFind_wf (S : Finset Nat) : (mkUnionFind S).WF := by
  constructor
  · intro x hx; exact hx
  · intro x hx
    have : (mkUnionFind S).parent x = x := rfl
    rw [root_self_of_isRoot this ⟨x, hx⟩]
    rfl

theorem runOp_wf {s s' : UnionFind} {op : UFOp} (hwf : s.WF)
    (h : runOp s op = some s') : s'.WF := by
  cases op with
  | union a b =>
    simp only [runOp, Option.map_eq_some'] at h
    obtain ⟨⟨r, s''⟩, hu, rfl⟩ := h
    rcases hus : s.get_root a with _ | ⟨ra, sa⟩
    · simp only [UnionFind.union, hus] at hu
      exact Option.noConfusion hu
    · rcases hus2 : sa.get_root b with _ | ⟨rb, sb⟩
      · simp only [UnionFind.union, hus, hus2] at hu
        exact Option.noConfusion hu
      · have ha : a ∈ s.elems := get_root_mem_of_some hus
        have hb : b ∈ s.elems := by
          have h1 := (get_root_some_inv hus).2.1
          have h2 := (get_root_some_inv hus2).1
          rw [h1] at h2
          exact h2
        obtain ⟨rx, ry, r', s0, _, _, hu', _, hwf', _⟩ := union_spec hwf ha hb
        rw [hu'] at hu
        cases hu
        exact hwf'
  | query a b =>
    simp only [runOp, Option.map_eq_some'] at h
    obtain ⟨⟨t, s''⟩, hu, rfl⟩ := h
    rcases hus : s.get_root a with _ | ⟨ra, sa⟩
    · simp only [UnionFind.in_same_set, hus] at hu
      exact Option.noConfusion hu
    · rcases hus2 : sa.get_root b with _ | ⟨rb, sb⟩
      · simp only [UnionFind.in_same_set, hus, hus2] at hu
        exact Option.noConfusion hu
      · have ha : a ∈ s.elems := get_root_mem_of_some hus
        have hb : b ∈ s.elems := by
          have h1 := (get_root_some_inv hus).2.1
          have h2 := (get_root_some_inv hus2).1
          rw [h1] at h2
          exact h2
        obtain ⟨rx, ry, s0, _, _, hu', _, _, hwf', _⟩ := in_same_set_spec hwf ha hb
        rw [hu'] at hu
        cases hu
        exact hwf'
  | find a =>
    simp only [runOp, Option.map_eq_some'] at h
    obtain ⟨⟨r, s''⟩, hu, rfl⟩ := h
    have ha : a ∈ s.elems := get_root_mem_of_some hu
    obtain ⟨r', s0, hgr, _, _, _, hwf', _⟩ := get_root_spec hwf ha
    rw [hgr] at hu
    cases hu
    exact hwf'
  | add items =>
    simp only [runOp] at h
    cases h
    exact add_wf hwf items

theorem runOps_wf {s s' : UnionFind} {ops : List UFOp} (hwf : s.WF)
    (h : runOps s ops = some s') : s'.WF := by
  induction ops generalizing s with
  | nil => simp only [runOps] at h; cases h; exact hwf
  | cons op rest ih =>
    simp only [runOps] at h
    rcases hop : runOp s op with _ | s1
    · rw [hop] at h; exact Option.noConfusion h
    · rw [hop] at h
      exact ih (runOp_wf hwf hop) h

/-- **C2.** For every `UnionFind` instance reachable by a run and every pair of
tracked elements `a`, `b`: immediately after `union(a, b)`, `in_same_set(a, b)`
returns `True`; and at every point in a run the relation computed by `in_same_set`
over tracked elements is reflexive, symmetric and transitive. -/
theorem claim_C2 (S : Finset Nat) (ops : List UFOp) (s : UnionFind)
    (hrun : runOps (mkUnionFind S) ops = some s) :
    (∀ a ∈ s.elems, ∀ b ∈ s.elems,
      ∃ r s' s'', s.union a b = some (r, s') ∧ s'.in_same_set a b = some (true, s'')) ∧
    (∀ a ∈ s.elems, ∃ s', s.in_same_set a a = some (true, s')) ∧
    (∀ a ∈ s.elems, ∀ b ∈ s.elems, ∀ t t' s1 s2,
      s.in_same_set a b = some (t, s1) → s.in_same_set b a = some (t', s2) → t = t') ∧
    (∀ a ∈ s.elems, ∀ b ∈ s.elems, ∀ c ∈ s.elems, ∀ s1 s2,
      s.in_same_set a b = some (true, s1) → s.in_same_set b c = some (true, s2) →
      ∃ s3, s.in_same_set a c = some (true, s3)) := by
  have hwf : s.WF := runOps_wf (mkUnionFind_wf S) hrun
  refine ⟨?_, ?_, ?_, ?_⟩
  · intro a ha b hb
    obtain ⟨rx, ry, r, s', hrx, hry, hu, he', hwf', hcases⟩ := union_spec hwf ha hb
    have ha' : a ∈ s'.elems := by rw [he']; exact ha
    have hb' : b ∈ s'.elems := by rw [he']; exact hb
    have hroots_eq : s'.root? a = s'.root? b := by
      rcases hcases with ⟨hxy, _, hp⟩ | ⟨hne, ⟨_, hp⟩ | ⟨_, hp⟩⟩
      · rw [hp a ha, hp b hb, hrx, hry, hxy]
      · rw [hp a ha, hp b hb, hrx, hry, if_neg (by simpa using fun hh => hne hh),
          if_pos rfl]
      · rw [hp a ha, hp b hb, hrx, hry, if_pos rfl,
          if_neg (by simpa using fun hh => hne hh.symm)]
    obtain ⟨ra, rb, s'', hra, hrb, hiss, _, _, _, _⟩ := in_same_set_spec hwf' ha' hb'
    have hab : ra = rb := by
      rw [hra, hrb] at hroots_eq
      exact Option.some_injective _ hroots_eq
    refine ⟨r, s', s'', hu, ?_⟩
    rw [hiss, decide_eq_true (by rw [hab])]
  · intro a ha
    obtain ⟨rx, ry, s', hrx, hry, hiss, _, _, _, _⟩ := in_same_set_spec hwf ha ha
    have : rx = ry := by
      rw [hrx] at hry
      exact Option.some_injective _ hry
    exact ⟨s', by rw [hiss, decide_eq_true (by rw [this])]⟩
  · intro a ha b hb t t' s1 s2 h1 h2
    obtain ⟨rx, ry, sA, hrx, hry, hA, _, _, _, _⟩ := in_same_set_spec hwf ha hb
    obtain ⟨ry2, rx2, sB, hry2, hrx2, hB, _, _, _, _⟩ := in_same_set_spec hwf hb ha
    rw [hA] at h1
    rw [hB] at h2
    have h1' := (Option.some_injective _ h1)
    have h2' := (Option.some_injective _ h2)
    have ht : t = decide (rx = ry) := (congrArg Prod.fst h1').symm
    have ht' : t' = decide (ry2 = rx2) := (congrArg Prod.fst h2').symm
    have hxx : rx2 = rx := by
      rw [hrx] at hrx2
      exact (Option.some_injective _ hrx2).symm
    have hyy : ry2 = ry := by
      rw [hry] at hry2
      exact (Option.some_injective _ hry2).symm
    rw [ht, ht', hxx, hyy]
    simp [eq_comm]
  · intro a ha b hb c hc s1 s2 h1 h2
    obtain ⟨rx, ry, sA, hrx, hry, hA, _, _, _, _⟩ := in_same_set_spec hwf ha hb
    obtain ⟨ry2, rz, sB, hry2, hrz, hB, _, _, _, _⟩ := in_same_set_spec hwf hb hc
    obtain ⟨rx3, rz3, sC, hrx3, hrz3, hC, _, _, _, _⟩ := in_same_set_spec hwf ha hc
    rw [hA] at h1
    rw [hB] at h2
    have h1' := (Option.some_injective _ h1)
    have h2' := (Option.some_injective _ h2)
    have e1 : decide (rx = ry) = true := congrArg Prod.fst h1'
    have e2 : decide (ry2 = rz) = true := congrArg Prod.fst h2'
    have hxy : rx = ry := of_decide_eq_true e1
    have hyz : ry2 = rz := of_decide_eq_true e2
    have hyy : ry2 = ry := by
      rw [hry] at hry2
      exact (Option.some_injective _ hry2).symm
    have hx3 : rx3 = rx := by
      rw [hrx] at hrx3
      exact (Option.some_injective _ hrx3).symm
    have hz3 : rz3 = rz := by
      rw [hrz] at hrz3
      exact (Option.some_injective _ hrz3).symm
    refine ⟨sC, ?_⟩
    rw [hC, decide_eq_true (by rw [hx3, hz3, hxy, ← hyy, hyz])]

/-- Witness for C2 at a concrete input: in a fresh structure over `{0, 1}`,
`union(0, 1)` followed by `in_same_set(0, 1)` yields `True`. -/
theorem claim_C2_witness :
    ∃ r s' s'', (mkUnionFind {0, 1}).union 0 1 = some (r, s') ∧
      s'.in_same_set 0 1 = some (true, s'') :=
  (claim_C2 {0, 1} [] (mkUnionFind {0, 1}) rfl).1 0 (by decide) 1 (by decide)

/-- **C3.** The claim says a rank value changes only for a root element (the
absorbing root of an equal-rank union), and non-root ranks are never touched.  The
code instead executes `self._rank[x] += 1` on the *argument* `x` of `union(x, y)`,
which need not be a root.  Failing run over `{0, 1, 2, 3}`: after `union(0, 1)` and
`union(2, 3)` the element `1` is a non-root of rank `0`; the tie-breaking
`union(1, 2)` then bumps the rank of the non-root `1` to `1` and leaves the
absorbing root `0` at rank `1`. -/
theorem claim_C3 :
    (runOps (mkUnionFind {0, 1, 2, 3}) [.union 0 1, .union 2 3]).map
        (fun s => (s.parent 1, s.rank 1, s.rank 0)) = some (0, 0, 1) ∧
    (runOps (mkUnionFind {0, 1, 2, 3}) [.union 0 1, .union 2 3, .union 1 2]).map
        (fun s => (s.parent 1, s.rank 1, s.rank 0)) = some (0, 1, 1) := by
  decide

/-- Branch-deterministic specification of `union`: exposes which root survives and
how the rank map changes, as decided by the rank comparison of the two roots. -/
theorem union_spec_det {s : UnionFind} (hwf : s.WF) {x y : Nat}
    (hx : x ∈ s.elems) (hy : y ∈ s.elems) :
    ∃ rx ry s', s.root? x = some rx ∧ s.root? y = some ry ∧
      s.union x y =
        some (if rx = ry then rx else if s.rank rx < s.rank ry then ry else rx, s') ∧
      s'.elems = s.elems ∧ s'.WF ∧
      s'.rank = (fun z => if rx ≠ ry ∧ s.rank rx = s.rank ry ∧ z = x
                 then s.rank z + 1 else s.rank z) ∧
      (∀ z ∈ s.elems, s'.root? z =
        if rx ≠ ry ∧ s.root? z = some (if s.rank rx < s.rank ry then rx else ry)
        then some (if s.rank rx < s.rank ry then ry else rx)
        else s.root? z) := by
  obtain ⟨rx, s1, hgr1, hrx, he1, hk1, hwf1, hp1⟩ := get_root_spec hwf hx
  have hy1 : y ∈ s1.elems := he1 ▸ hy
  obtain ⟨ry, s2, hgr2, hry1, he2, hk2, hwf2, hp2⟩ := get_root_spec hwf1 hy1
  have hry : s.root? y = some ry := by rw [← hp1 y hy]; exact hry1
  have he12 : s2.elems = s.elems := by rw [he2, he1]
  have hk12 : s2.rank = s.rank := by rw [hk2, hk1]
  have hp12 : ∀ z ∈ s.elems, s2.root? z = s.root? z := by
    intro z hz
    rw [hp2 z (he1 ▸ hz), hp1 z hz]
  have hrxmem : rx ∈ s.elems := (root_of_root hrx hwf.1 hx).1
  have hrymem : ry ∈ s.elems := (root_of_root hry hwf.1 hy).1
  have hrx2 : s2.root? rx = some rx := by
    rw [hp12 rx hrxmem]; exact (root_of_root hrx hwf.1 hx).2.2
  have hry2 : s2.root? ry = some ry := by
    rw [hp12 ry hrymem]; exact (root_of_root hry hwf.1 hy).2.2
  have hrx2p : s2.parent rx = rx := findRoot_isRoot hrx2
  have hry2p : s2.parent ry = ry := findRoot_isRoot hry2
  have hrxmem2 : rx ∈ s2.elems := by rw [he12]; exact hrxmem
  have hrymem2 : ry ∈ s2.elems := by rw [he12]; exact hrymem
  have hz2 : ∀ z : Nat, z ∈ s.elems → z ∈ s2.elems := by
    intro z hz; rw [he12]; exact hz
  by_cases hxy : rx = ry
  · refine ⟨rx, ry, s2, hrx, hry, ?_, he12, hwf2, ?_, ?_⟩
    · simp only [UnionFind.union, hgr1, hgr2, if_pos hxy]
    · rw [hk12]
      funext z
      rw [if_neg (by simp [hxy])]
    · intro z hz
      rw [if_neg (by simp [hxy]), hp12 z hz]
  · by_cases hlt : s2.rank rx < s2.rank ry
    · have hlt' : s.rank rx < s.rank ry := by rw [← hk12]; exact hlt
      obtain ⟨hwf', hroots'⟩ := attach_spec hwf2 hrymem2 hrxmem2 hry2p hrx2p
        (by exact fun hh => hxy hh.symm) s2.rank
      refine ⟨rx, ry,
        { elems := s2.elems, parent := fun z => if z = rx then ry else s2.parent z,
          rank := s2.rank }, hrx, hry, ?_, he12, hwf', ?_, ?_⟩
      · simp only [UnionFind.union, hgr1, hgr2, if_neg hxy, if_pos hlt,
          if_pos hlt']
      · show s2.rank = _
        rw [hk12]
        funext z
        rw [if_neg (by simp only [not_and]; intro _ hk; omega)]
      · intro z hz
        have := hroots' z (hz2 z hz)
        rw [hp12 z hz] at this
        rw [this]
        simp only [if_pos hlt']
        by_cases hzz : s.root? z = some rx
        · rw [if_pos hzz, if_pos ⟨hxy, hzz⟩]
        · rw [if_neg hzz, if_neg (by simp only [not_and]; intro _; exact hzz)]
    · have hlt' : ¬ s.rank rx < s.rank ry := by rw [← hk12]; exact hlt
      by_cases hgt : s2.rank ry < s2.rank rx
      · obtain ⟨hwf', hroots'⟩ := attach_spec hwf2 hrxmem2 hrymem2 hrx2p hry2p hxy s2.rank
        refine ⟨rx, ry,
          { elems := s2.elems, parent := fun z => if z = ry then rx else s2.parent z,
            rank := s2.rank }, hrx, hry, ?_, he12, hwf', ?_, ?_⟩
        · simp only [UnionFind.union, hgr1, hgr2, if_neg hxy, if_neg hlt, if_pos hgt,
            if_neg hlt']
        · show s2.rank = _
          rw [hk12]
          funext z
          rw [if_neg (by
            simp only [not_and]
            intro _ hk
            rw [← hk12] at hk
            omega)]
        · intro z hz
          have := hroots' z (hz2 z hz)
          rw [hp12 z hz] at this
          rw [this]
          simp only [if_neg hlt']
          by_cases hzz : s.root? z = some ry
          · rw [if_pos hzz, if_pos ⟨hxy, hzz⟩]
          · rw [if_neg hzz, if_neg (by simp only [not_and]; intro _; exact hzz)]
      · have htie : s.rank rx = s.rank ry := by
          rw [← hk12]
          omega
        obtain ⟨hwf', hroots'⟩ := attach_spec hwf2 hrxmem2 hrymem2 hrx2p hry2p hxy
          (fun z => if z = x then s2.rank z + 1 else s2.rank z)
        refine ⟨rx, ry,
          { elems := s2.elems, parent := fun z => if z = ry then rx else s2.parent z,
            rank := fun z => if z = x then s2.rank z + 1 else s2.rank z },
          hrx, hry, ?_, he12, hwf', ?_, ?_⟩
        · simp only [UnionFind.union, hgr1, hgr2, if_neg hxy, if_neg hlt, if_neg hgt,
            if_neg hlt']
        · show (fun z => if z = x then s2.rank z + 1 else s2.rank z) = _
          rw [hk12]
          funext z
          by_cases hzx : z = x
          · rw [if_pos hzx, if_pos ⟨hxy, htie, hzx⟩]
          · rw [if_neg hzx, if_neg (by simp only [not_and]; intro _ _; exact hzx)]
        · intro z hz
          have := hroots' z (hz2 z hz)
          rw [hp12 z hz] at this
          rw [this]
          simp only [if_neg hlt']
          by_cases hzz : s.root? z = some ry
          · rw [if_pos hzz, if_pos ⟨hxy, hzz⟩]
          · rw [if_neg hzz, if_neg (by simp only [not_and]; intro _; exact hzz)]

/-- Specification of the compression-free `get_root_nc`: it succeeds on tracked
elements, returns the abstract root, and leaves the state untouched. -/
theorem get_root_nc_spec {s : UnionFind} (hwf : s.WF) {x : Nat} (hx : x ∈ s.elems) :
    ∃ r, s.get_root_nc x = some (r, s) ∧ s.root? x = some r := by
  obtain ⟨r, hr⟩ := hwf.root_exists hx
  have hr' : findRoot s.parent s.elems.card x = some r := hr
  refine ⟨r, ?_, hr⟩
  unfold UnionFind.get_root_nc
  rw [if_pos hx, hr']

/-- Branch-deterministic specification of `union_nc`, in the same shape as
`union_spec_det`. -/
theorem union_nc_spec_det {s : UnionFind} (hwf : s.WF) {x y : Nat}
    (hx : x ∈ s.elems) (hy : y ∈ s.elems) :
    ∃ rx ry s', s.root? x = some rx ∧ s.root? y = some ry ∧
      s.union_nc x y =
        some (if rx = ry then rx else if s.rank rx < s.rank ry then ry else rx, s') ∧
      s'.elems = s.elems ∧ s'.WF ∧
      s'.rank = (fun z => if rx ≠ ry ∧ s.rank rx = s.rank ry ∧ z = x
                 then s.rank z + 1 else s.rank z) ∧
      (∀ z ∈ s.elems, s'.root? z =
        if rx ≠ ry ∧ s.root? z = some (if s.rank rx < s.rank ry then rx else ry)
        then some (if s.rank rx < s.rank ry then ry else rx)
        else s.root? z) := by
  obtain ⟨rx, hgr1, hrx⟩ := get_root_nc_spec hwf hx
  obtain ⟨ry, hgr2, hry⟩ := get_root_nc_spec hwf hy
  have hrxmem : rx ∈ s.elems := (root_of_root hrx hwf.1 hx).1
  have hrymem : ry ∈ s.elems := (root_of_root hry hwf.1 hy).1
  have hrxp : s.parent rx = rx := findRoot_isRoot hrx
  have hryp : s.parent ry = ry := findRoot_isRoot hry
  by_cases hxy : rx = ry
  · refine ⟨rx, ry, s, hrx, hry, ?_, rfl, hwf, ?_, ?_⟩
    · simp only [UnionFind.union_nc, hgr1, hgr2, if_pos hxy]
    · funext z
      rw [if_neg (by simp [hxy])]
    · intro z hz
      rw [if_neg (by simp [hxy])]
  · by_cases hlt : s.rank rx < s.rank ry
    · obtain ⟨hwf', hroots'⟩ := attach_spec hwf hrymem hrxmem hryp hrxp
        (by exact fun hh => hxy hh.symm) s.rank
      refine ⟨rx, ry,
        { elems := s.elems, parent := fun z => if z = rx then ry else s.parent z,
          rank := s.rank }, hrx, hry, ?_, rfl, hwf', ?_, ?_⟩
      · simp only [UnionFind.union_nc, hgr1, hgr2, if_neg hxy, if_pos hlt]
      · show s.rank = _
        funext z
        rw [if_neg (by simp only [not_and]; intro _ hk; omega)]
      · intro z hz
        rw [hroots' z hz]
        simp only [if_pos hlt]
        by_cases hzz : s.root? z = some rx
        · rw [if_pos hzz, if_pos ⟨hxy, hzz⟩]
        · rw [if_neg hzz, if_neg (by simp only [not_and]; intro _; exact hzz)]
    · by_cases hgt : s.rank ry < s.rank rx
      · obtain ⟨hwf', hroots'⟩ := attach_spec hwf hrxmem hrymem hrxp hryp hxy s.rank
        refine ⟨rx, ry,
          { elems := s.elems, parent := fun z => if z = ry then rx else s.parent z,
            rank := s.rank }, hrx, hry, ?_, rfl, hwf', ?_, ?_⟩
        · simp only [UnionFind.union_nc, hgr1, hgr2, if_neg hxy, if_neg hlt, if_pos hgt]
        · show s.rank = _
          funext z
          rw [if_neg (by simp only [not_and]; intro _ hk; omega)]
        · intro z hz
          rw [hroots' z hz]
          simp only [if_neg hlt]
          by_cases hzz : s.root? z = some ry
          · rw [if_pos hzz, if_pos ⟨hxy, hzz⟩]
          · rw [if_neg hzz, if_neg (by simp only [not_and]; intro _; exact hzz)]
      · have htie : s.rank rx = s.rank ry := by omega
        obtain ⟨hwf', hroots'⟩ := attach_spec hwf hrxmem hrymem hrxp hryp hxy
          (fun z => if z = x then s.rank z + 1 else s.rank z)
        refine ⟨rx, ry,
          { elems := s.elems, parent := fun z => if z = ry then rx else s.parent z,
            rank := fun z => if z = x then s.rank z + 1 else s.rank z },
          hrx, hry, ?_, rfl, hwf', ?_, ?_⟩
        · simp only [UnionFind.union_nc, hgr1, hgr2, if_neg hxy, if_neg hlt, if_neg hgt]
        · funext z
          show (if z = x then s.rank z + 1 else s.rank z) = _
          by_cases hzx : z = x
          · rw [if_pos hzx, if_pos ⟨hxy, htie, hzx⟩]
          · rw [if_neg hzx, if_neg (by simp only [not_and]; intro _ _; exact hzx)]
        · intro z hz
          rw [hroots' z hz]
          simp only [if_neg hlt]
          by_cases hzz : s.root? z = some ry
          · rw [if_pos hzz, if_pos ⟨hxy, hzz⟩]
          · rw [if_neg hzz, if_neg (by simp only [not_and]; intro _; exact hzz)]

/-! ### Failure characterizations and the compression simulation (for C4) -/

theorem get_root_none {s : UnionFind} {x : Nat} (hx : x ∉ s.elems) :
    s.get_root x = none := by
  unfold UnionFind.get_root
  rw [if_neg hx]

theorem get_root_nc_none {s : UnionFind} {x : Nat} (hx : x ∉ s.elems) :
    s.get_root_nc x = none := by
  unfold UnionFind.get_root_nc
  rw [if_neg hx]

theorem in_same_set_none {s : UnionFind} (hwf : s.WF) {a b : Nat}
    (h : a ∉ s.elems ∨ b ∉ s.elems) : s.in_same_set a b = none := by
  by_cases ha : a ∈ s.elems
  · have hb : b ∉ s.elems := by tauto
    obtain ⟨r, s1, hgr, _, he1, _, _, _⟩ := get_root_spec hwf ha
    simp only [UnionFind.in_same_set, hgr,
      get_root_none (show b ∉ s1.elems by rw [he1]; exact hb)]
  · simp only [UnionFind.in_same_set, get_root_none ha]

theorem in_same_set_nc_none {s : UnionFind} (hwf : s.WF) {a b : Nat}
    (h : a ∉ s.elems ∨ b ∉ s.elems) : s.in_same_set_nc a b = none := by
  by_cases ha : a ∈ s.elems
  · have hb : b ∉ s.elems := by tauto
    obtain ⟨r, hgr, _⟩ := get_root_nc_spec hwf ha
    simp only [UnionFind.in_same_set_nc, hgr, get_root_nc_none hb]
  · simp only [UnionFind.in_same_set_nc, get_root_nc_none ha]

theorem union_none {s : UnionFind} (hwf : s.WF) {a b : Nat}
    (h : a ∉ s.elems ∨ b ∉ s.elems) : s.union a b = none := by
  by_cases ha : a ∈ s.elems
  · have hb : b ∉ s.elems := by tauto
    obtain ⟨r, s1, hgr, _, he1, _, _, _⟩ := get_root_spec hwf ha
    simp only [UnionFind.union, hgr,
      get_root_none (show b ∉ s1.elems by rw [he1]; exact hb)]
  · simp only [UnionFind.union, get_root_none ha]

theorem union_nc_none {s : UnionFind} (hwf : s.WF) {a b : Nat}
    (h : a ∉ s.elems ∨ b ∉ s.elems) : s.union_nc a b = none := by
  by_cases ha : a ∈ s.elems
  · have hb : b ∉ s.elems := by tauto
    obtain ⟨r, hgr, _⟩ := get_root_nc_spec hwf ha
    simp only [UnionFind.union_nc, hgr, get_root_nc_none hb]
  · simp only [UnionFind.union_nc, get_root_nc_none ha]

theorem in_same_set_nc_spec {s : UnionFind} (hwf : s.WF) {x y : Nat}
    (hx : x ∈ s.elems) (hy : y ∈ s.elems) :
    ∃ rx ry, s.root? x = some rx ∧ s.root? y = some ry ∧
      s.in_same_set_nc x y = some (decide (rx = ry), s) := by
  obtain ⟨rx, hgr1, hrx⟩ := get_root_nc_spec hwf hx
  obtain ⟨ry, hgr2, hry⟩ := get_root_nc_spec hwf hy
  exact ⟨rx, ry, hrx, hry, by simp only [UnionFind.in_same_set_nc, hgr1, hgr2]⟩

/-- An element registered by `add` becomes (or stays) a singleton root. -/
theorem add_root_new {s : UnionFind} {items : Finset Nat} {z : Nat} (hzi : z ∈ items) :
    (s.add items).root? z = some z := by
  have hroot : (s.add items).parent z = z := by
    show (if z ∈ items then z else s.parent z) = z
    rw [if_pos hzi]
  exact root_self_of_isRoot hroot ⟨z, Finset.mem_union_right _ hzi⟩

/-- When `add` registers only fresh elements, the roots of the old elements are
unchanged. -/
theorem add_root_old {s : UnionFind} (hwf : s.WF) {items : Finset Nat}
    (hdisj : ∀ a ∈ s.elems, a ∉ items) {z w : Nat} (hz : z ∈ s.elems)
    (hw : s.root? z = some w) : (s.add items).root? z = some w := by
  have hw' : findRoot s.parent s.elems.card z = some w := hw
  have hstep := findRoot_reset_fresh hwf.1 hdisj hz hw'
  have hcl' : ∀ a ∈ (s.add items).elems, (s.add items).parent a ∈ (s.add items).elems := by
    intro a ha
    show (if a ∈ items then a else s.parent a) ∈ s.elems ∪ items
    by_cases hai : a ∈ items
    · rw [if_pos hai]; exact ha
    · rw [if_neg hai]
      rcases Finset.mem_union.mp ha with ha' | ha'
      · exact Finset.mem_union_left _ (hwf.1 a ha')
      · exact absurd ha' hai
  have hz' : z ∈ (s.add items).elems := Finset.mem_union_left _ hz
  exact findRoot_card hcl' hz' hstep

theorem sim_add {s t : UnionFind} (hrel : UFRel s t) {items : Finset Nat}
    (hfresh : ∀ z ∈ items, z ∉ s.elems) : UFRel (s.add items) (t.add items) := by
  obtain ⟨helems, hrank, hroots, hwfs, hwft⟩ := hrel
  have hdisj : ∀ a ∈ s.elems, a ∉ items := fun a ha hai => hfresh a hai ha
  have hdisjt : ∀ a ∈ t.elems, a ∉ items := by rw [← helems]; exact hdisj
  have helems' : (s.add items).elems = (t.add items).elems := by
    show s.elems ∪ items = t.elems ∪ items
    rw [helems]
  refine ⟨helems', ?_, ?_, add_wf hwfs items, add_wf hwft items⟩
  · funext z
    show (if z ∈ items then 0 else s.rank z) = (if z ∈ items then 0 else t.rank z)
    rw [hrank]
  · intro z hz
    by_cases hzi : z ∈ items
    · rw [add_root_new hzi, add_root_new hzi]
    · rcases Finset.mem_union.mp hz with hz' | hz'
      · obtain ⟨w, hw⟩ := hwfs.root_exists hz'
        have hwt : t.root? z = some w := by rw [← hroots z hz']; exact hw
        rw [add_root_old hwfs hdisj hz' hw,
          add_root_old hwft hdisjt (helems ▸ hz') hwt]
      · exact absurd hz' hzi

theorem runOuts_sim {s t : UnionFind} (hrel : UFRel s t) :
    ∀ ops, freshAdds s.elems ops = true → runOuts s ops = runOutsNC t ops := by
  intro ops
  induction ops generalizing s t with
  | nil => intro _; rfl
  | cons op rest ih =>
    intro hfresh
    obtain ⟨helems, hrank, hroots, hwfs, hwft⟩ := hrel
    cases op with
    | query a b =>
      have hfresh' : freshAdds s.elems rest = true := by
        simpa [freshAdds] using hfresh
      by_cases hab : a ∈ s.elems ∧ b ∈ s.elems
      · obtain ⟨ha, hb⟩ := hab
        obtain ⟨rx, ry, s', hrx, hry, hiss, he', hk', hwf', hp'⟩ :=
          in_same_set_spec hwfs ha hb
        have hat : a ∈ t.elems := helems ▸ ha
        have hbt : b ∈ t.elems := helems ▸ hb
        obtain ⟨rx2, ry2, hrx2, hry2, hiss2⟩ := in_same_set_nc_spec hwft hat hbt
        have hrxx : rx2 = rx := by
          have := hroots a ha
          rw [hrx, hrx2] at this
          exact (Option.some_injective _ this).symm
        have hryy : ry2 = ry := by
          have := hroots b hb
          rw [hry, hry2] at this
          exact (Option.some_injective _ this).symm
        have hrel' : UFRel s' t := by
          refine ⟨by rw [he', helems], by rw [hk', hrank], ?_, hwf', hwft⟩
          intro z hz
          rw [he'] at hz
          rw [hp' z hz, hroots z hz]
        simp only [runOuts, runOutsNC, hiss, hiss2, hrxx, hryy]
        rw [ih hrel' (by rw [he']; exact hfresh')]
      · have h1 : s.in_same_set a b = none := in_same_set_none hwfs (by tauto)
        have h2 : t.in_same_set_nc a b = none := by
          refine in_same_set_nc_none hwft ?_
          rw [← helems]
          tauto
        simp only [runOuts, runOutsNC, h1, h2]
    | union a b =>
      have hfresh' : freshAdds s.elems rest = true := by
        simpa [freshAdds] using hfresh
      by_cases hab : a ∈ s.elems ∧ b ∈ s.elems
      · obtain ⟨ha, hb⟩ := hab
        obtain ⟨rx, ry, s', hrx, hry, hu, he', hwf', hk', hp'⟩ :=
          union_spec_det hwfs ha hb
        have hat : a ∈ t.elems := helems ▸ ha
        have hbt : b ∈ t.elems := helems ▸ hb
        obtain ⟨rx2, ry2, t', hrx2, hry2, hu2, he2', hwf2', hk2', hp2'⟩ :=
          union_nc_spec_det hwft hat hbt
        have hrxx : rx2 = rx := by
          have := hroots a ha
          rw [hrx, hrx2] at this
          exact (Option.some_injective _ this).symm
        have hryy : ry2 = ry := by
          have := hroots b hb
          rw [hry, hry2] at this
          exact (Option.some_injective _ this).symm
        have hrel' : UFRel s' t' := by
          refine ⟨by rw [he', he2', helems], ?_, ?_, hwf', hwf2'⟩
          · rw [hk', hk2', hrxx, hryy, hrank]
          · intro z hz
            rw [he'] at hz
            rw [hp' z hz, hp2' z (helems ▸ hz), hrxx, hryy, hrank, hroots z hz]
        simp only [runOuts, runOutsNC, runOp, runOpNC, hu, hu2, Option.map_some']
        exact ih hrel' (by rw [he']; exact hfresh')
      · have h1 : s.union a b = none := union_none hwfs (by tauto)
        have h2 : t.union_nc a b = none := by
          refine union_nc_none hwft ?_
          rw [← helems]
          tauto
        simp only [runOuts, runOutsNC, runOp, runOpNC, h1, h2, Option.map_none']
    | find a =>
      have hfresh' : freshAdds s.elems rest = true := by
        simpa [freshAdds] using hfresh
      by_cases ha : a ∈ s.elems
      · obtain ⟨r, s', hgr, hr, he', hk', hwf', hp'⟩ := get_root_spec hwfs ha
        have hat : a ∈ t.elems := helems ▸ ha
        obtain ⟨r2, hgr2, hr2⟩ := get_root_nc_spec hwft hat
        have hrel' : UFRel s' t := by
          refine ⟨by rw [he', helems], by rw [hk', hrank], ?_, hwf', hwft⟩
          intro z hz
          rw [he'] at hz
          rw [hp' z hz, hroots z hz]
        simp only [runOuts, runOutsNC, runOp, runOpNC, hgr, hgr2, Option.map_some']
        exact ih hrel' (by rw [he']; exact hfresh')
      · have h1 : s.get_root a = none := get_root_none ha
        have h2 : t.get_root_nc a = none := get_root_nc_none (by rw [← helems]; exact ha)
        simp only [runOuts, runOutsNC, runOp, runOpNC, h1, h2, Option.map_none']
    | add items =>
      rw [show freshAdds s.elems (.add items :: rest) =
          (decide (∀ z ∈ items, z ∉ s.elems) && freshAdds (s.elems ∪ items) rest)
          from rfl, Bool.and_eq_true] at hfresh
      obtain ⟨h1, h2⟩ := hfresh
      have hfr : ∀ z ∈ items, z ∉ s.elems := of_decide_eq_true h1
      have hrel' : UFRel (s.add items) (t.add items) :=
        sim_add ⟨helems, hrank, hroots, hwfs, hwft⟩ hfr
      simp only [runOuts, runOutsNC, runOp, runOpNC]
      exact ih hrel' h2

/-- **C4 (counterexample).**  As stated over *every* sequence of operations, the
claim fails: `add` may re-register an already-tracked element, and then the
compressed and uncompressed structures disagree.  Over `{0,1,2,3}`, after
`union(0,1); union(2,3); union(0,2)`, a `get_root(3)` compresses `3` directly under
the root `0`; re-registering `2` via `add([2])` then cuts the uncompressed chain
`3 → 2 → 0` but not the compressed one, so `in_same_set(3, 0)` answers `True` with
compression and `False` without. -/
theorem claim_C4_counterexample :
    runOuts (mkUnionFind {0, 1, 2, 3})
      [.union 0 1, .union 2 3, .union 0 2, .find 3, .add {2}, .query 3 0]
      = some [true] ∧
    runOutsNC (mkUnionFind {0, 1, 2, 3})
      [.union 0 1, .union 2 3, .union 0 2, .find 3, .add {2}, .query 3 0]
      = some [false] := by
  decide

/-- **C4 (amended).**  Path compression performed by `get_root` never changes the
abstract partition, provided every `add` of the run registers only fresh elements:
such a run produces exactly the same sequence of `in_same_set` results (and the same
errors) as the variant whose `get_root` follows parent links without repointing
them.  (Without that proviso the claim fails; see the counterexample.) -/
theorem claim_C4 (S : Finset Nat) (ops : List UFOp)
    (hfresh : freshAdds S ops = true) :
    runOuts (mkUnionFind S) ops = runOutsNC (mkUnionFind S) ops :=
  runOuts_sim ⟨rfl, rfl, fun _ _ => rfl, mkUnionFind_wf S, mkUnionFind_wf S⟩ ops hfresh

/-- Witness for the amended C4 at a concrete run. -/
theorem claim_C4_witness :
    runOuts (mkUnionFind {0, 1, 2}) [.union 0 1, .add {5}, .query 0 1, .query 1 2]
      = runOutsNC (mkUnionFind {0, 1, 2}) [.union 0 1, .add {5}, .query 0 1, .query 1 2] :=
  claim_C4 {0, 1, 2} [.union 0 1, .add {5}, .query 0 1, .query 1 2] (by decide)

/-! ### Lemmas about the range query tree -/

theorem getD_set_ne {α : Type} {l : List α} {m j : Nat} {a d : α} (h : m ≠ j) :
    (l.set m a).getD j d = l.getD j d := by
  rw [List.getD_eq_getElem?_getD, List.getD_eq_getElem?_getD, List.getElem?_set,
    if_neg h]

theorem getD_set_self {α : Type} {l : List α} {m : Nat} {a d : α} (h : m < l.length) :
    (l.set m a).getD m d = a := by
  rw [List.getD_eq_getElem?_getD, List.getElem?_set, if_pos rfl, if_pos h]
  rfl

theorem buildLoop_length {α : Type} (f : α → α → α) (e : α) :
    ∀ (i : Nat) (s : List α), (buildLoop f e i s).length = s.length := by
  intro i
  induction i with
  | zero => intro s; simp [buildLoop]
  | succ i ih => intro s; rw [buildLoop, ih, List.length_set]

theorem buildLoop_above {α : Type} (f : α → α → α) (e d : α) :
    ∀ (i : Nat) (s : List α) (j : Nat), i < j →
      (buildLoop f e i s).getD j d = s.getD j d := by
  intro i
  induction i with
  | zero =>
    intro s j hj
    rw [buildLoop, getD_set_ne (by omega)]
  | succ i ih =>
    intro s j hj
    rw [buildLoop, ih _ _ (by omega), getD_set_ne (by omega)]

theorem buildLoop_inv {α : Type} (f : α → α → α) (e : α) :
    ∀ (i : Nat) (s : List α), i < s.length →
      ∀ j, 1 ≤ j → j ≤ i →
        (buildLoop f e i s).getD j e =
          f ((buildLoop f e i s).getD (2 * j) e) ((buildLoop f e i s).getD (2 * j + 1) e) := by
  intro i
  induction i with
  | zero => intro s _ j h1 h0; omega
  | succ i ih =>
    intro s hlen j h1 hji
    by_cases hj : j ≤ i
    · rw [buildLoop]
      exact ih _ (by rw [List.length_set]; omega) j h1 hj
    · have hj' : j = i + 1 := by omega
      subst hj'
      rw [buildLoop, buildLoop_above f e e i _ _ (by omega),
        buildLoop_above f e e i _ _ (by omega),
        buildLoop_above f e e i _ _ (by omega),
        getD_set_self (by omega), getD_set_ne (by omega), getD_set_ne (by omega)]

theorem mkRQT_spec {α : Type} (l : List α) (f : α → α → α) (e : α) (hl : l ≠ []) :
    (mkRQT l f e).Inv ∧ (mkRQT l f e).n = l.length ∧ (mkRQT l f e).f = f ∧
      (mkRQT l f e).e = e ∧
      (mkRQT l f e).tree_size = 2 ^ (Nat.clog 2 l.length + 1) ∧
      (∀ k, (mkRQT l f e).leaf k = if k < l.length then l.getD k e else e) := by
  have hn1 : 1 ≤ l.length := List.length_pos.mpr hl
  set L := Nat.clog 2 l.length with hL
  have hnle : l.length ≤ 2 ^ L := Nat.le_pow_clog (by norm_num) _
  have hts2 : (2 : Nat) ^ (L + 1) / 2 = 2 ^ L := by
    rw [pow_succ, Nat.mul_div_cancel _ (by norm_num)]
  set s0 : List α :=
    List.replicate (2 ^ (L + 1) / 2) e ++ l ++ List.replicate (2 ^ (L + 1) / 2 - l.length) e
    with hs0
  have hlen0 : s0.length = 2 ^ (L + 1) := by
    rw [hs0, List.length_append, List.length_append, List.length_replicate,
      List.length_replicate, hts2]
    have : (2:Nat) ^ (L + 1) = 2 ^ L * 2 := by rw [pow_succ]
    omega
  have hleafval : ∀ k, s0.getD (2 ^ L + k) e = if k < l.length then l.getD k e else e := by
    intro k
    have h1 : (List.replicate (2 ^ (L + 1) / 2) e).length = 2 ^ L := by
      rw [List.length_replicate, hts2]
    by_cases hk : k < l.length
    · rw [if_pos hk, hs0, List.append_assoc,
        List.getD_append_right _ _ _ _ (by rw [h1]; omega), h1]
      have : 2 ^ L + k - 2 ^ L = k := by omega
      rw [this, List.getD_append _ _ _ _ (by omega)]
    · rw [if_neg hk, hs0, List.append_assoc,
        List.getD_append_right _ _ _ _ (by rw [h1]; omega), h1]
      have : 2 ^ L + k - 2 ^ L = k := by omega
      rw [this]
      by_cases hk2 : k < l.length + (2 ^ (L + 1) / 2 - l.length)
      · rw [List.getD_append_right _ _ _ _ (by omega)]
        rw [List.getD_eq_getElem _ _ (by rw [List.length_replicate]; omega),
          List.getElem_replicate]
      · rw [List.getD_eq_getElem?_getD, List.getElem?_eq_none, Option.getD_none]
        rw [List.length_append, List.length_replicate]
        omega
  refine ⟨⟨hn1, rfl, ?_, ?_⟩, rfl, rfl, rfl, rfl, ?_⟩
  · show (buildLoop f e (2 ^ (L + 1) / 2 - 1) s0).length = 2 ^ (L + 1)
    rw [buildLoop_length, hlen0]
  · intro j h1 hj
    have hj2 : j < 2 ^ (L + 1) / 2 := hj
    have hjle : j ≤ 2 ^ (L + 1) / 2 - 1 := by omega
    exact buildLoop_inv f e _ s0 (by rw [hlen0, hts2]; omega) j h1 hjle
  · intro k
    show (buildLoop f e (2 ^ (L + 1) / 2 - 1) s0).getD (2 ^ (L + 1) / 2 + k) e = _
    rw [buildLoop_above f e e _ _ _ (by omega), hts2, hleafval k]

theorem ancChain_zero : ancChain 0 = [] := by rw [ancChain]

theorem ancChain_succ (pi : Nat) :
    ancChain (pi + 1) = (pi + 1) :: ancChain ((pi + 1) / 2) := by
  rw [ancChain]

theorem ancChain_bounds : ∀ pi, ∀ j ∈ ancChain pi, 1 ≤ j ∧ j ≤ pi := by
  intro pi
  induction pi using Nat.strong_induction_on with
  | _ pi ih =>
    match pi with
    | 0 => intro j hj; rw [ancChain_zero] at hj; simp at hj
    | pi + 1 =>
      intro j hj
      rw [ancChain_succ] at hj
      rcases List.mem_cons.mp hj with rfl | hj'
      · omega
      · have := ih ((pi + 1) / 2) (by omega) j hj'
        omega

theorem self_mem_ancChain {j : Nat} (hj : 1 ≤ j) : j ∈ ancChain j := by
  match j, hj with
  | j + 1, _ => rw [ancChain_succ]; exact List.mem_cons_self _ _

theorem ancChain_parent : ∀ pi {j : Nat}, 1 ≤ j →
    (2 * j ∈ ancChain pi ∨ 2 * j + 1 ∈ ancChain pi) → j ∈ ancChain pi := by
  intro pi
  induction pi using Nat.strong_induction_on with
  | _ pi ih =>
    match pi with
    | 0 => intro j _ hj; rw [ancChain_zero] at hj; simp at hj
    | pi + 1 =>
      intro j hj1 hj
      rw [ancChain_succ] at hj ⊢
      rcases hj with hj | hj
      · rcases List.mem_cons.mp hj with heq | hj'
        · refine List.mem_cons.mpr (Or.inr ?_)
          have : (pi + 1) / 2 = j := by omega
          rw [this]
          exact self_mem_ancChain hj1
        · exact List.mem_cons.mpr (Or.inr (ih _ (by omega) hj1 (Or.inl hj')))
      · rcases List.mem_cons.mp hj with heq | hj'
        · refine List.mem_cons.mpr (Or.inr ?_)
          have : (pi + 1) / 2 = j := by omega
          rw [this]
          exact self_mem_ancChain hj1
        · exact List.mem_cons.mpr (Or.inr (ih _ (by omega) hj1 (Or.inr hj')))

theorem updateLoop_zero {α : Type} (f : α → α → α) (e : α) (s : List α) :
    updateLoop f e s 0 = s := by
  rw [updateLoop]
  simp

theorem updateLoop_spec {α : Type} (f : α → α → α) (e : α) :
    ∀ pi (s : List α), 1 ≤ pi → 2 * pi + 1 < s.length →
      (updateLoop f e s pi).length = s.length ∧
      (∀ j, j ∉ ancChain pi → (updateLoop f e s pi).getD j e = s.getD j e) ∧
      (∀ j ∈ ancChain pi,
        (updateLoop f e s pi).getD j e =
          f ((updateLoop f e s pi).getD (2 * j) e)
            ((updateLoop f e s pi).getD (2 * j + 1) e)) := by
  intro pi
  induction pi using Nat.strong_induction_on with
  | _ pi ih =>
    intro s hpi hlen
    obtain ⟨pi', rfl⟩ : ∃ k, pi = k + 1 := ⟨pi - 1, by omega⟩
    rw [updateLoop, if_neg (by omega)]
    set c := f (s.getD (2 * (pi' + 1)) e) (s.getD (2 * (pi' + 1) + 1) e) with hc
    by_cases hpi1 : pi' = 0
    · subst hpi1
      rw [show (1 : Nat) / 2 = 0 from rfl, updateLoop_zero]
      refine ⟨List.length_set _ _ _, ?_, ?_⟩
      · intro j hj
        rw [ancChain_succ, ancChain_zero] at hj
        simp only [List.mem_cons, List.not_mem_nil, or_false] at hj
        exact getD_set_ne (by omega)
      · intro j hj
        rw [ancChain_succ, ancChain_zero] at hj
        simp only [List.mem_cons, List.not_mem_nil, or_false] at hj
        subst hj
        rw [getD_set_self (by omega), getD_set_ne (by omega), getD_set_ne (by omega)]
    · have hpi2 : 2 ≤ pi' + 1 := by omega
      have hstep := ih ((pi' + 1) / 2) (by omega) (s.set (pi' + 1) c) (by omega)
        (by rw [List.length_set]; omega)
      obtain ⟨hslen, hsout, hsin⟩ := hstep
      have hchain2 : ∀ j ∈ ancChain ((pi' + 1) / 2), j ≤ (pi' + 1) / 2 :=
        fun j hj => (ancChain_bounds _ j hj).2
      refine ⟨by rw [hslen, List.length_set], ?_, ?_⟩
      · intro j hj
        rw [ancChain_succ] at hj
        simp only [List.mem_cons, not_or] at hj
        rw [hsout j hj.2, getD_set_ne (by omega)]
      · intro j hj
        rw [ancChain_succ] at hj
        rcases List.mem_cons.mp hj with rfl | hj'
        · have hnotin : (pi' + 1) ∉ ancChain ((pi' + 1) / 2) := by
            intro hmem
            have := hchain2 _ hmem
            omega
          have hnotin2 : 2 * (pi' + 1) ∉ ancChain ((pi' + 1) / 2) := by
            intro hmem
            have := hchain2 _ hmem
            omega
          have hnotin3 : 2 * (pi' + 1) + 1 ∉ ancChain ((pi' + 1) / 2) := by
            intro hmem
            have := hchain2 _ hmem
            omega
          rw [hsout _ hnotin, hsout _ hnotin2, hsout _ hnotin3,
            getD_set_self (by omega), getD_set_ne (by omega), getD_set_ne (by omega)]
        · exact hsin j hj'

theorem update_spec {α : Type} {t : RQT α} (hinv : t.Inv) {k : Nat} (hk : k < t.n)
    (v : α) :
    ∃ t', t.update k v = some t' ∧ t'.Inv ∧ t'.n = t.n ∧ t'.f = t.f ∧ t'.e = t.e ∧
      t'.tree_size = t.tree_size ∧
      (∀ k', t'.leaf k' = if k' = k then v else t.leaf k') := by
  obtain ⟨hn1, hts, hlen, hnodes⟩ := hinv
  have hnts : t.n ≤ 2 ^ Nat.clog 2 t.n := Nat.le_pow_clog (by norm_num) _
  have htsval : t.tree_size = 2 * 2 ^ Nat.clog 2 t.n := by
    rw [hts, pow_succ]
    ring
  have hts2 : t.tree_size / 2 = 2 ^ Nat.clog 2 t.n := by omega
  have hi : t.tree_size / 2 ≤ k + t.tree_size / 2 ∧ k + t.tree_size / 2 < t.tree_size := by
    omega
  set i := k + t.tree_size / 2 with hidef
  set s' := t.seq.set i v with hs'
  have hlens' : s'.length = t.tree_size := by rw [hs', List.length_set, hlen]
  refine ⟨{ t with seq := updateLoop t.f t.e s' (i / 2) }, ?_, ?_, rfl, rfl, rfl, rfl, ?_⟩
  · unfold RQT.update
    rw [if_pos hk]
  · by_cases hpi : i / 2 = 0
    · have hkz : i ≤ 1 := by omega
      have hts1 : t.tree_size / 2 = 1 := by omega
      refine ⟨hn1, hts, ?_, ?_⟩
      · show (updateLoop t.f t.e s' (i / 2)).length = t.tree_size
        rw [hpi, updateLoop_zero, hlens']
      · intro j h1 hj
        rw [hts1] at hj
        omega
    · have hpi1 : 1 ≤ i / 2 := by omega
      have hbnd : 2 * (i / 2) + 1 < s'.length := by
        rw [hlens']
        omega
      obtain ⟨hULlen, hULout, hULin⟩ := updateLoop_spec t.f t.e (i / 2) s' hpi1 hbnd
      have hchainle : ∀ m ∈ ancChain (i / 2), m ≤ i / 2 :=
        fun m hm => (ancChain_bounds _ m hm).2
      refine ⟨hn1, hts, ?_, ?_⟩
      · show (updateLoop t.f t.e s' (i / 2)).length = t.tree_size
        rw [hULlen, hlens']
      · intro j h1 hj
        have hj' : j < t.tree_size / 2 := hj
        by_cases hjc : j ∈ ancChain (i / 2)
        · exact hULin j hjc
        · have h2j : 2 * j ∉ ancChain (i / 2) := by
            intro hmem
            exact hjc (ancChain_parent _ h1 (Or.inl hmem))
          have h2j1 : 2 * j + 1 ∉ ancChain (i / 2) := by
            intro hmem
            exact hjc (ancChain_parent _ h1 (Or.inr hmem))
          have hji : j ≠ i := by omega
          have h2ji : 2 * j ≠ i := by
            intro hh
            exact hjc (by rw [show j = i / 2 by omega]; exact self_mem_ancChain hpi1)
          have h2j1i : 2 * j + 1 ≠ i := by
            intro hh
            exact hjc (by rw [show j = i / 2 by omega]; exact self_mem_ancChain hpi1)
          show (updateLoop t.f t.e s' (i / 2)).getD j t.e = _
          rw [hULout j hjc, hULout _ h2j, hULout _ h2j1, hs',
            getD_set_ne (by omega), getD_set_ne (by omega), getD_set_ne (by omega)]
          exact hnodes j h1 hj'
  · intro k'
    show (updateLoop t.f t.e s' (i / 2)).getD (t.tree_size / 2 + k') t.e = _
    have hnotc : t.tree_size / 2 + k' ∉ ancChain (i / 2) := by
      intro hmem
      have := (ancChain_bounds _ _ hmem).2
      omega
    by_cases hpi : i / 2 = 0
    · rw [hpi, updateLoop_zero]
      by_cases hkk : k' = k
      · rw [if_pos hkk, hs', hkk, show t.tree_size / 2 + k = i by omega,
          getD_set_self (by omega)]
      · rw [if_neg hkk, hs', getD_set_ne (by omega)]
        rfl
    · have hpi1 : 1 ≤ i / 2 := by omega
      have hbnd : 2 * (i / 2) + 1 < s'.length := by
        rw [hlens']
        omega
      obtain ⟨hULlen, hULout, hULin⟩ := updateLoop_spec t.f t.e (i / 2) s' hpi1 hbnd
      rw [hULout _ hnotc]
      by_cases hkk : k' = k
      · rw [if_pos hkk, hs', hkk, show t.tree_size / 2 + k = i by omega,
          getD_set_self (by omega)]
      · rw [if_neg hkk, hs', getD_set_ne (by omega)]
        rfl

theorem foldr_op {α : Type} {f : α → α → α} {e : α}
    (hassoc : ∀ a b c, f (f a b) c = f a (f b c)) (hidl : ∀ a, f e a = a) :
    ∀ (u : List α) (c : α), u.foldr f c = f (u.foldr f e) c := by
  intro u
  induction u with
  | nil => intro c; simp [hidl]
  | cons a u ih =>
    intro c
    simp only [List.foldr_cons, ih c, hassoc]

theorem winFold_add {α : Type} {t : RQT α}
    (hassoc : ∀ a b c, t.f (t.f a b) c = t.f a (t.f b c))
    (hidl : ∀ a, t.f t.e a = a) (a w1 w2 : Nat) :
    t.winFold a (w1 + w2) = t.f (t.winFold a w1) (t.winFold (a + w1) w2) := by
  unfold RQT.winFold
  rw [List.range_add, List.map_append, List.foldr_append,
    foldr_op hassoc hidl ((List.range w1).map fun k => t.leaf (a + k))]
  congr 2
  rw [List.map_map]
  apply List.map_congr_left
  intro k _
  simp only [Function.comp_apply]
  congr 1
  omega

theorem foldWin_join {α : Type} {t : RQT α}
    (hassoc : ∀ a b c, t.f (t.f a b) c = t.f a (t.f b c))
    (hidl : ∀ a, t.f t.e a = a) {a m b : Nat} (h1 : a ≤ m + 1) (h2 : m ≤ b) :
    t.foldWin a b = t.f (t.foldWin a m) (t.foldWin (m + 1) b) := by
  unfold RQT.foldWin
  have hw : b + 1 - a = (m + 1 - a) + (b - m) := by omega
  have hst : a + (m + 1 - a) = m + 1 := by omega
  have hw2 : b - m = b + 1 - (m + 1) := by omega
  rw [hw, winFold_add hassoc hidl, hst, hw2]

theorem foldWin_empty {α : Type} {t : RQT α} {a b : Nat} (h : b + 1 ≤ a) :
    t.foldWin a b = t.e := by
  unfold RQT.foldWin RQT.winFold
  rw [show b + 1 - a = 0 by omega]
  rfl

theorem foldWin_single {α : Type} {t : RQT α} (hidr : ∀ a, t.f a t.e = a) (k : Nat) :
    t.foldWin k k = t.leaf k := by
  unfold RQT.foldWin RQT.winFold
  rw [show k + 1 - k = 1 by omega,
    show List.range 1 = [0] by decide]
  simp only [List.map_cons, List.map_nil, List.foldr_cons, List.foldr_nil]
  rw [Nat.add_zero, hidr]

/-- The value stored at a node of level `ℓ = clog2 n - d` is the fold of the node's
leaf window of width `2^d`. -/
theorem node_val {α : Type} {t : RQT α} (hinv : t.Inv)
    (hassoc : ∀ a b c, t.f (t.f a b) c = t.f a (t.f b c))
    (hidl : ∀ a, t.f t.e a = a) (hidr : ∀ a, t.f a t.e = a) :
    ∀ (d ℓ node : Nat), ℓ + d = Nat.clog 2 t.n → 2 ^ ℓ ≤ node → node < 2 ^ (ℓ + 1) →
      t.seq.getD node t.e = t.winFold ((node - 2 ^ ℓ) * 2 ^ d) (2 ^ d) := by
  obtain ⟨hn1, hts, hlen, hnodes⟩ := hinv
  intro d
  induction d with
  | zero =>
    intro ℓ node hL h1 h2
    obtain ⟨num, rfl⟩ : ∃ m, node = 2 ^ ℓ + m := ⟨node - 2 ^ ℓ, by omega⟩
    rw [show 2 ^ ℓ + num - 2 ^ ℓ = num by omega]
    have hts2 : t.tree_size / 2 = 2 ^ ℓ := by
      rw [hts, ← hL, Nat.add_zero, pow_succ, Nat.mul_div_cancel _ (by norm_num)]
    have hleafeq : t.seq.getD (2 ^ ℓ + num) t.e = t.leaf num := by
      unfold RQT.leaf
      rw [hts2]
    rw [hleafeq, show num * 2 ^ 0 = num by omega]
    unfold RQT.winFold
    rw [show List.range (2 ^ 0) = [0] by decide]
    simp only [List.map_cons, List.map_nil, List.foldr_cons, List.foldr_nil]
    rw [Nat.add_zero, hidr]
  | succ d ih =>
    intro ℓ node hL h1 h2
    obtain ⟨num, rfl⟩ : ∃ m, node = 2 ^ ℓ + m := ⟨node - 2 ^ ℓ, by omega⟩
    rw [show 2 ^ ℓ + num - 2 ^ ℓ = num by omega]
    have hp1 : (2:Nat) ^ (ℓ + 1) = 2 * 2 ^ ℓ := by rw [pow_succ]; ring
    have hnum : num < 2 ^ ℓ := by omega
    have h2l : 1 ≤ (2:Nat) ^ ℓ := Nat.one_le_two_pow
    have hnode1 : 1 ≤ 2 ^ ℓ + num := by omega
    have hnodelt : 2 ^ ℓ + num < t.tree_size / 2 := by
      have hts2 : t.tree_size / 2 = 2 ^ Nat.clog 2 t.n := by
        rw [hts, pow_succ, Nat.mul_div_cancel _ (by norm_num)]
      have hle : (2:Nat) ^ (ℓ + 1) ≤ 2 ^ Nat.clog 2 t.n :=
        Nat.pow_le_pow_right (by norm_num) (by omega)
      omega
    have hchild1 : (2:Nat) ^ (ℓ + 1) ≤ 2 * (2 ^ ℓ + num) := by omega
    have hchild2 : 2 * (2 ^ ℓ + num) < 2 ^ (ℓ + 1 + 1) := by
      rw [pow_succ]
      omega
    have hchild2' : 2 * (2 ^ ℓ + num) + 1 < 2 ^ (ℓ + 1 + 1) := by
      rw [pow_succ]
      omega
    have ihl := ih (ℓ + 1) (2 * (2 ^ ℓ + num)) (by omega) hchild1 hchild2
    have ihr := ih (ℓ + 1) (2 * (2 ^ ℓ + num) + 1) (by omega) (by omega) hchild2'
    rw [hnodes _ hnode1 hnodelt, ihl, ihr]
    rw [show 2 * (2 ^ ℓ + num) - 2 ^ (ℓ + 1) = 2 * num by omega,
      show 2 * (2 ^ ℓ + num) + 1 - 2 ^ (ℓ + 1) = 2 * num + 1 by omega]
    rw [show num * 2 ^ (d + 1) = 2 * num * 2 ^ d by rw [pow_succ]; ring,
      show (2:Nat) ^ (d + 1) = 2 ^ d + 2 ^ d by rw [pow_succ]; ring,
      winFold_add hassoc hidl,
      show 2 * num * 2 ^ d + 2 ^ d = (2 * num + 1) * 2 ^ d by ring]

/-- `_node_info` at a node of level `ℓ ≤ clog2 n` computes the covered window
`[num * 2^(clog2 n - ℓ), num * 2^(clog2 n - ℓ) + 2^(clog2 n - ℓ) - 1]`. -/
theorem node_info_eq {α : Type} (t : RQT α) {ℓ node : Nat}
    (h1 : 2 ^ ℓ ≤ node) (h2 : node < 2 ^ (ℓ + 1)) :
    t.node_info node =
      (ℓ, (node - 2 ^ ℓ) * 2 ^ (Nat.clog 2 t.n - ℓ),
        (node - 2 ^ ℓ) * 2 ^ (Nat.clog 2 t.n - ℓ) + 2 ^ (Nat.clog 2 t.n - ℓ) - 1,
        node - 2 ^ ℓ) := by
  have hlog : Nat.log 2 node = ℓ := Nat.log_eq_of_pow_le_of_lt_pow h1 h2
  have hpow : 1 ≤ (2:Nat) ^ (Nat.clog 2 t.n - ℓ) := Nat.one_le_two_pow
  have hrm : 2 ^ (Nat.clog 2 t.n - ℓ) - 1 + 1 = 2 ^ (Nat.clog 2 t.n - ℓ) := by omega
  simp only [RQT.node_info, hlog]
  rw [hrm]
  simp only [Prod.mk.injEq, true_and, and_true]
  omega

/-- Correctness of `_query_node` with fuel `d + 1` at a node of level
`clog2 n - d`: the result is the fold over the intersection of the query interval
with the node's window (the identity when they are disjoint). -/
theorem queryNode_correct {α : Type} {t : RQT α} (hinv : t.Inv)
    (hassoc : ∀ a b c, t.f (t.f a b) c = t.f a (t.f b c))
    (hidl : ∀ a, t.f t.e a = a) (hidr : ∀ a, t.f a t.e = a) {i j : Nat} (hij : i ≤ j) :
    ∀ (d ℓ node : Nat), ℓ + d = Nat.clog 2 t.n → 2 ^ ℓ ≤ node → node < 2 ^ (ℓ + 1) →
      t.queryNode (d + 1) node i j =
        some (t.foldWin (max i ((node - 2 ^ ℓ) * 2 ^ d))
          (min j ((node - 2 ^ ℓ) * 2 ^ d + 2 ^ d - 1))) := by
  intro d
  induction d with
  | zero =>
    intro ℓ node hL h1 h2
    rw [RQT.queryNode]
    rw [node_info_eq t h1 h2, show Nat.clog 2 t.n - ℓ = 0 by omega]
    simp only [pow_zero, Nat.mul_one]
    obtain ⟨num, rfl⟩ : ∃ m, node = 2 ^ ℓ + m := ⟨node - 2 ^ ℓ, by omega⟩
    rw [show 2 ^ ℓ + num - 2 ^ ℓ = num by omega]
    simp only [Nat.add_sub_cancel]
    by_cases hfull : i ≤ num ∧ j ≥ num
    · rw [if_pos hfull]
      have hval := node_val ⟨hinv.1, hinv.2.1, hinv.2.2.1, hinv.2.2.2⟩ hassoc hidl hidr
        0 ℓ (2 ^ ℓ + num) hL h1 h2
      rw [hval, show 2 ^ ℓ + num - 2 ^ ℓ = num by omega]
      have hmax : max i num = num := by omega
      have hmin : min j num = num := by omega
      rw [hmax, hmin]
      unfold RQT.foldWin
      rw [show num + 1 - num = 1 by omega, show num * 2 ^ 0 = num by omega, pow_zero]
    · rw [if_neg hfull]
      have hdisj : (i > num ∧ i > num) ∨ (j < num ∧ j < num) := by omega
      rw [if_pos hdisj]
      have hemp : min j num + 1 ≤ max i num := by omega
      rw [foldWin_empty hemp]
  | succ d ih =>
    intro ℓ node hL h1 h2
    rw [RQT.queryNode]
    rw [node_info_eq t h1 h2, show Nat.clog 2 t.n - ℓ = d + 1 by omega]
    obtain ⟨num, rfl⟩ : ∃ m, node = 2 ^ ℓ + m := ⟨node - 2 ^ ℓ, by omega⟩
    rw [show 2 ^ ℓ + num - 2 ^ ℓ = num by omega]
    simp only
    have h2d : 1 ≤ (2:Nat) ^ d := Nat.one_le_two_pow
    have h2l : 1 ≤ (2:Nat) ^ ℓ := Nat.one_le_two_pow
    have hnum : num < 2 ^ ℓ := by
      have : (2:Nat) ^ (ℓ + 1) = 2 * 2 ^ ℓ := by rw [pow_succ]; ring
      omega
    have hstart : num * 2 ^ (d + 1) = 2 * num * 2 ^ d := by rw [pow_succ]; ring
    have hdd : (2:Nat) ^ (d + 1) = 2 ^ d + 2 ^ d := by rw [pow_succ]; ring
    set a := num * 2 ^ (d + 1) with ha
    set b := num * 2 ^ (d + 1) + 2 ^ (d + 1) - 1 with hb
    by_cases hfull : i ≤ a ∧ j ≥ b
    · rw [if_pos hfull]
      have hval := node_val ⟨hinv.1, hinv.2.1, hinv.2.2.1, hinv.2.2.2⟩ hassoc hidl hidr
        (d + 1) ℓ (2 ^ ℓ + num) hL h1 h2
      rw [hval, show 2 ^ ℓ + num - 2 ^ ℓ = num by omega]
      have hmax : max i a = a := by omega
      have hmin : min j b = b := by omega
      rw [hmax, hmin]
      unfold RQT.foldWin
      rw [show b + 1 - a = 2 ^ (d + 1) by omega]
    · rw [if_neg hfull]
      by_cases hdisj : (i > a ∧ i > b) ∨ (j < a ∧ j < b)
      · rw [if_pos hdisj]
        have hemp : min j b + 1 ≤ max i a := by omega
        rw [foldWin_empty hemp]
      · rw [if_neg hdisj]
        -- descend into the two children
        have hchild1 : 2 ^ (ℓ + 1) ≤ 2 * (2 ^ ℓ + num) := by
          have : (2:Nat) ^ (ℓ + 1) = 2 * 2 ^ ℓ := by rw [pow_succ]; ring
          omega
        have hchild2 : 2 * (2 ^ ℓ + num) < 2 ^ (ℓ + 1 + 1) := by
          have : (2:Nat) ^ (ℓ + 1 + 1) = 4 * 2 ^ ℓ := by
            rw [pow_succ, pow_succ]
            ring
          omega
        have hchild2' : 2 * (2 ^ ℓ + num) + 1 < 2 ^ (ℓ + 1 + 1) := by
          have : (2:Nat) ^ (ℓ + 1 + 1) = 4 * 2 ^ ℓ := by
            rw [pow_succ, pow_succ]
            ring
          omega
        have ihl := ih (ℓ + 1) (2 * (2 ^ ℓ + num)) (by omega) hchild1 hchild2
        have ihr := ih (ℓ + 1) (2 * (2 ^ ℓ + num) + 1) (by omega) (by omega) hchild2'
        rw [show 2 * (2 ^ ℓ + num) - 2 ^ (ℓ + 1) = 2 * num by
            have : (2:Nat) ^ (ℓ + 1) = 2 * 2 ^ ℓ := by rw [pow_succ]; ring
            omega] at ihl
        rw [show 2 * (2 ^ ℓ + num) + 1 - 2 ^ (ℓ + 1) = 2 * num + 1 by
            have : (2:Nat) ^ (ℓ + 1) = 2 * 2 ^ ℓ := by rw [pow_succ]; ring
            omega] at ihr
        rw [ihl, ihr]
        simp only [Option.some_bind]
        -- combine the two child folds
        set m := 2 * num * 2 ^ d + 2 ^ d - 1 with hm
        have hm1 : (2 * num + 1) * 2 ^ d = m + 1 := by
          have : (2 * num + 1) * 2 ^ d = 2 * num * 2 ^ d + 2 ^ d := by ring
          omega
        rw [hm1, show m + 1 + 2 ^ d - 1 = b by omega]
        have hlo : max i a = max i (2 * num * 2 ^ d) := by
          rw [hstart]
        rw [← hlo]
        -- three cases on the position of the split point m
        rcases Nat.lt_or_ge m j with hmj | hmj
        · rcases Nat.lt_or_ge m i with hmi | hmi
          · -- left child window is empty
            have hemp : min j m + 1 ≤ max i a := by omega
            rw [foldWin_empty hemp, hidl,
              show i ⊔ (m + 1) = i ⊔ a by omega]
          · -- genuine split
            have hlo2 : max i a ≤ m + 1 := by omega
            have hhi2 : m ≤ min j b := by omega
            rw [show max i (m + 1) = m + 1 by omega,
              show min j m = m by omega]
            rw [← foldWin_join hassoc hidl hlo2 hhi2]
        · -- right child window is empty
          have hemp : min j b + 1 ≤ max i (m + 1) := by omega
          rw [foldWin_empty hemp, hidr,
            show j ⊓ m = j ⊓ b by omega]

/-- Master theorem for `query`: on a well-formed tree with an associative operator
and identity, a valid query returns the fold of the leaf window `[i, j]`. -/
theorem query_spec {α : Type} {t : RQT α} (hinv : t.Inv)
    (hassoc : ∀ a b c, t.f (t.f a b) c = t.f a (t.f b c))
    (hidl : ∀ a, t.f t.e a = a) (hidr : ∀ a, t.f a t.e = a)
    {i j : Nat} (hij : i ≤ j) (hj : j < t.n) :
    t.query i j = some (t.foldWin i j) := by
  have hnle : t.n ≤ 2 ^ Nat.clog 2 t.n := Nat.le_pow_clog (by norm_num) _
  have h2L : 1 ≤ (2:Nat) ^ Nat.clog 2 t.n := Nat.one_le_two_pow
  unfold RQT.query
  rw [if_pos (by omega), if_pos hj, if_neg (by omega)]
  have h := queryNode_correct hinv hassoc hidl hidr hij (Nat.clog 2 t.n) 0 1
    (by omega) (by norm_num) (by norm_num)
  rw [h, show ((1 : Nat) - 2 ^ 0) * 2 ^ Nat.clog 2 t.n = 0 by norm_num]
  rw [show i ⊔ 0 = i by omega, show j ⊓ (0 + 2 ^ Nat.clog 2 t.n - 1) = j by omega]

/-- Folds agree when the two trees use the same operator/identity and have the same
leaves throughout the window. -/
theorem winFold_congr {α : Type} {t t' : RQT α} (hf : t'.f = t.f) (he : t'.e = t.e)
    (a w : Nat) (h : ∀ x, x < w → t'.leaf (a + x) = t.leaf (a + x)) :
    t'.winFold a w = t.winFold a w := by
  unfold RQT.winFold
  rw [hf, he]
  congr 1
  apply List.map_congr_left
  intro x hx
  exact h x (List.mem_range.mp hx)

theorem foldWin_congr {α : Type} {t t' : RQT α} (hf : t'.f = t.f) (he : t'.e = t.e)
    (a b : Nat) (h : ∀ x, a ≤ x → x ≤ b → t'.leaf x = t.leaf x) :
    t'.foldWin a b = t.foldWin a b := by
  unfold RQT.foldWin
  apply winFold_congr hf he
  intro x hx
  exact h (a + x) (by omega) (by omega)

/-- The full-window fold of a freshly built tree is the fold of the input list. -/
theorem mkRQT_winFold_all {α : Type} (l : List α) (f : α → α → α) (e : α)
    (hl : l ≠ []) : (mkRQT l f e).winFold 0 l.length = l.foldr f e := by
  obtain ⟨_, _, hfeq, heeq, _, hleaf⟩ := mkRQT_spec l f e hl
  unfold RQT.winFold
  rw [hfeq, heeq]
  congr 1
  apply List.ext_getElem
  · simp
  · intro k h1 h2
    simp only [List.getElem_map, List.getElem_range]
    rw [show (0 : Nat) + k = k by omega, hleaf k,
      if_pos (by simpa using h1), List.getD_eq_getElem _ _ (by simpa using h1)]

/-- **C5.** After `update(k, v)` on a tree built with an associative combine and its
identity: `get(k)` returns `v`; the leaf window is the old one with slot `k` set to
`v`; every valid query whose interval contains `k` returns the fold of the updated
leaf window over that interval; and every valid query whose interval avoids `k`
returns exactly what it returned before the update. -/
theorem claim_C5 {α : Type} (l : List α) (f : α → α → α) (e : α)
    (hassoc : ∀ a b c, f (f a b) c = f a (f b c))
    (hidl : ∀ a, f e a = a) (hidr : ∀ a, f a e = a)
    (hl : l ≠ []) (k : Nat) (v : α) (hk : k < l.length) :
    ∃ t', (mkRQT l f e).update k v = some t' ∧
      t'.get k = some v ∧
      (∀ k', t'.leaf k' = if k' = k then v else (mkRQT l f e).leaf k') ∧
      (∀ i j, i ≤ k → k ≤ j → j < l.length → t'.query i j = some (t'.foldWin i j)) ∧
      (∀ i j, i ≤ j → j < l.length → (k < i ∨ j < k) →
        t'.query i j = (mkRQT l f e).query i j) := by
  obtain ⟨hinv, hn, hfeq, heeq, hts, hleaf⟩ := mkRQT_spec l f e hl
  have hkn : k < (mkRQT l f e).n := by rw [hn]; exact hk
  obtain ⟨t', hup, hinv', hn', hf', he', hts', hleaf'⟩ := update_spec hinv hkn v
  have hassocT : ∀ a b c, t'.f (t'.f a b) c = t'.f a (t'.f b c) := by
    rw [hf', hfeq]; exact hassoc
  have hidl' : ∀ a, t'.f t'.e a = a := by rw [hf', he', hfeq, heeq]; exact hidl
  have hidr' : ∀ a, t'.f a t'.e = a := by rw [hf', he', hfeq, heeq]; exact hidr
  have hassoc0 : ∀ a b c,
      (mkRQT l f e).f ((mkRQT l f e).f a b) c = (mkRQT l f e).f a ((mkRQT l f e).f b c) := by
    rw [hfeq]; exact hassoc
  have hidl0 : ∀ a, (mkRQT l f e).f (mkRQT l f e).e a = a := by
    rw [hfeq, heeq]; exact hidl
  have hidr0 : ∀ a, (mkRQT l f e).f a (mkRQT l f e).e = a := by
    rw [hfeq, heeq]; exact hidr
  refine ⟨t', hup, ?_, ?_, ?_, ?_⟩
  · -- get k = some v
    have hn1' := hinv'.1
    have htsval' := hinv'.2.1
    have hlen' := hinv'.2.2.1
    have hnle' : t'.n ≤ 2 ^ Nat.clog 2 t'.n := Nat.le_pow_clog (by norm_num) _
    have hts2' : t'.tree_size / 2 = 2 ^ Nat.clog 2 t'.n := by
      rw [htsval', pow_succ, Nat.mul_div_cancel _ (by norm_num)]
    have hkn' : k < t'.n := by rw [hn', hn]; exact hk
    have hidx : t'.tree_size / 2 + k < t'.seq.length := by
      rw [hlen', htsval', pow_succ]
      omega
    unfold RQT.get
    rw [show k + t'.tree_size / 2 = t'.tree_size / 2 + k by omega,
      List.get?_eq_getElem?, List.getElem?_eq_getElem hidx]
    have hv := hleaf' k
    rw [if_pos rfl] at hv
    unfold RQT.leaf at hv
    rw [List.getD_eq_getElem _ _ hidx] at hv
    rw [hv]
  · exact hleaf'
  · intro i j hi hj hjn
    exact query_spec hinv' hassocT hidl' hidr' (by omega) (by rw [hn', hn]; exact hjn)
  · intro i j hij hjn hout
    rw [query_spec hinv' hassocT hidl' hidr' hij (by rw [hn', hn]; exact hjn),
      query_spec hinv hassoc0 hidl0 hidr0 hij (by rw [hn]; exact hjn)]
    congr 1
    apply foldWin_congr (by rw [hf']) (by rw [he'])
    intro x hx1 hx2
    rw [hleaf' x, if_neg (by omega)]

/-- **C6.** For a tree built from a non-empty sequence with an associative combine
and its identity: `query(i, i)` equals `get(i)` for every valid `i`, and
`query(0, n-1)` equals the fold of the combine over all stored elements with the
identity as initial value. -/
theorem claim_C6 {α : Type} (l : List α) (f : α → α → α) (e : α)
    (hassoc : ∀ a b c, f (f a b) c = f a (f b c))
    (hidl : ∀ a, f e a = a) (hidr : ∀ a, f a e = a) (hl : l ≠ []) :
    (∀ i, i < l.length → (mkRQT l f e).query i i = (mkRQT l f e).get i) ∧
    (mkRQT l f e).query 0 (l.length - 1) = some (l.foldr f e) := by
  obtain ⟨hinv, hn, hfeq, heeq, hts, hleaf⟩ := mkRQT_spec l f e hl
  have hn1 : 1 ≤ l.length := List.length_pos.mpr hl
  have hassoc0 : ∀ a b c,
      (mkRQT l f e).f ((mkRQT l f e).f a b) c = (mkRQT l f e).f a ((mkRQT l f e).f b c) := by
    rw [hfeq]; exact hassoc
  have hidl0 : ∀ a, (mkRQT l f e).f (mkRQT l f e).e a = a := by
    rw [hfeq, heeq]; exact hidl
  have hidr0 : ∀ a, (mkRQT l f e).f a (mkRQT l f e).e = a := by
    rw [hfeq, heeq]; exact hidr
  have htsval := hinv.2.1
  have hlen := hinv.2.2.1
  have hnle : (mkRQT l f e).n ≤ 2 ^ Nat.clog 2 (mkRQT l f e).n :=
    Nat.le_pow_clog (by norm_num) _
  have hts2 : (mkRQT l f e).tree_size / 2 = 2 ^ Nat.clog 2 (mkRQT l f e).n := by
    rw [htsval, pow_succ, Nat.mul_div_cancel _ (by norm_num)]
  constructor
  · intro i hi
    rw [query_spec hinv hassoc0 hidl0 hidr0 (le_refl i) (by rw [hn]; exact hi)]
    rw [foldWin_single hidr0]
    have hin : i < (mkRQT l f e).n := by rw [hn]; exact hi
    have hidx : (mkRQT l f e).tree_size / 2 + i < (mkRQT l f e).seq.length := by
      rw [hlen, htsval, pow_succ]
      omega
    unfold RQT.get RQT.leaf
    rw [show i + (mkRQT l f e).tree_size / 2 = (mkRQT l f e).tree_size / 2 + i by omega,
      List.get?_eq_getElem?, List.getElem?_eq_getElem hidx,
      List.getD_eq_getElem _ _ hidx]
  · rw [query_spec hinv hassoc0 hidl0 hidr0 (by omega) (by rw [hn]; omega)]
    unfold RQT.foldWin
    rw [show l.length - 1 + 1 - 0 = l.length by omega, mkRQT_winFold_all l f e hl]

/-- Witness for C5 at a concrete input: the sum tree over `[6, 2, 4, 9]` after
`update(1, 10)`. -/
theorem claim_C5_witness :
    ∃ t', (mkRQT [6, 2, 4, 9] Nat.add 0).update 1 10 = some t' ∧
      t'.get 1 = some 10 ∧
      (∀ k', t'.leaf k' = if k' = 1 then 10 else (mkRQT [6, 2, 4, 9] Nat.add 0).leaf k') ∧
      (∀ i j, i ≤ 1 → 1 ≤ j → j < 4 → t'.query i j = some (t'.foldWin i j)) ∧
      (∀ i j, i ≤ j → j < 4 → (1 < i ∨ j < 1) →
        t'.query i j = (mkRQT [6, 2, 4, 9] Nat.add 0).query i j) :=
  claim_C5 [6, 2, 4, 9] Nat.add 0 (fun a b c => Nat.add_assoc a b c)
    (fun a => Nat.zero_add a) (fun a => Nat.add_zero a) (by decide) 1 10 (by decide)

/-- Witness for C6 at a concrete input: the sum tree over `[6, 2, 4, 9]`. -/
theorem claim_C6_witness :
    (∀ i, i < 4 →
      (mkRQT [6, 2, 4, 9] Nat.add 0).query i i = (mkRQT [6, 2, 4, 9] Nat.add 0).get i) ∧
    (mkRQT [6, 2, 4, 9] Nat.add 0).query 0 3 = some 21 :=
  claim_C6 [6, 2, 4, 9] Nat.add 0 (fun a b c => Nat.add_assoc a b c)
    (fun a => Nat.zero_add a) (fun a => Nat.add_zero a) (by decide)

/-- `Nat.clog 2 5 = 3`, computed by unfolding the ceiling-log recurrence
(`Nat.clog` is defined by well-founded recursion and does not reduce
definitionally, so `decide` cannot evaluate it). -/
theorem clog_two_five : Nat.clog 2 5 = 3 := by
  rw [Nat.clog_of_two_le (by norm_num) (by norm_num)]
  norm_num
  rw [Nat.clog_of_two_le (by norm_num) (by norm_num)]
  norm_num
  rw [Nat.clog_of_two_le (by norm_num) (by norm_num)]
  norm_num

/-- Case analysis of `RQT.get` (the model of `__getitem__`): in-range indices read
the stored sequence, indices in the padding window `[n, 2^ceil(log2 n))` read the
identity padding, and larger indices fall off the backing list. -/
theorem rqt_get_cases {α : Type} (l : List α) (f : α → α → α) (e : α) (hl : l ≠ [])
    (k : Nat) :
    (k < l.length → (mkRQT l f e).get k = some (l.getD k e)) ∧
    (l.length ≤ k → k < 2 ^ Nat.clog 2 l.length → (mkRQT l f e).get k = some e) ∧
    (2 ^ Nat.clog 2 l.length ≤ k → (mkRQT l f e).get k = none) := by
  obtain ⟨hinv, hn, hfeq, heeq, hts, hleaf⟩ := mkRQT_spec l f e hl
  have htsval := hinv.2.1
  have hlen := hinv.2.2.1
  have hnle : l.length ≤ 2 ^ Nat.clog 2 l.length := Nat.le_pow_clog (by norm_num) _
  have hclog : Nat.clog 2 (mkRQT l f e).n = Nat.clog 2 l.length := by rw [hn]
  have hts2 : (mkRQT l f e).tree_size / 2 = 2 ^ Nat.clog 2 l.length := by
    rw [htsval, hclog, pow_succ, Nat.mul_div_cancel _ (by norm_num)]
  have hlen2 : (mkRQT l f e).seq.length = 2 * 2 ^ Nat.clog 2 l.length := by
    rw [hlen, htsval, hclog, pow_succ]
    ring
  refine ⟨?_, ?_, ?_⟩
  · intro hk
    have hidx : (mkRQT l f e).tree_size / 2 + k < (mkRQT l f e).seq.length := by
      rw [hlen2, hts2]
      omega
    unfold RQT.get
    rw [show k + (mkRQT l f e).tree_size / 2 = (mkRQT l f e).tree_size / 2 + k by omega,
      List.get?_eq_getElem?, List.getElem?_eq_getElem hidx]
    have hv := hleaf k
    rw [if_pos hk] at hv
    unfold RQT.leaf at hv
    rw [List.getD_eq_getElem _ _ hidx] at hv
    rw [hv]
  · intro hk1 hk2
    have hidx : (mkRQT l f e).tree_size / 2 + k < (mkRQT l f e).seq.length := by
      rw [hlen2, hts2]
      omega
    unfold RQT.get
    rw [show k + (mkRQT l f e).tree_size / 2 = (mkRQT l f e).tree_size / 2 + k by omega,
      List.get?_eq_getElem?, List.getElem?_eq_getElem hidx]
    have hv := hleaf k
    rw [if_neg (by omega)] at hv
    unfold RQT.leaf at hv
    rw [List.getD_eq_getElem _ _ hidx] at hv
    rw [hv]
  · intro hk
    unfold RQT.get
    rw [List.get?_eq_getElem?, List.getElem?_eq_none]
    rw [hlen2, hts2]
    omega

/-- **C7 (counterexample).**  `__getitem__` performs no bounds check of its own: on
a 5-element sum tree (`tree_size = 16`, leaf window `[8, 13)`), `get(5)` with
`5 ∉ [0, 5)` does not fail — it silently returns the identity padding `0` stored in
leaf slot 13. -/
theorem claim_C7_counterexample :
    (mkRQT [1, 1, 1, 1, 1] Nat.add 0).n = 5 ∧
    (mkRQT [1, 1, 1, 1, 1] Nat.add 0).get 5 = some 0 :=
  ⟨rfl, (rqt_get_cases [1, 1, 1, 1, 1] Nat.add 0 (by decide) 5).2.1 (by decide)
    (by norm_num [clog_two_five])⟩

/-- **C7 (amended).**  `get(index)` returns the raw leaf value for
`index ∈ [0, n)`; for `n ≤ index < 2^ceil(log2 n)` it silently returns the identity
padding stored in the unused leaf slot; it fails with an out-of-range error exactly
when the internal index `tree_size/2 + index` falls outside the backing list, i.e.
when `index ≥ 2^ceil(log2 n)`.  (Negative Python indices, which wrap around,
are outside this `Nat`-indexed model.) -/
theorem claim_C7 {α : Type} (l : List α) (f : α → α → α) (e : α) (hl : l ≠ [])
    (k : Nat) :
    (k < l.length → (mkRQT l f e).get k = some (l.getD k e)) ∧
    (l.length ≤ k → k < 2 ^ Nat.clog 2 l.length → (mkRQT l f e).get k = some e) ∧
    (2 ^ Nat.clog 2 l.length ≤ k → (mkRQT l f e).get k = none) :=
  rqt_get_cases l f e hl k

/-- Witness for the amended C7 on the 5-element sum tree at the padding index 5 and
the failing index 8. -/
theorem claim_C7_witness :
    ((5 < 5 → (mkRQT [1, 1, 1, 1, 1] Nat.add 0).get 5 = some ([1, 1, 1, 1, 1].getD 5 0)) ∧
      (5 ≤ 5 → 5 < 2 ^ Nat.clog 2 5 → (mkRQT [1, 1, 1, 1, 1] Nat.add 0).get 5 = some 0) ∧
      (2 ^ Nat.clog 2 5 ≤ 5 → (mkRQT [1, 1, 1, 1, 1] Nat.add 0).get 5 = none)) ∧
    ((8 < 5 → (mkRQT [1, 1, 1, 1, 1] Nat.add 0).get 8 = some ([1, 1, 1, 1, 1].getD 8 0)) ∧
      (5 ≤ 8 → 8 < 2 ^ Nat.clog 2 5 → (mkRQT [1, 1, 1, 1, 1] Nat.add 0).get 8 = some 0) ∧
      (2 ^ Nat.clog 2 5 ≤ 8 → (mkRQT [1, 1, 1, 1, 1] Nat.add 0).get 8 = none)) :=
  ⟨claim_C7 [1, 1, 1, 1, 1] Nat.add 0 (by decide) 5,
   claim_C7 [1, 1, 1, 1, 1] Nat.add 0 (by decide) 8⟩

/-! ### Graph reachability, counting, and the exchange argument -/


theorem cp_comm (a b : Nat) : cp a b = cp b a := by
  unfold cp
  rw [Nat.min_comm, Nat.max_comm]

theorem cp_of_lt {a b : Nat} (h : a < b) : cp a b = (a, b) := by
  unfold cp
  rw [Nat.min_eq_left (by omega), Nat.max_eq_right (by omega)]

theorem cp_cases (a b : Nat) : cp a b = (a, b) ∨ cp a b = (b, a) := by
  unfold cp
  rcases Nat.le_total a b with h | h
  · left; rw [Nat.min_eq_left h, Nat.max_eq_right h]
  · right; rw [Nat.min_eq_right h, Nat.max_eq_left h]

theorem cp_eq_iff {a b c d : Nat} :
    cp a b = cp c d ↔ (a = c ∧ b = d) ∨ (a = d ∧ b = c) := by
  unfold cp
  constructor
  · intro h
    have h1 : min a b = min c d := congrArg Prod.fst h
    have h2 : max a b = max c d := congrArg Prod.snd h
    omega
  · intro h
    rcases h with ⟨rfl, rfl⟩ | ⟨rfl, rfl⟩
    · rfl
    · rw [Nat.min_comm, Nat.max_comm]

theorem estep_symm {E : Finset (Nat × Nat)} {a b : Nat} (h : estep E a b) : estep E b a :=
  ⟨fun e => h.1 e.symm, by rw [cp_comm]; exact h.2⟩

theorem reach_symm {E : Finset (Nat × Nat)} {a b : Nat} (h : Reach E a b) : Reach E b a :=
  Relation.ReflTransGen.symmetric (fun _ _ hs => estep_symm hs) h

theorem reach_mono {E F : Finset (Nat × Nat)} (hEF : E ⊆ F) {a b : Nat}
    (h : Reach E a b) : Reach F a b :=
  Relation.ReflTransGen.mono (fun _ _ hs => ⟨hs.1, hEF hs.2⟩) h

theorem reach_closed {C : Finset Nat} {E : Finset (Nat × Nat)} (hC : EClosed C E)
    {a b : Nat} (ha : a ∈ C) (h : Reach E a b) : b ∈ C := by
  induction h with
  | refl => exact ha
  | tail hac hstep ih =>
    have hiff := hC _ hstep.2
    rcases cp_cases _ _ with hc | hc <;> rw [hc] at hiff
    · exact hiff.mp ih
    · exact hiff.mpr ih

theorem reach_mem {V : Finset Nat} {E : Finset (Nat × Nat)} (hE : EdgesOn V E)
    {a b : Nat} (h : Reach E a b) : a = b ∨ (a ∈ V ∧ b ∈ V) := by
  induction h with
  | refl => exact Or.inl rfl
  | tail hac hstep ih =>
    have hm := hE _ hstep.2
    have hcb : _ ∈ V ∧ _ ∈ V := ⟨hm.1, hm.2.1⟩
    rcases cp_cases _ _ with hc | hc <;> rw [hc] at hcb
    · rcases ih with rfl | ⟨h1, _⟩
      · exact Or.inr hcb
      · exact Or.inr ⟨h1, hcb.2⟩
    · rcases ih with rfl | ⟨h1, _⟩
      · exact Or.inr ⟨hcb.2, hcb.1⟩
      · exact Or.inr ⟨h1, hcb.1⟩

theorem reach_insert_iff {E : Finset (Nat × Nat)} {u v : Nat} (hne : u ≠ v) {a b : Nat} :
    Reach (insert (cp u v) E) a b ↔
      Reach E a b ∨ (Reach E a u ∧ Reach E v b) ∨ (Reach E a v ∧ Reach E u b) := by
  constructor
  · intro h
    induction h with
    | refl => exact Or.inl .refl
    | tail hac hstep ih =>
      rcases Finset.mem_insert.mp hstep.2 with heq | hmem
      · rcases cp_eq_iff.mp heq with ⟨rfl, rfl⟩ | ⟨rfl, rfl⟩
        · -- step from u to v
          rcases ih with h1 | ⟨h1, h2⟩ | ⟨h1, h2⟩
          · exact Or.inr (Or.inl ⟨h1, .refl⟩)
          · exact Or.inr (Or.inl ⟨h1, .refl⟩)
          · exact Or.inl h1
        · -- step from v to u
          rcases ih with h1 | ⟨h1, h2⟩ | ⟨h1, h2⟩
          · exact Or.inr (Or.inr ⟨h1, .refl⟩)
          · exact Or.inl h1
          · exact Or.inr (Or.inr ⟨h1, .refl⟩)
      · have hstep' : estep E _ _ := ⟨hstep.1, hmem⟩
        rcases ih with h1 | ⟨h1, h2⟩ | ⟨h1, h2⟩
        · exact Or.inl (h1.tail hstep')
        · exact Or.inr (Or.inl ⟨h1, h2.tail hstep'⟩)
        · exact Or.inr (Or.inr ⟨h1, h2.tail hstep'⟩)
  · intro h
    have hsub : E ⊆ insert (cp u v) E := Finset.subset_insert _ _
    have hstep : Reach (insert (cp u v) E) u v :=
      Relation.ReflTransGen.single ⟨hne, Finset.mem_insert_self _ _⟩
    rcases h with h1 | ⟨h1, h2⟩ | ⟨h1, h2⟩
    · exact reach_mono hsub h1
    · exact ((reach_mono hsub h1).trans hstep).trans (reach_mono hsub h2)
    · exact ((reach_mono hsub h1).trans (reach_symm hstep)).trans (reach_mono hsub h2)

theorem reach_of_reconnect {E : Finset (Nat × Nat)} {f : Nat × Nat} (hf : f ∈ E)
    (hlt : f.1 < f.2) (hre : Reach (E.erase f) f.1 f.2) {a b : Nat}
    (h : Reach E a b) : Reach (E.erase f) a b := by
  have hE : E = insert (cp f.1 f.2) (E.erase f) := by
    rw [cp_of_lt hlt]
    exact (Finset.insert_erase hf).symm
  rw [hE] at h
  rcases (reach_insert_iff (by omega)).mp h with h1 | ⟨h1, h2⟩ | ⟨h1, h2⟩
  · exact h1
  · exact (h1.trans hre).trans h2
  · exact (h1.trans (reach_symm hre)).trans h2

theorem reach_filter_of_closed {A : Finset Nat} {E : Finset (Nat × Nat)}
    (hA : EClosed A E) {a b : Nat} (ha : a ∈ A) (h : Reach E a b) :
    Reach (E.filter (fun p => p.1 ∈ A)) a b := by
  induction h with
  | refl => exact .refl
  | tail hac hstep ih =>
    have hcA : _ ∈ A := reach_closed hA ha hac
    refine ih.tail ⟨hstep.1, Finset.mem_filter.mpr ⟨hstep.2, ?_⟩⟩
    have hiff := hA _ hstep.2
    rcases cp_cases _ _ with hc | hc <;> rw [hc]
    · exact hcA
    · rw [hc] at hiff; exact hiff.mpr hcA

theorem reach_filter_start {S : Finset Nat} {E : Finset (Nat × Nat)} {c b : Nat}
    (h : Reach (E.filter (fun p => p.1 ∉ S ∧ p.2 ∉ S)) c b) (hc : c ∈ S) : c = b := by
  rcases Relation.ReflTransGen.cases_head h with rfl | ⟨z, hstep, _⟩
  · rfl
  · exfalso
    have hp := (Finset.mem_filter.mp hstep.2).2
    rcases cp_cases c z with hcp | hcp <;> rw [hcp] at hp
    · exact hp.1 hc
    · exact hp.2 hc

theorem reach_crossing {S : Finset Nat} {E : Finset (Nat × Nat)} {a b : Nat}
    (h : Reach E a b) (hb : b ∉ S) :
    Reach (E.filter (fun p => p.1 ∉ S ∧ p.2 ∉ S)) a b ∨
      ∃ x y, estep E x y ∧ x ∈ S ∧ y ∉ S ∧
        Reach (E.filter (fun p => p.1 ∉ S ∧ p.2 ∉ S)) y b := by
  induction h using Relation.ReflTransGen.head_induction_on with
  | refl => exact Or.inl .refl
  | @head a' c' hstep hrest ih =>
    rcases ih with hfil | hcross
    · by_cases hcS : c' ∈ S
      · exact absurd ((reach_filter_start hfil hcS) ▸ hcS) hb
      · by_cases haS : a' ∈ S
        · exact Or.inr ⟨_, _, hstep, haS, hcS, hfil⟩
        · refine Or.inl (Relation.ReflTransGen.head ⟨hstep.1, Finset.mem_filter.mpr ⟨hstep.2, ?_⟩⟩ hfil)
          rcases cp_cases _ _ with hc | hc <;> rw [hc]
          · exact ⟨haS, hcS⟩
          · exact ⟨hcS, haS⟩
    · exact Or.inr hcross

-- ===== Phase C: bridge partition =====

theorem bridge_split {V : Finset Nat} {E : Finset (Nat × Nat)} {f : Nat × Nat}
    (hE : EdgesOn V E) (hsp : Spans V E) (hf : f ∈ E)
    (hbr : ¬ Reach (E.erase f) f.1 f.2) :
    ∃ A B E₁ E₂,
      A ∪ B = V ∧ Disjoint A B ∧ f.1 ∈ A ∧ f.2 ∈ B ∧
      E₁ ∪ E₂ = E.erase f ∧ Disjoint E₁ E₂ ∧
      EdgesOn A E₁ ∧ EdgesOn B E₂ ∧ Spans A E₁ ∧ Spans B E₂ ∧
      (∀ z ∈ A, Reach (E.erase f) f.1 z) ∧ (∀ z ∈ B, Reach (E.erase f) f.2 z) := by
  classical
  obtain ⟨hf1V, hf2V, hflt⟩ := hE f hf
  have hE' : EdgesOn V (E.erase f) := fun p hp => hE p (Finset.erase_subset _ _ hp)
  have hEeq : E = insert (cp f.1 f.2) (E.erase f) := by
    rw [cp_of_lt hflt]
    exact (Finset.insert_erase hf).symm
  have hfne : f.1 ≠ f.2 := by omega
  refine ⟨V.filter (fun z => Reach (E.erase f) f.1 z),
    V \ V.filter (fun z => Reach (E.erase f) f.1 z),
    (E.erase f).filter (fun p => p.1 ∈ V.filter (fun z => Reach (E.erase f) f.1 z)),
    (E.erase f).filter (fun p => p.1 ∉ V.filter (fun z => Reach (E.erase f) f.1 z)),
    ?_, Finset.disjoint_sdiff, ?_, ?_, ?_, ?_, ?_, ?_, ?_, ?_, ?_, ?_⟩
  case _ => exact Finset.union_sdiff_of_subset (Finset.filter_subset _ _)
  all_goals
    set A := V.filter (fun z => Reach (E.erase f) f.1 z) with hAdef
  case _ => exact Finset.mem_filter.mpr ⟨hf1V, .refl⟩
  case _ => exact Finset.mem_sdiff.mpr ⟨hf2V, fun hm => hbr (Finset.mem_filter.mp hm).2⟩
  all_goals
    have hstep1 : ∀ p ∈ E.erase f, Reach (E.erase f) p.1 p.2 := by
      intro p hp
      have hlt := (hE' p hp).2.2
      refine Relation.ReflTransGen.single ⟨by omega, ?_⟩
      rw [cp_of_lt hlt]
      exact hp
    have hclosedA : EClosed A (E.erase f) := by
      intro p hp
      obtain ⟨hp1, hp2, _⟩ := hE' p hp
      constructor
      · intro hm
        exact Finset.mem_filter.mpr ⟨hp2, (Finset.mem_filter.mp hm).2.trans (hstep1 p hp)⟩
      · intro hm
        exact Finset.mem_filter.mpr
          ⟨hp1, (Finset.mem_filter.mp hm).2.trans (reach_symm (hstep1 p hp))⟩
  case _ => exact Finset.filter_union_filter_neg_eq _ _
  case _ => exact Finset.disjoint_filter_filter_neg _ _ _
  all_goals
    have hmemA : ∀ {z}, z ∈ A → Reach (E.erase f) f.1 z := by
      intro z hz
      exact (Finset.mem_filter.mp hz).2
    have hmemB : ∀ {z}, z ∈ V \ A → z ∈ V ∧ ¬ Reach (E.erase f) f.1 z := by
      intro z hz
      obtain ⟨h1, h2⟩ := Finset.mem_sdiff.mp hz
      exact ⟨h1, fun hr => h2 (Finset.mem_filter.mpr ⟨h1, hr⟩)⟩
    have hreachB : ∀ {z}, z ∈ V \ A → Reach (E.erase f) f.2 z := by
      intro z hz
      obtain ⟨hzV, hzA⟩ := hmemB hz
      have := hsp z hzV f.2 hf2V
      rw [hEeq] at this
      rcases (reach_insert_iff hfne).mp this with h1 | ⟨h1, _⟩ | ⟨h1, _⟩
      · exact reach_symm h1
      · exact absurd (reach_symm h1) hzA
      · exact reach_symm h1
  case _ =>
    intro p hp
    obtain ⟨hpE, hpA⟩ := Finset.mem_filter.mp hp
    exact ⟨hpA, (hclosedA p hpE).mp hpA, (hE' p hpE).2.2⟩
  case _ =>
    intro p hp
    obtain ⟨hpE, hpA⟩ := Finset.mem_filter.mp hp
    obtain ⟨hp1, hp2, hplt⟩ := hE' p hpE
    refine ⟨Finset.mem_sdiff.mpr ⟨hp1, hpA⟩, Finset.mem_sdiff.mpr ⟨hp2, ?_⟩, hplt⟩
    intro hm
    exact hpA ((hclosedA p hpE).mpr hm)
  case _ =>
    intro z hz w hw
    exact reach_filter_of_closed hclosedA hz ((reach_symm (hmemA hz)).trans (hmemA hw))
  case _ =>
    intro z hz w hw
    have hzw : Reach (E.erase f) z w := by
      have := hsp z (hmemB hz).1 w (hmemB hw).1
      rw [hEeq] at this
      rcases (reach_insert_iff hfne).mp this with h1 | ⟨h1, _⟩ | ⟨_, h2⟩
      · exact h1
      · exact absurd (reach_symm h1) (hmemB hz).2
      · exact absurd h2 (hmemB hw).2
    have hclosedB : EClosed (V \ A) (E.erase f) := by
      intro p hp
      obtain ⟨hp1, hp2, _⟩ := hE' p hp
      have hiff := hclosedA p hp
      constructor
      · intro hm
        exact Finset.mem_sdiff.mpr ⟨hp2, fun hA2 => (Finset.mem_sdiff.mp hm).2 (hiff.mpr hA2)⟩
      · intro hm
        exact Finset.mem_sdiff.mpr ⟨hp1, fun hA1 => (Finset.mem_sdiff.mp hm).2 (hiff.mp hA1)⟩
    have := reach_filter_of_closed hclosedB hz hzw
    have hfeq : (E.erase f).filter (fun p => p.1 ∈ V \ A) =
        (E.erase f).filter (fun p => p.1 ∉ A) := by
      refine Finset.filter_congr ?_
      intro p hp
      obtain ⟨hp1, _, _⟩ := hE' p hp
      simp only [Finset.mem_sdiff, eq_iff_iff]
      constructor
      · intro h; exact h.2
      · intro h; exact ⟨hp1, h⟩
    rw [hfeq] at this
    exact this
  case _ => exact fun z hz => hmemA hz
  case _ => exact fun z hz => hreachB hz

-- ===== Phase D: counting =====

theorem spans_card :
    ∀ n (V : Finset Nat) (E : Finset (Nat × Nat)), E.card = n →
      EdgesOn V E → Spans V E → V.Nonempty → V.card ≤ E.card + 1 := by
  intro n
  induction n using Nat.strong_induction_on with
  | _ n ih =>
    intro V E hcard hE hsp hne
    by_cases hV : V.card ≤ 1
    · have hv1 : 1 ≤ V.card := Finset.card_pos.mpr hne
      omega
    · obtain ⟨a, ha, b, hb, hab⟩ := Finset.one_lt_card.mp (show 1 < V.card by omega)
      have hr := hsp a ha b hb
      have hEne : E.Nonempty := by
        rcases Relation.ReflTransGen.cases_head hr with rfl | ⟨c, hstep, _⟩
        · exact absurd rfl hab
        · exact ⟨_, hstep.2⟩
      obtain ⟨f, hf⟩ := hEne
      have hEcpos : 1 ≤ E.card := Finset.card_pos.mpr ⟨f, hf⟩
      by_cases hbr : Reach (E.erase f) f.1 f.2
      · have hsp' : Spans V (E.erase f) := fun x hx y hy =>
          reach_of_reconnect hf (hE f hf).2.2 hbr (hsp x hx y hy)
        have hE'' : EdgesOn V (E.erase f) := fun p hp => hE p (Finset.erase_subset _ _ hp)
        have hcard' : (E.erase f).card = E.card - 1 := Finset.card_erase_of_mem hf
        have := ih (E.card - 1) (by omega) V (E.erase f) (by omega) hE'' hsp' hne
        omega
      · obtain ⟨A, B, E₁, E₂, hABV, hABd, hf1A, hf2B, hE12, hEd, hEA, hEB, hspA, hspB, _, _⟩ :=
          bridge_split hE hsp hf hbr
        have hcard' : (E.erase f).card = E.card - 1 := Finset.card_erase_of_mem hf
        have hcard12 : E₁.card + E₂.card = E.card - 1 := by
          rw [← hcard', ← hE12]
          exact (Finset.card_union_of_disjoint hEd).symm
        have h1 := ih E₁.card (by omega) A E₁ rfl hEA hspA ⟨_, hf1A⟩
        have h2 := ih E₂.card (by omega) B E₂ rfl hEB hspB ⟨_, hf2B⟩
        have hVcard : A.card + B.card = V.card := by
          rw [← hABV]
          exact (Finset.card_union_of_disjoint hABd).symm
        omega

theorem bridges_card :
    ∀ n (V : Finset Nat) (E : Finset (Nat × Nat)), E.card = n →
      EdgesOn V E → Spans V E → (∀ f ∈ E, ¬ Reach (E.erase f) f.1 f.2) →
      V.Nonempty → E.card + 1 ≤ V.card := by
  intro n
  induction n using Nat.strong_induction_on with
  | _ n ih =>
    intro V E hcard hE hsp hbrs hne
    rcases Finset.eq_empty_or_nonempty E with rfl | ⟨f, hf⟩
    · simpa using Finset.card_pos.mpr hne
    · obtain ⟨A, B, E₁, E₂, hABV, hABd, hf1A, hf2B, hE12, hEd, hEA, hEB, hspA, hspB, _, _⟩ :=
        bridge_split hE hsp hf (hbrs f hf)
      have hEcpos : 1 ≤ E.card := Finset.card_pos.mpr ⟨f, hf⟩
      have hcard' : (E.erase f).card = E.card - 1 := Finset.card_erase_of_mem hf
      have hcard12 : E₁.card + E₂.card = E.card - 1 := by
        rw [← hcard', ← hE12]
        exact (Finset.card_union_of_disjoint hEd).symm
      have hsub1 : E₁ ⊆ E := by
        intro p hp
        exact Finset.erase_subset _ _ (hE12 ▸ Finset.mem_union_left _ hp)
      have hsub2 : E₂ ⊆ E := by
        intro p hp
        exact Finset.erase_subset _ _ (hE12 ▸ Finset.mem_union_right _ hp)
      have hbr1 : ∀ q ∈ E₁, ¬ Reach (E₁.erase q) q.1 q.2 := by
        intro q hq hr
        exact hbrs q (hsub1 hq)
          (reach_mono (fun p hp => Finset.mem_erase.mpr
            ⟨(Finset.mem_erase.mp hp).1, hsub1 (Finset.mem_erase.mp hp).2⟩) hr)
      have hbr2 : ∀ q ∈ E₂, ¬ Reach (E₂.erase q) q.1 q.2 := by
        intro q hq hr
        exact hbrs q (hsub2 hq)
          (reach_mono (fun p hp => Finset.mem_erase.mpr
            ⟨(Finset.mem_erase.mp hp).1, hsub2 (Finset.mem_erase.mp hp).2⟩) hr)
      have h1 := ih E₁.card (by omega) A E₁ rfl hEA hspA hbr1 ⟨_, hf1A⟩
      have h2 := ih E₂.card (by omega) B E₂ rfl hEB hspB hbr2 ⟨_, hf2B⟩
      have hVcard : A.card + B.card = V.card := by
        rw [← hABV]
        exact (Finset.card_union_of_disjoint hABd).symm
      omega

-- ===== Phase E: existence =====

theorem exists_spanning_subtree :
    ∀ n (V : Finset Nat) (E : Finset (Nat × Nat)), E.card = n →
      EdgesOn V E → Spans V E → V.Nonempty →
      ∃ T, T ⊆ E ∧ Spans V T ∧ T.card + 1 = V.card := by
  intro n
  induction n using Nat.strong_induction_on with
  | _ n ih =>
    intro V E hcard hE hsp hne
    classical
    by_cases hall : ∀ f ∈ E, ¬ Reach (E.erase f) f.1 f.2
    · have h1 := bridges_card E.card V E rfl hE hsp hall hne
      have h2 := spans_card E.card V E rfl hE hsp hne
      exact ⟨E, Finset.Subset.refl E, hsp, by omega⟩
    · push_neg at hall
      obtain ⟨f, hf, hbr⟩ := hall
      have hsp' : Spans V (E.erase f) := fun x hx y hy =>
        reach_of_reconnect hf (hE f hf).2.2 hbr (hsp x hx y hy)
      have hE'' : EdgesOn V (E.erase f) := fun p hp => hE p (Finset.erase_subset _ _ hp)
      have hc : (E.erase f).card = E.card - 1 := Finset.card_erase_of_mem hf
      have hcpos : 1 ≤ E.card := Finset.card_pos.mpr ⟨f, hf⟩
      obtain ⟨T, hT1, hT2, hT3⟩ :=
        ih (E.card - 1) (by omega) V (E.erase f) (by omega) hE'' hsp' hne
      exact ⟨T, hT1.trans (Finset.erase_subset _ _), hT2, hT3⟩

theorem exists_mst (g : UGraph) (hE : EdgesOn g.adjKeys g.edgeFinset)
    (hconn : ConnectedG g) :
    ∃ T, IsSpanningTree g T ∧ ∀ T', IsSpanningTree g T' → Wsum g T ≤ Wsum g T' := by
  classical
  obtain ⟨hne, hsp⟩ := hconn
  obtain ⟨T₀, h1, h2, h3⟩ :=
    exists_spanning_subtree _ g.adjKeys g.edgeFinset rfl hE hsp hne
  have hcand : (g.edgeFinset.powerset.filter
      (fun T => Spans g.adjKeys T ∧ T.card + 1 = g.adjKeys.card)).Nonempty :=
    ⟨T₀, Finset.mem_filter.mpr ⟨Finset.mem_powerset.mpr h1, h2, h3⟩⟩
  obtain ⟨T, hT, hmin⟩ := Finset.exists_min_image _ (Wsum g) hcand
  obtain ⟨hTp, hT2, hT3⟩ := Finset.mem_filter.mp hT
  refine ⟨T, ⟨Finset.mem_powerset.mp hTp, hT2, hT3⟩, ?_⟩
  intro T' hT'
  exact hmin T' (Finset.mem_filter.mpr ⟨Finset.mem_powerset.mpr hT'.1, hT'.2.1, hT'.2.2⟩)

theorem tree_edge_bridge {V : Finset Nat} {T : Finset (Nat × Nat)}
    (hE : EdgesOn V T) (hsp : Spans V T) (hcard : T.card + 1 = V.card)
    {f : Nat × Nat} (hf : f ∈ T) : ¬ Reach (T.erase f) f.1 f.2 := by
  intro hbr
  have hsp' : Spans V (T.erase f) := fun x hx y hy =>
    reach_of_reconnect hf (hE f hf).2.2 hbr (hsp x hx y hy)
  have hE'' : EdgesOn V (T.erase f) := fun p hp => hE p (Finset.erase_subset _ _ hp)
  have hne : V.Nonempty := ⟨f.1, (hE f hf).1⟩
  have h1 := spans_card _ V (T.erase f) rfl hE'' hsp' hne
  have hc : (T.erase f).card = T.card - 1 := Finset.card_erase_of_mem hf
  have h2 : 1 ≤ T.card := Finset.card_pos.mpr ⟨f, hf⟩
  omega

-- ===== Phase F: exchange =====

theorem mst_exchange {V : Finset Nat} {E : Finset (Nat × Nat)} (W : Nat × Nat → Int)
    (hE : EdgesOn V E) {T taken : Finset (Nat × Nat)} {u v : Nat}
    (hT1 : T ⊆ E) (hT2 : Spans V T) (hT3 : T.card + 1 = V.card) (htk : taken ⊆ T)
    (he : (u, v) ∈ E) (hnr : ¬ Reach taken u v)
    (hwle : ∀ f ∈ E, ¬ Reach taken f.1 f.2 → W (u, v) ≤ W f) :
    ∃ T', T' ⊆ E ∧ Spans V T' ∧ T'.card + 1 = V.card ∧
      T'.sum W ≤ T.sum W ∧ insert (u, v) taken ⊆ T' := by
  classical
  by_cases hmem : (u, v) ∈ T
  · exact ⟨T, hT1, hT2, hT3, le_refl _, Finset.insert_subset hmem htk⟩
  obtain ⟨huV, hvV, hult⟩ := hE (u, v) he
  set S := V.filter (fun z => Reach taken u z) with hSdef
  have huS : u ∈ S := Finset.mem_filter.mpr ⟨huV, .refl⟩
  have hvS : v ∉ S := fun hm => hnr (Finset.mem_filter.mp hm).2
  have hSreach : ∀ {z}, z ∈ S → Reach taken u z := fun hz => (Finset.mem_filter.mp hz).2
  have hSmem : ∀ {z}, z ∈ V → Reach taken u z → z ∈ S :=
    fun hz hr => Finset.mem_filter.mpr ⟨hz, hr⟩
  rcases reach_crossing (hT2 u huV v hvV) hvS with hfil | ⟨x, y, hstep, hxS, hyS, hyout⟩
  · exact absurd (reach_filter_start hfil huS) (by omega)
  have hf0T : cp x y ∈ T := hstep.2
  obtain ⟨hc1V, hc2V, hclt⟩ := hE _ (hT1 hf0T)
  have hxV : x ∈ V := (Finset.mem_filter.mp hxS).1
  have hyV : y ∈ V := by
    rcases cp_cases x y with hc | hc <;> rw [hc] at hc1V hc2V
    · exact hc2V
    · exact hc1V
  -- the crossing edge is not taken-connected (hence not taken)
  have hf0nr : ¬ Reach taken x y := by
    intro hr
    exact hyS (hSmem hyV ((hSreach hxS).trans hr))
  have hf0tk : cp x y ∉ taken := by
    intro hmem'
    exact hf0nr (Relation.ReflTransGen.single ⟨hstep.1, hmem'⟩)
  have htk' : taken ⊆ T.erase (cp x y) :=
    fun p hp => Finset.mem_erase.mpr ⟨fun hpe => hf0tk (hpe ▸ hp), htk hp⟩
  -- bridges and split
  have hET : EdgesOn V T := fun p hp => hE p (hT1 hp)
  have hbr := tree_edge_bridge hET hT2 hT3 hf0T
  obtain ⟨A, B, E₁, E₂, hABV, hABd, hfA, hfB, hE12, hEd, hEA, hEB, hspA, hspB, hAanch, hBanch⟩ :=
    bridge_split hET hT2 hf0T hbr
  -- u reaches x inside the eraseed tree; y reaches v likewise
  have hux : Reach (T.erase (cp x y)) u x := reach_mono htk' (hSreach hxS)
  have hyv : Reach (T.erase (cp x y)) y v := by
    refine reach_mono ?_ hyout
    intro p hp
    obtain ⟨hpT, hpS⟩ := Finset.mem_filter.mp hp
    refine Finset.mem_erase.mpr ⟨?_, hpT⟩
    intro hpe
    rw [hpe] at hpS
    rcases cp_cases x y with hc | hc <;> rw [hc] at hpS
    · exact hpS.1 hxS
    · exact hpS.2 hxS
  -- membership of u, v in the two split sides
  have hVmem : ∀ {z}, z ∈ V → z ∈ A ∨ z ∈ B := by
    intro z hz
    rw [← hABV] at hz
    exact Finset.mem_union.mp hz
  have hVmem2 : ∀ {z}, z ∈ V → z ∈ A ∨ z ∈ B := hVmem
  -- the exchanged tree
  have huvE' : (u, v) ∉ T.erase (cp x y) := fun hm => hmem (Finset.erase_subset _ _ hm)
  have hcardT' : (insert (u, v) (T.erase (cp x y))).card + 1 = V.card := by
    rw [Finset.card_insert_of_not_mem huvE', Finset.card_erase_of_mem hf0T]
    have h1 : 1 ≤ T.card := Finset.card_pos.mpr ⟨_, hf0T⟩
    omega
  have hsubE : insert (u, v) (T.erase (cp x y)) ⊆ E := by
    intro p hp
    rcases Finset.mem_insert.mp hp with rfl | hp'
    · exact he
    · exact hT1 (Finset.erase_subset _ _ hp')
  have hf0nr2 : ¬ Reach taken (cp x y).1 (cp x y).2 := by
    rcases cp_cases x y with hc | hc <;> rw [hc]
    · exact hf0nr
    · exact fun h => hf0nr (reach_symm h)
  have hw0 : W (u, v) ≤ W (cp x y) := hwle _ (hT1 hf0T) hf0nr2
  have hsum : (insert (u, v) (T.erase (cp x y))).sum W ≤ T.sum W := by
    rw [Finset.sum_insert huvE']
    show W (u, v) + (T.erase (cp x y)).sum W ≤ T.sum W
    have h1 : (T.erase (cp x y)).sum W + W (cp x y) = T.sum W :=
      Finset.sum_erase_add _ _ hf0T
    omega
  have hins : insert (u, v) taken ⊆ insert (u, v) (T.erase (cp x y)) := by
    intro p hp
    rcases Finset.mem_insert.mp hp with rfl | hp'
    · exact Finset.mem_insert_self _ _
    · exact Finset.mem_insert_of_mem (htk' hp')
  refine ⟨insert (u, v) (T.erase (cp x y)), hsubE, ?_, hcardT', hsum, hins⟩
  -- spanning: hub argument through the two split sides
  have hsub' : T.erase (cp x y) ⊆ insert (u, v) (T.erase (cp x y)) :=
    Finset.subset_insert _ _
  have hTuv : Reach (insert (u, v) (T.erase (cp x y))) u v := by
    refine Relation.ReflTransGen.single ⟨by omega, ?_⟩
    rw [cp_of_lt hult]
    exact Finset.mem_insert_self _ _
  have hfin : ∀ P Q : Finset Nat, ∀ pa qa : Nat, P ∪ Q = V →
      (∀ z ∈ P, Reach (T.erase (cp x y)) pa z) →
      (∀ z ∈ Q, Reach (T.erase (cp x y)) qa z) →
      u ∈ P → v ∈ Q → Spans V (insert (u, v) (T.erase (cp x y))) := by
    intro P Q pa qa hPQ hPa hQa huP hvQ
    have hto : ∀ z ∈ V, Reach (insert (u, v) (T.erase (cp x y))) z u ∨
        Reach (insert (u, v) (T.erase (cp x y))) z v := by
      intro z hz
      rw [← hPQ] at hz
      rcases Finset.mem_union.mp hz with hzP | hzQ
      · exact Or.inl (reach_mono hsub' ((reach_symm (hPa z hzP)).trans (hPa u huP)))
      · exact Or.inr (reach_mono hsub' ((reach_symm (hQa z hzQ)).trans (hQa v hvQ)))
    intro a ha b hb
    rcases hto a ha with h1 | h1 <;> rcases hto b hb with h2 | h2
    · exact h1.trans (reach_symm h2)
    · exact (h1.trans hTuv).trans (reach_symm h2)
    · exact (h1.trans (reach_symm hTuv)).trans (reach_symm h2)
    · exact h1.trans (reach_symm h2)
  rcases cp_cases x y with hcxy | hcxy
  · have hp1 : (cp x y).1 = x := by rw [hcxy]
    have hp2 : (cp x y).2 = y := by rw [hcxy]
    rw [hp1] at hfA
    rw [hp2] at hfB
    rw [hp1, hp2] at hbr
    have hAanch' : ∀ z ∈ A, Reach (T.erase (cp x y)) x z := by
      intro z hz
      have h := hAanch z hz
      rw [hp1] at h
      exact h
    have hBanch' : ∀ z ∈ B, Reach (T.erase (cp x y)) y z := by
      intro z hz
      have h := hBanch z hz
      rw [hp2] at h
      exact h
    have huA : u ∈ A := by
      rcases hVmem2 huV with h | h
      · exact h
      · exact absurd (reach_symm ((hBanch' u h).trans hux)) hbr
    have hvB : v ∈ B := by
      rcases hVmem2 hvV with h | h
      · exact absurd ((hAanch' v h).trans (reach_symm hyv)) hbr
      · exact h
    exact hfin A B x y hABV hAanch' hBanch' huA hvB
  · have hp1 : (cp x y).1 = y := by rw [hcxy]
    have hp2 : (cp x y).2 = x := by rw [hcxy]
    rw [hp1] at hfA
    rw [hp2] at hfB
    rw [hp1, hp2] at hbr
    have hAanch' : ∀ z ∈ A, Reach (T.erase (cp x y)) y z := by
      intro z hz
      have h := hAanch z hz
      rw [hp1] at h
      exact h
    have hBanch' : ∀ z ∈ B, Reach (T.erase (cp x y)) x z := by
      intro z hz
      have h := hBanch z hz
      rw [hp2] at h
      exact h
    have huB : u ∈ B := by
      rcases hVmem2 huV with h | h
      · exact absurd ((hAanch' u h).trans hux) hbr
      · exact h
    have hvA : v ∈ A := by
      rcases hVmem2 hvV with h | h
      · exact h
      · exact absurd (hyv.trans (reach_symm (hBanch' v h))) hbr
    refine hfin B A x y ?_ hBanch' hAanch' huB hvA
    rw [Finset.union_comm]
    exact hABV

/-! ### Union-find classes as a Finset image, and the queue order -/

theorem image_collapse {S : Finset Nat} {F : Nat → Option Nat} {a b : Option Nat}
    (hab : a ≠ b) (hbS : b ∈ S.image F) :
    S.image (fun z => if F z = a then b else F z) = (S.image F).erase a := by
  ext t
  simp only [Finset.mem_image, Finset.mem_erase]
  constructor
  · rintro ⟨z, hz, rfl⟩
    by_cases hza : F z = a
    · rw [if_pos hza]
      obtain ⟨y, hy, hyb⟩ := Finset.mem_image.mp hbS
      exact ⟨fun h => hab h.symm, y, hy, hyb⟩
    · rw [if_neg hza]
      exact ⟨hza, z, hz, rfl⟩
  · rintro ⟨hta, z, hz, rfl⟩
    by_cases hza : F z = a
    · exact absurd hza hta
    · exact ⟨z, hz, if_neg hza⟩

theorem collapse_eq_iff {F : Nat → Option Nat} {lo wi : Option Nat} {a b : Nat} :
    ((if F a = lo then wi else F a) = (if F b = lo then wi else F b)) ↔
      (F a = F b ∨ (F a = lo ∧ F b = wi) ∨ (F a = wi ∧ F b = lo)) := by
  by_cases ha : F a = lo <;> by_cases hb : F b = lo
  · rw [if_pos ha, if_pos hb]
    constructor
    · intro _; exact Or.inl (ha.trans hb.symm)
    · intro _; rfl
  · rw [if_pos ha, if_neg hb]
    constructor
    · intro h; exact Or.inr (Or.inl ⟨ha, h.symm⟩)
    · rintro (h | ⟨h1, h2⟩ | ⟨h1, h2⟩)
      · exact absurd (h.symm.trans ha) hb
      · exact h2.symm
      · exact absurd h2 hb
  · rw [if_neg ha, if_pos hb]
    constructor
    · intro h; exact Or.inr (Or.inr ⟨h, hb⟩)
    · rintro (h | ⟨h1, h2⟩ | ⟨h1, h2⟩)
      · exact absurd (h.trans hb) ha
      · exact absurd h1 ha
      · exact h1
  · rw [if_neg ha, if_neg hb]
    constructor
    · exact fun h => Or.inl h
    · rintro (h | ⟨h1, h2⟩ | ⟨h1, h2⟩)
      · exact h
      · exact absurd h1 ha
      · exact absurd h2 hb

theorem mem_finsetAsc {s : Finset Nat} {x : Nat} : x ∈ finsetAsc s ↔ x ∈ s := by
  unfold finsetAsc
  simp only [List.mem_filter, List.mem_range, decide_eq_true_eq]
  constructor
  · exact fun h => h.2
  · intro h
    refine ⟨?_, h⟩
    have hle : id x ≤ s.sup id := Finset.le_sup h
    simp only [id] at hle
    omega

theorem mem_edgeList {g : UGraph} {p : Nat × Nat} :
    p ∈ g.edgeList ↔ p.1 ∈ g.adjKeys ∧ p.2 ∈ adjGet g p.1 ∧ p.1 < p.2 := by
  unfold UGraph.edgeList
  simp only [List.mem_flatMap, List.mem_filterMap, mem_finsetAsc]
  constructor
  · rintro ⟨v, hv, u, hu, hif⟩
    by_cases hvu : v < u
    · rw [if_pos hvu] at hif
      obtain rfl : (v, u) = p := Option.some_injective _ hif
      exact ⟨hv, hu, hvu⟩
    · rw [if_neg hvu] at hif
      exact Option.noConfusion hif
  · rintro ⟨h1, h2, h3⟩
    exact ⟨p.1, h1, p.2, h2, by rw [if_pos h3]⟩

theorem mem_edgeFinset {g : UGraph} {p : Nat × Nat} :
    p ∈ g.edgeFinset ↔ p.1 ∈ g.adjKeys ∧ p.2 ∈ adjGet g p.1 ∧ p.1 < p.2 := by
  unfold UGraph.edgeFinset
  rw [List.mem_toFinset]
  exact mem_edgeList

theorem edgesOn_of_GWF {g : UGraph} (h : GWF g) : EdgesOn g.adjKeys g.edgeFinset := by
  intro p hp
  obtain ⟨h1, h2, h3⟩ := mem_edgeFinset.mp hp
  exact ⟨h1, (h p.1 h1 p.2 h2).2.1, h3⟩

theorem entryR_weight {c d : Int} {p q : Nat × Nat} (h : entryR (some c, p) (some d, q)) :
    c ≤ d := by
  have h' : (decide (c < d) || (decide (c = d) && pairLE p q)) = true := h
  simp only [Bool.or_eq_true, Bool.and_eq_true, decide_eq_true_eq] at h'
  omega

theorem mem_kruskalQueue {g : UGraph} {e : QEntry} :
    e ∈ kruskalQueue g ↔ ∃ p ∈ g.edgeList, e = (wGet g p, p.1, p.2) := by
  unfold kruskalQueue
  rw [(List.perm_insertionSort entryR _).mem_iff, List.mem_map]
  constructor
  · rintro ⟨p, hp, rfl⟩
    exact ⟨p, hp, rfl⟩
  · rintro ⟨p, hp, rfl⟩
    exact ⟨p, hp, rfl⟩

theorem kruskalQueue_sorted (g : UGraph) : List.Sorted entryR (kruskalQueue g) :=
  List.sorted_insertionSort entryR _

/-! ### The union step seen on the abstract partition -/

theorem reach_transfer {E F : Finset (Nat × Nat)} (h : ∀ p ∈ E, Reach F p.1 p.2)
    {a b : Nat} (hr : Reach E a b) : Reach F a b := by
  induction hr with
  | refl => exact .refl
  | tail hac hstep ih =>
    have hcb := h _ hstep.2
    rcases cp_cases _ _ with hc | hc <;> rw [hc] at hcb
    · exact ih.trans hcb
    · exact ih.trans (reach_symm hcb)

theorem pairsOf_snoc (l : List QEntry) (c : Option Int) (u v : Nat) :
    pairsOf (l ++ [(c, u, v)]) = insert (u, v) (pairsOf l) := by
  unfold pairsOf
  rw [List.map_append, List.toFinset_append]
  have h1 : (List.map (fun t => (t.2.1, t.2.2)) [(c, u, v)]).toFinset = {(u, v)} := rfl
  rw [h1, Finset.insert_eq, Finset.union_comm]

theorem mem_pairsOf {l : List QEntry} {p : Nat × Nat} :
    p ∈ pairsOf l ↔ ∃ t ∈ l, (t.2.1, t.2.2) = p := by
  unfold pairsOf
  rw [List.mem_toFinset, List.mem_map]

theorem union_step {s : UnionFind} (hwf : s.WF)
    {u v : Nat} (hu : u ∈ s.elems) (hv : v ∈ s.elems) {tk : Finset (Nat × Nat)}
    (hequiv : ∀ a ∈ s.elems, ∀ b ∈ s.elems, (s.root? a = s.root? b ↔ Reach tk a b))
    (hne : s.root? u ≠ s.root? v) (hult : u < v) :
    ∃ r s', s.union u v = some (r, s') ∧ s'.elems = s.elems ∧ s'.WF ∧
      (∀ a ∈ s.elems, ∀ b ∈ s.elems,
        (s'.root? a = s'.root? b ↔ Reach (insert (u, v) tk) a b)) ∧
      (s.elems.image (fun z => s'.root? z)).card + 1 =
        (s.elems.image (fun z => s.root? z)).card := by
  obtain ⟨rx, ry, s', hrx, hry, huni, he', hwf', hrank', hp'⟩ := union_spec_det hwf hu hv
  have hrxy : rx ≠ ry := by
    intro h
    exact hne (by rw [hrx, hry, h])
  have hdesc : ∀ z ∈ s.elems, s'.root? z =
      if s.root? z = some (if s.rank rx < s.rank ry then rx else ry)
      then some (if s.rank rx < s.rank ry then ry else rx) else s.root? z := by
    intro z hz
    rw [hp' z hz]
    by_cases hc : s.root? z = some (if s.rank rx < s.rank ry then rx else ry)
    · rw [if_pos hc, if_pos ⟨hrxy, hc⟩]
    · rw [if_neg hc, if_neg (fun hh => hc hh.2)]
  have hFlo : (some (if s.rank rx < s.rank ry then rx else ry) = s.root? u ∧
        some (if s.rank rx < s.rank ry then ry else rx) = s.root? v) ∨
      (some (if s.rank rx < s.rank ry then rx else ry) = s.root? v ∧
        some (if s.rank rx < s.rank ry then ry else rx) = s.root? u) := by
    by_cases hrk : s.rank rx < s.rank ry
    · rw [if_pos hrk, if_pos hrk, hrx, hry]
      exact Or.inl ⟨rfl, rfl⟩
    · rw [if_neg hrk, if_neg hrk, hrx, hry]
      exact Or.inr ⟨rfl, rfl⟩
  have hlowi : (some (if s.rank rx < s.rank ry then rx else ry) : Option Nat) ≠
      some (if s.rank rx < s.rank ry then ry else rx) := by
    by_cases hrk : s.rank rx < s.rank ry
    · rw [if_pos hrk, if_pos hrk]
      exact fun h => hrxy (Option.some_injective _ h)
    · rw [if_neg hrk, if_neg hrk]
      exact fun h => hrxy (Option.some_injective _ h).symm
  refine ⟨_, s', huni, he', hwf', ?_, ?_⟩
  · intro a ha b hb
    rw [hdesc a ha, hdesc b hb, collapse_eq_iff,
      show ((u, v) : Nat × Nat) = cp u v from (cp_of_lt hult).symm,
      reach_insert_iff (show u ≠ v by omega)]
    have hau := hequiv a ha u hu
    have hav := hequiv a ha v hv
    have hbu := hequiv b hb u hu
    have hbv := hequiv b hb v hv
    have hab := hequiv a ha b hb
    rcases hFlo with ⟨h1, h2⟩ | ⟨h1, h2⟩
    · rw [← h1] at hau hbu
      rw [← h2] at hav hbv
      constructor
      · rintro (h | ⟨ha1, hb1⟩ | ⟨ha1, hb1⟩)
        · exact Or.inl (hab.mp h)
        · exact Or.inr (Or.inl ⟨hau.mp ha1, reach_symm (hbv.mp hb1)⟩)
        · exact Or.inr (Or.inr ⟨hav.mp ha1, reach_symm (hbu.mp hb1)⟩)
      · rintro (h | ⟨ha1, hb1⟩ | ⟨ha1, hb1⟩)
        · exact Or.inl (hab.mpr h)
        · exact Or.inr (Or.inl ⟨hau.mpr ha1, hbv.mpr (reach_symm hb1)⟩)
        · exact Or.inr (Or.inr ⟨hav.mpr ha1, hbu.mpr (reach_symm hb1)⟩)
    · rw [← h1] at hav hbv
      rw [← h2] at hau hbu
      constructor
      · rintro (h | ⟨ha1, hb1⟩ | ⟨ha1, hb1⟩)
        · exact Or.inl (hab.mp h)
        · exact Or.inr (Or.inr ⟨hav.mp ha1, reach_symm (hbu.mp hb1)⟩)
        · exact Or.inr (Or.inl ⟨hau.mp ha1, reach_symm (hbv.mp hb1)⟩)
      · rintro (h | ⟨ha1, hb1⟩ | ⟨ha1, hb1⟩)
        · exact Or.inl (hab.mpr h)
        · exact Or.inr (Or.inr ⟨hau.mpr ha1, hbv.mpr (reach_symm hb1)⟩)
        · exact Or.inr (Or.inl ⟨hav.mpr ha1, hbu.mpr (reach_symm hb1)⟩)
  · have himg : s.elems.image (fun z => s'.root? z) =
        (s.elems.image (fun z => s.root? z)).erase
          (some (if s.rank rx < s.rank ry then rx else ry)) := by
      rw [Finset.image_congr (fun z hz => hdesc z hz)]
      refine image_collapse hlowi ?_
      rcases hFlo with ⟨h1, h2⟩ | ⟨h1, h2⟩
      · exact Finset.mem_image.mpr ⟨v, hv, h2.symm⟩
      · exact Finset.mem_image.mpr ⟨u, hu, h2.symm⟩
    rw [himg]
    have hloim : (some (if s.rank rx < s.rank ry then rx else ry)) ∈
        s.elems.image (fun z => s.root? z) := by
      rcases hFlo with ⟨h1, h2⟩ | ⟨h1, h2⟩
      · exact Finset.mem_image.mpr ⟨u, hu, h1.symm⟩
      · exact Finset.mem_image.mpr ⟨v, hv, h1.symm⟩
    rw [Finset.card_erase_of_mem hloim]
    have hpos : 1 ≤ (s.elems.image (fun z => s.root? z)).card :=
      Finset.card_pos.mpr ⟨_, hloim⟩
    omega

/-! ### The kruskal loop invariant -/

theorem taken_full {g : UGraph} {taken : List QEntry} {Topt : Finset (Nat × Nat)}
    (htkT : pairsOf taken ⊆ Topt) (hT1 : Topt ⊆ g.edgeFinset) (hT2 : Spans g.adjKeys Topt)
    (hT3 : Topt.card + 1 = g.adjKeys.card)
    (hTmin : ∀ T', T' ⊆ g.edgeFinset → Spans g.adjKeys T' → T'.card + 1 = g.adjKeys.card →
      Wsum g Topt ≤ Wsum g T')
    (hcard : (pairsOf taken).card + 1 = g.adjKeys.card) :
    pairsOf taken ⊆ g.edgeFinset ∧ Spans g.adjKeys (pairsOf taken) ∧
      (pairsOf taken).card + 1 = g.adjKeys.card ∧
      (∀ T', T' ⊆ g.edgeFinset → Spans g.adjKeys T' → T'.card + 1 = g.adjKeys.card →
        Wsum g (pairsOf taken) ≤ Wsum g T') := by
  have heq : pairsOf taken = Topt :=
    Finset.eq_of_subset_of_card_le htkT (by omega)
  rw [heq]
  exact ⟨hT1, hT2, hT3, hTmin⟩

theorem all_covered_count {g : UGraph} {uf : UnionFind} {taken : List QEntry}
    {numTaken : Nat} {Topt : Finset (Nat × Nat)}
    (hequiv : ∀ a ∈ g.adjKeys, ∀ b ∈ g.adjKeys,
      (uf.root? a = uf.root? b ↔ Reach (pairsOf taken) a b))
    (hcover : ∀ p ∈ g.edgeFinset, Reach (pairsOf taken) p.1 p.2)
    (hcount : numTaken + (g.adjKeys.image (fun z => uf.root? z)).card = g.adjKeys.card)
    (hT1 : Topt ⊆ g.edgeFinset) (hT2 : Spans g.adjKeys Topt)
    (hT3 : Topt.card + 1 = g.adjKeys.card) :
    numTaken + 1 = g.adjKeys.card := by
  have hVpos : 1 ≤ g.adjKeys.card := by omega
  obtain ⟨a0, ha0⟩ := Finset.card_pos.mp hVpos
  have hspan : ∀ z ∈ g.adjKeys, Reach (pairsOf taken) a0 z := by
    intro z hz
    exact reach_transfer (fun p hp => hcover p (hT1 hp)) (hT2 a0 ha0 z hz)
  have himg : ∀ t ∈ g.adjKeys.image (fun z => uf.root? z), t = uf.root? a0 := by
    intro t ht
    obtain ⟨z, hz, rfl⟩ := Finset.mem_image.mp ht
    exact (hequiv z hz a0 ha0).mpr (reach_symm (hspan z hz))
  have hne : (g.adjKeys.image (fun z => uf.root? z)).Nonempty :=
    ⟨_, Finset.mem_image.mpr ⟨a0, ha0, rfl⟩⟩
  have hle : (g.adjKeys.image (fun z => uf.root? z)).card ≤ 1 := by
    refine Finset.card_le_one.mpr ?_
    intro x hx y hy
    rw [himg x hx, himg y hy]
  have hpos := Finset.card_pos.mpr hne
  omega

theorem kruskalLoop_some {g : UGraph}
    (hIW : ∀ p ∈ g.edgeFinset, (wGet g p).isSome)
    (hEdg : EdgesOn g.adjKeys g.edgeFinset) :
    ∀ (queue : List QEntry) (uf : UnionFind) (taken : List QEntry) (numTaken : Nat)
      (Topt : Finset (Nat × Nat)),
      uf.WF → uf.elems = g.adjKeys →
      (∀ a ∈ g.adjKeys, ∀ b ∈ g.adjKeys,
        (uf.root? a = uf.root? b ↔ Reach (pairsOf taken) a b)) →
      (∀ t ∈ taken, (t.2.1, t.2.2) ∈ g.edgeFinset) →
      (pairsOf taken).card = numTaken →
      Forest (pairsOf taken) →
      List.Sorted entryR queue →
      (∀ x ∈ queue, (x.2.1, x.2.2) ∈ g.edgeFinset ∧ x.1 = wGet g (x.2.1, x.2.2)) →
      (∀ p ∈ g.edgeFinset, Reach (pairsOf taken) p.1 p.2 ∨ (wGet g p, p.1, p.2) ∈ queue) →
      numTaken + (g.adjKeys.image (fun z => uf.root? z)).card = g.adjKeys.card →
      Topt ⊆ g.edgeFinset → Spans g.adjKeys Topt → Topt.card + 1 = g.adjKeys.card →
      (∀ T', T' ⊆ g.edgeFinset → Spans g.adjKeys T' → T'.card + 1 = g.adjKeys.card →
        Wsum g Topt ≤ Wsum g T') →
      pairsOf taken ⊆ Topt →
      ∃ tl, kruskalLoop ((g.adjKeys.card : Int) - 1) uf taken numTaken queue = some tl ∧
        pairsOf tl ⊆ g.edgeFinset ∧ Spans g.adjKeys (pairsOf tl) ∧
        (pairsOf tl).card + 1 = g.adjKeys.card ∧ Forest (pairsOf tl) ∧
        (∀ T', T' ⊆ g.edgeFinset → Spans g.adjKeys T' → T'.card + 1 = g.adjKeys.card →
          Wsum g (pairsOf tl) ≤ Wsum g T') := by
  intro queue
  induction queue with
  | nil =>
    intro uf taken numTaken Topt hwf helems hequiv htkE htkcard hforest hsort hqE hcover
      hcount hT1 hT2 hT3 hTmin htkT
    have hdone : numTaken + 1 = g.adjKeys.card := by
      refine all_covered_count hequiv ?_ hcount hT1 hT2 hT3
      intro p hp
      rcases hcover p hp with h | h
      · exact h
      · exact absurd h (List.not_mem_nil _)
    have hret : (numTaken : Int) = (g.adjKeys.card : Int) - 1 := by omega
    obtain ⟨hc1, hc2, hc3, hc4⟩ := taken_full htkT hT1 hT2 hT3 hTmin (by omega)
    refine ⟨taken, ?_, hc1, hc2, hc3, hforest, hc4⟩
    rw [kruskalLoop, if_pos hret]
  | cons hd rest ih =>
    intro uf taken numTaken Topt hwf helems hequiv htkE htkcard hforest hsort hqE hcover
      hcount hT1 hT2 hT3 hTmin htkT
    by_cases hret : (numTaken : Int) = (g.adjKeys.card : Int) - 1
    · obtain ⟨hc1, hc2, hc3, hc4⟩ := taken_full htkT hT1 hT2 hT3 hTmin (by omega)
      refine ⟨taken, ?_, hc1, hc2, hc3, hforest, hc4⟩
      rw [kruskalLoop, if_pos hret]
    · obtain ⟨c, u, v⟩ := hd
      obtain ⟨hq1, hq2⟩ := hqE (c, u, v) (List.mem_cons_self _ _)
      obtain ⟨huV0, hvV0, hult0⟩ := hEdg _ hq1
      have huV : u ∈ g.adjKeys := huV0
      have hvV : v ∈ g.adjKeys := hvV0
      have hult : u < v := hult0
      obtain ⟨rx, ry, uf1, hrxu, hryv, hiss, he1, hrk1, hwf1, hp1⟩ :=
        in_same_set_spec hwf (helems ▸ huV) (helems ▸ hvV)
      have helems1 : uf1.elems = g.adjKeys := he1.trans helems
      have hequiv1 : ∀ a ∈ g.adjKeys, ∀ b ∈ g.adjKeys,
          (uf1.root? a = uf1.root? b ↔ Reach (pairsOf taken) a b) := by
        intro a ha b hb
        rw [hp1 a (helems ▸ ha), hp1 b (helems ▸ hb)]
        exact hequiv a ha b hb
      have himg1 : g.adjKeys.image (fun z => uf1.root? z) =
          g.adjKeys.image (fun z => uf.root? z) := by
        refine Finset.image_congr ?_
        intro z hz
        exact hp1 z (helems ▸ hz)
      by_cases hrxy : rx = ry
      · -- same set: skip the edge
        have hreach_uv : Reach (pairsOf taken) u v :=
          (hequiv u huV v hvV).mp (by rw [hrxu, hryv, hrxy])
        have hcover1 : ∀ p ∈ g.edgeFinset,
            Reach (pairsOf taken) p.1 p.2 ∨ (wGet g p, p.1, p.2) ∈ rest := by
          intro p hp
          rcases hcover p hp with h | h
          · exact Or.inl h
          · rcases List.mem_cons.mp h with heq | hmem
            · left
              have hp1' : p.1 = u := congrArg (fun t => t.2.1) heq
              have hp2' : p.2 = v := congrArg (fun t => t.2.2) heq
              have hpp : p = (u, v) := Prod.ext hp1' hp2'
              rw [hpp]
              exact hreach_uv
            · exact Or.inr hmem
        obtain ⟨tl, hloop, hrest⟩ := ih uf1 taken numTaken Topt hwf1 helems1 hequiv1
          htkE htkcard hforest hsort.of_cons
          (fun x hx => hqE x (List.mem_cons_of_mem _ hx)) hcover1
          (by rw [himg1]; exact hcount) hT1 hT2 hT3 hTmin htkT
        refine ⟨tl, ?_, hrest⟩
        rw [kruskalLoop, if_neg hret, hiss]
        have hb : decide (rx = ry) = true := decide_eq_true hrxy
        rw [hb]
        exact hloop
      · -- different sets: take the edge
        have hne1 : uf1.root? u ≠ uf1.root? v := by
          rw [hp1 u (helems ▸ huV), hp1 v (helems ▸ hvV), hrxu, hryv]
          exact fun h => hrxy (Option.some_injective _ h)
        have hnr : ¬ Reach (pairsOf taken) u v := by
          intro hr
          apply hrxy
          apply Option.some_injective Nat
          rw [← hrxu, ← hryv]
          exact (hequiv u huV v hvV).mpr hr
        obtain ⟨r, uf2, huni, he2, hwf2, hequiv2, hcount2⟩ :=
          union_step hwf1 (helems1 ▸ huV) (helems1 ▸ hvV)
            (fun a ha b hb => hequiv1 a (helems1 ▸ ha) b (helems1 ▸ hb)) hne1 hult
        have helems2 : uf2.elems = g.adjKeys := he2.trans helems1
        -- the new optimal tree via the exchange lemma
        have hwle : ∀ f ∈ g.edgeFinset, ¬ Reach (pairsOf taken) f.1 f.2 →
            wVal g (u, v) ≤ wVal g f := by
          intro f hf hfr
          rcases hcover f hf with h | h
          · exact absurd h hfr
          · rcases List.mem_cons.mp h with heq | hmem
            · have hf1 : f.1 = u := congrArg (fun t => t.2.1) heq
              have hf2 : f.2 = v := congrArg (fun t => t.2.2) heq
              have hff : f = (u, v) := Prod.ext hf1 hf2
              rw [hff]
            · have hsort' := (List.pairwise_cons.mp hsort).1 _ hmem
              obtain ⟨cu, hcu⟩ := Option.isSome_iff_exists.mp (hIW _ hq1)
              obtain ⟨cf, hcf⟩ := Option.isSome_iff_exists.mp (hIW _ hf)
              have hc : c = some cu := by
                have hq2' : c = wGet g (u, v) := hq2
                rw [hq2', hcu]
              rw [hc, hcf] at hsort'
              have hcucf := entryR_weight hsort'
              unfold wVal
              rw [show wGet g (u, v) = some cu from hcu, hcf]
              exact hcucf
        obtain ⟨Topt', hT1', hT2', hT3', hsum', hins'⟩ :=
          mst_exchange (wVal g) hEdg hT1 hT2 hT3 htkT hq1 hnr hwle
        have hpairs' : pairsOf (taken ++ [(c, u, v)]) = insert (u, v) (pairsOf taken) :=
          pairsOf_snoc taken c u v
        have hnotmem : (u, v) ∉ pairsOf taken := by
          intro hm
          exact hnr (Relation.ReflTransGen.single
            ⟨by omega, by rw [cp_of_lt hult]; exact hm⟩)
        have hequiv2' : ∀ a ∈ g.adjKeys, ∀ b ∈ g.adjKeys,
            (uf2.root? a = uf2.root? b ↔ Reach (pairsOf (taken ++ [(c, u, v)])) a b) := by
          intro a ha b hb
          rw [hpairs']
          exact hequiv2 a (helems1 ▸ ha) b (helems1 ▸ hb)
        have htkE' : ∀ t ∈ taken ++ [(c, u, v)], (t.2.1, t.2.2) ∈ g.edgeFinset := by
          intro t ht
          rcases List.mem_append.mp ht with h | h
          · exact htkE t h
          · rcases List.mem_singleton.mp h with rfl
            exact hq1
        have htkcard' : (pairsOf (taken ++ [(c, u, v)])).card = numTaken + 1 := by
          rw [hpairs', Finset.card_insert_of_not_mem hnotmem, htkcard]
        have hforest' : Forest (pairsOf (taken ++ [(c, u, v)])) := by
          rw [hpairs', ← cp_of_lt hult]
          exact Forest.grow hforest (by omega) hnr
        have hcover' : ∀ p ∈ g.edgeFinset,
            Reach (pairsOf (taken ++ [(c, u, v)])) p.1 p.2 ∨ (wGet g p, p.1, p.2) ∈ rest := by
          intro p hp
          rcases hcover p hp with h | h
          · left
            rw [hpairs']
            exact reach_mono (Finset.subset_insert _ _) h
          · rcases List.mem_cons.mp h with heq | hmem
            · left
              have hp1' : p.1 = u := congrArg (fun t => t.2.1) heq
              have hp2' : p.2 = v := congrArg (fun t => t.2.2) heq
              have hpp : p = (u, v) := Prod.ext hp1' hp2'
              rw [hpp, hpairs']
              refine Relation.ReflTransGen.single ⟨by omega, ?_⟩
              rw [cp_of_lt hult]
              exact Finset.mem_insert_self _ _
            · exact Or.inr hmem
        have hcount' : numTaken + 1 +
            (g.adjKeys.image (fun z => uf2.root? z)).card = g.adjKeys.card := by
          have hc2 : (g.adjKeys.image (fun z => uf2.root? z)).card + 1 =
              (g.adjKeys.image (fun z => uf1.root? z)).card := by
            have := hcount2
            rw [helems1] at this
            exact this
          rw [himg1] at hc2
          omega
        have hTmin' : ∀ T', T' ⊆ g.edgeFinset → Spans g.adjKeys T' →
            T'.card + 1 = g.adjKeys.card → Wsum g Topt' ≤ Wsum g T' := by
          intro T' h1 h2 h3
          exact le_trans hsum' (hTmin T' h1 h2 h3)
        have hins'' : pairsOf (taken ++ [(c, u, v)]) ⊆ Topt' := by
          rw [hpairs']
          exact hins'
        obtain ⟨tl, hloop, hrest⟩ := ih uf2 (taken ++ [(c, u, v)]) (numTaken + 1) Topt'
          hwf2 helems2 hequiv2' htkE' htkcard' hforest' hsort.of_cons
          (fun x hx => hqE x (List.mem_cons_of_mem _ hx)) hcover' hcount'
          hT1' hT2' hT3' hTmin' hins''
        refine ⟨tl, ?_, hrest⟩
        rw [kruskalLoop, if_neg hret, hiss]
        have hb : decide (rx = ry) = false := decide_eq_false hrxy
        rw [hb]
        show (match uf1.union u v with
          | none => none
          | some (_, uf'') =>
            kruskalLoop ((g.adjKeys.card : Int) - 1) uf''
              (taken ++ [(c, u, v)]) (numTaken + 1) rest) = some tl
        rw [huni]
        exact hloop

theorem kruskalLoop_none {g : UGraph} {a0 b0 : Nat}
    (ha0 : a0 ∈ g.adjKeys) (hb0 : b0 ∈ g.adjKeys)
    (hnr0 : ¬ Reach g.edgeFinset a0 b0)
    (hEdg : EdgesOn g.adjKeys g.edgeFinset) :
    ∀ (queue : List QEntry) (uf : UnionFind) (taken : List QEntry) (numTaken : Nat),
      uf.WF → uf.elems = g.adjKeys →
      (∀ a ∈ g.adjKeys, ∀ b ∈ g.adjKeys,
        (uf.root? a = uf.root? b ↔ Reach (pairsOf taken) a b)) →
      pairsOf taken ⊆ g.edgeFinset →
      (∀ x ∈ queue, (x.2.1, x.2.2) ∈ g.edgeFinset) →
      numTaken + (g.adjKeys.image (fun z => uf.root? z)).card = g.adjKeys.card →
      kruskalLoop ((g.adjKeys.card : Int) - 1) uf taken numTaken queue = none := by
  intro queue
  induction queue with
  | nil =>
    intro uf taken numTaken hwf helems hequiv htkE hqE hcount
    have hne : uf.root? a0 ≠ uf.root? b0 := by
      intro h
      exact hnr0 (reach_mono htkE ((hequiv a0 ha0 b0 hb0).mp h))
    have h2 : 1 < (g.adjKeys.image (fun z => uf.root? z)).card :=
      Finset.one_lt_card.mpr ⟨_, Finset.mem_image.mpr ⟨a0, ha0, rfl⟩,
        _, Finset.mem_image.mpr ⟨b0, hb0, rfl⟩, hne⟩
    have hret : ¬ ((numTaken : Int) = (g.adjKeys.card : Int) - 1) := by omega
    rw [kruskalLoop, if_neg hret]
  | cons hd rest ih =>
    intro uf taken numTaken hwf helems hequiv htkE hqE hcount
    have hne : uf.root? a0 ≠ uf.root? b0 := by
      intro h
      exact hnr0 (reach_mono htkE ((hequiv a0 ha0 b0 hb0).mp h))
    have h2 : 1 < (g.adjKeys.image (fun z => uf.root? z)).card :=
      Finset.one_lt_card.mpr ⟨_, Finset.mem_image.mpr ⟨a0, ha0, rfl⟩,
        _, Finset.mem_image.mpr ⟨b0, hb0, rfl⟩, hne⟩
    have hret : ¬ ((numTaken : Int) = (g.adjKeys.card : Int) - 1) := by omega
    obtain ⟨c, u, v⟩ := hd
    have hq1 : ((u : Nat), (v : Nat)).1 ∈ g.adjKeys ∧ ((u : Nat), (v : Nat)).2 ∈ adjGet g u ∧ True := by
      exact ⟨(hEdg _ (hqE (c, u, v) (List.mem_cons_self _ _))).1, by
        have := (mem_edgeFinset.mp (hqE (c, u, v) (List.mem_cons_self _ _)))
        exact this.2.1, trivial⟩
    obtain ⟨hq1', _⟩ := hq1
    have hqmem : ((c, u, v).2.1, (c, u, v).2.2) ∈ g.edgeFinset :=
      hqE (c, u, v) (List.mem_cons_self _ _)
    obtain ⟨huV0, hvV0, hult0⟩ := hEdg _ hqmem
    have huV : u ∈ g.adjKeys := huV0
    have hvV : v ∈ g.adjKeys := hvV0
    have hult : u < v := hult0
    obtain ⟨rx, ry, uf1, hrxu, hryv, hiss, he1, hrk1, hwf1, hp1⟩ :=
      in_same_set_spec hwf (helems ▸ huV) (helems ▸ hvV)
    have helems1 : uf1.elems = g.adjKeys := he1.trans helems
    have hequiv1 : ∀ a ∈ g.adjKeys, ∀ b ∈ g.adjKeys,
        (uf1.root? a = uf1.root? b ↔ Reach (pairsOf taken) a b) := by
      intro a ha b hb
      rw [hp1 a (helems ▸ ha), hp1 b (helems ▸ hb)]
      exact hequiv a ha b hb
    have himg1 : g.adjKeys.image (fun z => uf1.root? z) =
        g.adjKeys.image (fun z => uf.root? z) := by
      refine Finset.image_congr ?_
      intro z hz
      exact hp1 z (helems ▸ hz)
    by_cases hrxy : rx = ry
    · have hloop := ih uf1 taken numTaken hwf1 helems1 hequiv1 htkE
        (fun x hx => hqE x (List.mem_cons_of_mem _ hx)) (by rw [himg1]; exact hcount)
      rw [kruskalLoop, if_neg hret, hiss]
      have hb : decide (rx = ry) = true := decide_eq_true hrxy
      rw [hb]
      exact hloop
    · have hne1 : uf1.root? u ≠ uf1.root? v := by
        rw [hp1 u (helems ▸ huV), hp1 v (helems ▸ hvV), hrxu, hryv]
        exact fun h => hrxy (Option.some_injective _ h)
      obtain ⟨r, uf2, huni, he2, hwf2, hequiv2, hcount2⟩ :=
        union_step hwf1 (helems1 ▸ huV) (helems1 ▸ hvV)
          (fun a ha b hb => hequiv1 a (helems1 ▸ ha) b (helems1 ▸ hb)) hne1 hult
      have helems2 : uf2.elems = g.adjKeys := he2.trans helems1
      have hpairs' : pairsOf (taken ++ [(c, u, v)]) = insert (u, v) (pairsOf taken) :=
        pairsOf_snoc taken c u v
      have hequiv2' : ∀ a ∈ g.adjKeys, ∀ b ∈ g.adjKeys,
          (uf2.root? a = uf2.root? b ↔ Reach (pairsOf (taken ++ [(c, u, v)])) a b) := by
        intro a ha b hb
        rw [hpairs']
        exact hequiv2 a (helems1 ▸ ha) b (helems1 ▸ hb)
      have htkE' : pairsOf (taken ++ [(c, u, v)]) ⊆ g.edgeFinset := by
        rw [hpairs']
        refine Finset.insert_subset ?_ htkE
        exact hqmem
      have hcount' : numTaken + 1 +
          (g.adjKeys.image (fun z => uf2.root? z)).card = g.adjKeys.card := by
        have hc2 : (g.adjKeys.image (fun z => uf2.root? z)).card + 1 =
            (g.adjKeys.image (fun z => uf1.root? z)).card := by
          have h := hcount2
          rw [helems1] at h
          exact h
        rw [himg1] at hc2
        omega
      have hloop := ih uf2 (taken ++ [(c, u, v)]) (numTaken + 1) hwf2 helems2 hequiv2'
        htkE' (fun x hx => hqE x (List.mem_cons_of_mem _ hx)) hcount'
      rw [kruskalLoop, if_neg hret, hiss]
      have hb : decide (rx = ry) = false := decide_eq_false hrxy
      rw [hb]
      show (match uf1.union u v with
        | none => none
        | some (_, uf'') =>
          kruskalLoop ((g.adjKeys.card : Int) - 1) uf''
            (taken ++ [(c, u, v)]) (numTaken + 1) rest) = none
      rw [huni]
      exact hloop

/-! ### Kruskal: top-level behavior -/

theorem reach_empty {a b : Nat} : Reach (∅ : Finset (Nat × Nat)) a b ↔ a = b := by
  constructor
  · intro h
    rcases Relation.ReflTransGen.cases_head h with rfl | ⟨z, hstep, _⟩
    · rfl
    · exact absurd hstep.2 (Finset.not_mem_empty _)
  · rintro rfl
    exact .refl

theorem mkUnionFind_root {S : Finset Nat} {z : Nat} (hz : z ∈ S) :
    (mkUnionFind S).root? z = some z := by
  have hcard : 1 ≤ S.card := Finset.card_pos.mpr ⟨z, hz⟩
  obtain ⟨m, hm⟩ : ∃ m, S.card = m + 1 := ⟨S.card - 1, by omega⟩
  show findRoot (fun z => z) S.card z = some z
  rw [hm]
  exact findRoot_of_isRoot rfl m

theorem isSome_wGet_of_IntWeighted {g : UGraph} (hiw : IntWeighted g)
    {p : Nat × Nat} (hp : p ∈ g.edgeFinset) : (wGet g p).isSome := by
  obtain ⟨h1, h2, h3⟩ := mem_edgeFinset.mp hp
  have := hiw p.1 h1 p.2 h2
  rw [cp_of_lt h3] at this
  exact this

theorem kruskal_connected_mst {g : UGraph} (hgwf : GWF g) (hiw : IntWeighted g)
    (hconn : ConnectedG g) :
    ∃ tl, (g.kruskal).1 = some tl ∧ pairsOf tl ⊆ g.edgeFinset ∧
      Spans g.adjKeys (pairsOf tl) ∧ (pairsOf tl).card + 1 = g.adjKeys.card ∧
      Forest (pairsOf tl) ∧
      (∀ T', T' ⊆ g.edgeFinset → Spans g.adjKeys T' → T'.card + 1 = g.adjKeys.card →
        Wsum g (pairsOf tl) ≤ Wsum g T') := by
  have hEdg : EdgesOn g.adjKeys g.edgeFinset := edgesOn_of_GWF hgwf
  obtain ⟨Topt, ⟨hT1, hT2, hT3⟩, hTmin⟩ := exists_mst g hEdg hconn
  have hroot : ∀ z ∈ g.adjKeys, (mkUnionFind g.adjKeys).root? z = some z :=
    fun z hz => mkUnionFind_root hz
  have hequiv : ∀ a ∈ g.adjKeys, ∀ b ∈ g.adjKeys,
      ((mkUnionFind g.adjKeys).root? a = (mkUnionFind g.adjKeys).root? b ↔
        Reach (pairsOf []) a b) := by
    intro a ha b hb
    rw [hroot a ha, hroot b hb]
    show some a = some b ↔ Reach ∅ a b
    rw [reach_empty]
    exact ⟨fun h => Option.some_injective _ h, fun h => by rw [h]⟩
  have hcount : 0 + (g.adjKeys.image (fun z => (mkUnionFind g.adjKeys).root? z)).card =
      g.adjKeys.card := by
    rw [Finset.image_congr (fun z hz => hroot z hz),
      Finset.card_image_of_injective _ (Option.some_injective Nat)]
    omega
  have hqE : ∀ x ∈ kruskalQueue g,
      (x.2.1, x.2.2) ∈ g.edgeFinset ∧ x.1 = wGet g (x.2.1, x.2.2) := by
    intro x hx
    obtain ⟨p, hp, rfl⟩ := mem_kruskalQueue.mp hx
    have hpE : p ∈ g.edgeFinset := List.mem_toFinset.mpr hp
    exact ⟨hpE, rfl⟩
  have hcover : ∀ p ∈ g.edgeFinset,
      Reach (pairsOf []) p.1 p.2 ∨ (wGet g p, p.1, p.2) ∈ kruskalQueue g := by
    intro p hp
    exact Or.inr (mem_kruskalQueue.mpr ⟨p, List.mem_toFinset.mp hp, rfl⟩)
  obtain ⟨tl, hloop, hprops⟩ := kruskalLoop_some (fun p hp => isSome_wGet_of_IntWeighted hiw hp)
    hEdg (kruskalQueue g) (mkUnionFind g.adjKeys) [] 0 Topt (mkUnionFind_wf _) rfl hequiv
    (fun t ht => absurd ht (List.not_mem_nil _)) rfl Forest.empty (kruskalQueue_sorted g)
    hqE hcover hcount hT1 hT2 hT3
    (fun T' h1 h2 h3 => hTmin T' ⟨h1, h2, h3⟩)
    (by intro p hp; exact absurd hp (Finset.not_mem_empty p))
  exact ⟨tl, hloop, hprops⟩

theorem kruskal_disconnected_none {g : UGraph} (hgwf : GWF g) (hnc : ¬ ConnectedG g) :
    (g.kruskal).1 = none := by
  have hEdg : EdgesOn g.adjKeys g.edgeFinset := edgesOn_of_GWF hgwf
  rcases Finset.eq_empty_or_nonempty g.adjKeys with hV | hV
  · have hlist : g.edgeList = [] := by
      refine List.eq_nil_iff_forall_not_mem.mpr ?_
      intro p hp
      have h1 := (mem_edgeList.mp hp).1
      rw [hV] at h1
      exact Finset.not_mem_empty _ h1
    have hqueue : kruskalQueue g = [] := by
      unfold kruskalQueue
      rw [hlist]
      rfl
    show kruskalLoop ((g.adjKeys.card : Int) - 1) (mkUnionFind g.adjKeys) [] 0
      (kruskalQueue g) = none
    rw [hqueue, kruskalLoop, if_neg]
    have hc : g.adjKeys.card = 0 := by rw [hV]; rfl
    rw [hc]
    omega
  · have hnsp : ¬ Spans g.adjKeys g.edgeFinset := fun hs => hnc ⟨hV, hs⟩
    unfold Spans at hnsp
    push_neg at hnsp
    obtain ⟨a0, ha0, b0, hb0, hnr⟩ := hnsp
    have hroot : ∀ z ∈ g.adjKeys, (mkUnionFind g.adjKeys).root? z = some z :=
      fun z hz => mkUnionFind_root hz
    have hequiv : ∀ a ∈ g.adjKeys, ∀ b ∈ g.adjKeys,
        ((mkUnionFind g.adjKeys).root? a = (mkUnionFind g.adjKeys).root? b ↔
          Reach (pairsOf []) a b) := by
      intro a ha b hb
      rw [hroot a ha, hroot b hb]
      show some a = some b ↔ Reach ∅ a b
      rw [reach_empty]
      exact ⟨fun h => Option.some_injective _ h, fun h => by rw [h]⟩
    have hcount : 0 + (g.adjKeys.image (fun z => (mkUnionFind g.adjKeys).root? z)).card =
        g.adjKeys.card := by
      rw [Finset.image_congr (fun z hz => hroot z hz),
        Finset.card_image_of_injective _ (Option.some_injective Nat)]
      omega
    exact kruskalLoop_none ha0 hb0 hnr hEdg (kruskalQueue g) (mkUnionFind g.adjKeys) [] 0
      (mkUnionFind_wf _) rfl hequiv (by intro p hp; exact absurd hp (Finset.not_mem_empty p))
      (fun x hx => (mem_kruskalQueue.mp hx).elim
        (fun p hp => by rw [hp.2]; exact List.mem_toFinset.mpr hp.1)) hcount

/-! ### Claims C1 and C8 -/

theorem halim_connected : ConnectedG halimG := by
  constructor
  · exact ⟨0, by decide⟩
  · have h0 : ∀ v ∈ halimG.adjKeys, Reach halimG.edgeFinset 0 v := by
      intro v hv
      have hkeys : halimG.adjKeys = {0, 1, 2, 3, 4} := by decide
      rw [hkeys] at hv
      simp only [Finset.mem_insert, Finset.mem_singleton] at hv
      rcases hv with rfl | rfl | rfl | rfl | rfl
      · exact .refl
      · exact Relation.ReflTransGen.single ⟨by decide, by decide⟩
      · exact Relation.ReflTransGen.single ⟨by decide, by decide⟩
      · exact Relation.ReflTransGen.single ⟨by decide, by decide⟩
      · exact Relation.ReflTransGen.single ⟨by decide, by decide⟩
    intro a ha b hb
    exact (reach_symm (h0 a ha)).trans (h0 b hb)

/-- **C1.**  On every connected integer-weighted well-formed graph, `kruskal()`
succeeds and returns a spanning tree — `|edges| = |vertices| - 1`, connecting all
vertices, acyclic (a `Forest`) — of minimum total weight among all spanning trees;
in particular on the Halim example graph the returned tree has total weight `18`. -/
theorem claim_C1 (g : UGraph) (hgwf : GWF g) (hiw : IntWeighted g)
    (hconn : ConnectedG g) :
    (∃ tl, (g.kruskal).1 = some tl ∧
      (pairsOf tl).card + 1 = g.adjKeys.card ∧
      Spans g.adjKeys (pairsOf tl) ∧
      Forest (pairsOf tl) ∧
      IsSpanningTree g (pairsOf tl) ∧
      (∀ T, IsSpanningTree g T → Wsum g (pairsOf tl) ≤ Wsum g T)) ∧
    (halimG.kruskal).1.map (fun l => Wsum halimG (pairsOf l)) = some 18 := by
  constructor
  · obtain ⟨tl, h0, h1, h2, h3, h4, h5⟩ := kruskal_connected_mst hgwf hiw hconn
    exact ⟨tl, h0, h3, h2, h4, ⟨h1, h2, h3⟩, fun T hT => h5 T hT.1 hT.2.1 hT.2.2⟩
  · decide

/-- Witness: C1 applied to the Halim graph itself. -/
theorem claim_C1_witness :
    (∃ tl, (halimG.kruskal).1 = some tl ∧
      (pairsOf tl).card + 1 = halimG.adjKeys.card ∧
      Spans halimG.adjKeys (pairsOf tl) ∧
      Forest (pairsOf tl) ∧
      IsSpanningTree halimG (pairsOf tl) ∧
      (∀ T, IsSpanningTree halimG T → Wsum halimG (pairsOf tl) ≤ Wsum halimG T)) ∧
    (halimG.kruskal).1.map (fun l => Wsum halimG (pairsOf l)) = some 18 :=
  claim_C1 halimG (by decide) (by decide) halim_connected

theorem discG_not_connected : ¬ ConnectedG discG := by
  intro hc
  have hr := hc.2 0 (by decide) 2 (by decide)
  have hcl : EClosed {0, 1} discG.edgeFinset := by decide
  have h2 := reach_closed hcl (show (0 : Nat) ∈ ({0, 1} : Finset Nat) by decide) hr
  exact absurd h2 (by decide)

/-- **C8 (counterexample).**  On the disconnected weighted graph
`UndirectedGraph([(0,1),(2,3)], [1,2])`, `kruskal()` does not return a spanning
forest: the loop pops from the exhausted queue and the call dies with an uncaught
`IndexError` (modeled by `none`). -/
theorem claim_C8_counterexample : ¬ ConnectedG discG ∧ (discG.kruskal).1 = none :=
  ⟨discG_not_connected, by decide⟩

/-- **C8 (amended).**  On every well-formed disconnected input (including the
empty graph), the `kruskal` loop condition `num_taken_edges == num_vertices - 1`
is never reached, the queue empties, and `heapq.heappop` raises an uncaught
`IndexError`: the call returns nothing (`none`). -/
theorem claim_C8 (g : UGraph) (hgwf : GWF g) (hnc : ¬ ConnectedG g) :
    (g.kruskal).1 = none :=
  kruskal_disconnected_none hgwf hnc

/-- Witness: the amended C8 applied to the two-component graph. -/
theorem claim_C8_witness : (discG.kruskal).1 = none :=
  claim_C8 discG (by decide) discG_not_connected

/-! ### Frame lemmas: the defaultdict touches of the MST algorithms -/

theorem touchW_id {g : UGraph} {p : Nat × Nat} (hp : p ∈ g.wKeys) : touchW g p = g := by
  unfold touchW
  have h1 : insert p g.wKeys = g.wKeys := Finset.insert_eq_self.mpr hp
  have h2 : (fun q => if q = p then wGet g p else g.w q) = g.w := by
    funext q
    by_cases hq : q = p
    · rw [if_pos hq, hq]
      unfold wGet
      rw [if_pos hp]
    · rw [if_neg hq]
  rw [h1, h2]

theorem touchAll_id {g : UGraph} {ps : List (Nat × Nat)} (h : ∀ p ∈ ps, p ∈ g.wKeys) :
    touchAll g ps = g := by
  induction ps with
  | nil => rfl
  | cons p t ih =>
    show touchAll (touchW g p) t = g
    rw [touchW_id (h p (List.mem_cons_self _ _))]
    exact ih (fun q hq => h q (List.mem_cons_of_mem _ hq))

theorem edgeList_wKeys {g : UGraph} (hfw : FullyWeighted g) :
    ∀ p ∈ g.edgeList, p ∈ g.wKeys := by
  intro p hp
  obtain ⟨h1, h2, h3⟩ := mem_edgeList.mp hp
  have := hfw p.1 h1 p.2 h2
  rw [cp_of_lt h3] at this
  exact this

theorem kruskal_frame {g : UGraph} (hfw : FullyWeighted g) : (g.kruskal).2 = g :=
  touchAll_id (edgeList_wKeys hfw)

theorem nbTouch_id {g : UGraph} {v : Nat} (hv : v ∈ g.adjKeys) : nbTouch g v = g := by
  unfold nbTouch
  have h1 : insert v g.adjKeys = g.adjKeys := Finset.insert_eq_self.mpr hv
  have h2 : (fun z => if z = v then adjGet g v else g.adj z) = g.adj := by
    funext z
    by_cases hz : z = v
    · rw [if_pos hz, hz]
      unfold adjGet
      rw [if_pos hv]
    · rw [if_neg hz]
  rw [h1, h2]

theorem nbWTouch_id {g : UGraph} {v : Nat} (hv : v ∈ g.adjKeys) (hfw : FullyWeighted g) :
    nbWTouch g v = g := by
  unfold nbWTouch
  rw [nbTouch_id hv]
  refine touchAll_id ?_
  intro p hp
  obtain ⟨u, hu, rfl⟩ := List.mem_map.mp hp
  exact hfw v hv u (mem_finsetAsc.mp hu)

theorem mem_orderedInsert_foldl {r : QEntry → QEntry → Prop} [DecidableRel r]
    {x : QEntry} :
    ∀ (l init : List QEntry),
      x ∈ l.foldl (fun q e => List.orderedInsert r e q) init → x ∈ init ∨ x ∈ l := by
  intro l
  induction l with
  | nil => exact fun init h => Or.inl h
  | cons e t ih =>
    intro init h
    rcases ih (List.orderedInsert r e init) h with h1 | h1
    · rcases (List.mem_orderedInsert r).mp h1 with h2 | h2
      · exact Or.inr (h2 ▸ List.mem_cons_self _ _)
      · exact Or.inl h2
    · exact Or.inr (List.mem_cons_of_mem _ h1)

theorem primLoop_frame {g : UGraph} (hgwf : GWF g) (hfw : FullyWeighted g) (allV : Finset Nat) :
    ∀ (fuel : Nat) (takenV : Finset Nat) (takenE queue : List QEntry),
      (∀ x ∈ queue, x.2.2 ∈ g.adjKeys) →
      (primLoop allV fuel g takenV takenE queue).2 = g := by
  intro fuel
  induction fuel with
  | zero => intro _ _ _ _; rfl
  | succ fuel ih =>
    intro takenV takenE queue hq
    rcases queue with _ | ⟨⟨c, u, v⟩, rest⟩
    · show ((if takenV = allV then ((some takenE, g) : Option (List QEntry) × UGraph)
        else (none, g))).2 = g
      by_cases hdone : takenV = allV
      · rw [if_pos hdone]
      · rw [if_neg hdone]
    · show ((if takenV = allV then ((some takenE, g) : Option (List QEntry) × UGraph)
        else
          if v ∈ takenV then primLoop allV fuel g takenV takenE rest
          else
            primLoop allV fuel (nbWTouch g v) (insert v takenV) (takenE ++ [(c, u, v)])
              ((primPushes g (insert v takenV) v).foldl
                (fun q e => List.orderedInsert entryR e q) rest))).2 = g
      by_cases hdone : takenV = allV
      · rw [if_pos hdone]
      · rw [if_neg hdone]
        by_cases hv : v ∈ takenV
        · rw [if_pos hv]
          exact ih takenV takenE rest (fun x hx => hq x (List.mem_cons_of_mem _ hx))
        · rw [if_neg hv]
          have hvK : v ∈ g.adjKeys := hq (c, u, v) (List.mem_cons_self _ _)
          rw [nbWTouch_id hvK hfw]
          refine ih _ _ _ ?_
          intro x hx
          rcases mem_orderedInsert_foldl _ _ hx with h1 | h1
          · exact hq x (List.mem_cons_of_mem _ h1)
          · obtain ⟨u', hu', hif⟩ := List.mem_filterMap.mp h1
            by_cases hmem : u' ∈ insert v takenV
            · rw [if_pos hmem] at hif
              exact Option.noConfusion hif
            · rw [if_neg hmem] at hif
              obtain rfl : (wGet g (cp v u'), v, u') = x := Option.some_injective _ hif
              exact (hgwf v hvK u' (mem_finsetAsc.mp hu')).2.1

theorem mst_frame {g : UGraph} (hgwf : GWF g) (hfw : FullyWeighted g) {start : Nat}
    (hstart : start ∈ g.adjKeys) : (g.minimum_spanning_tree start).2 = g := by
  unfold UGraph.minimum_spanning_tree
  rw [nbWTouch_id hstart hfw]
  refine primLoop_frame hgwf hfw _ _ _ _ _ ?_
  intro x hx
  rw [(List.perm_insertionSort entryR _).mem_iff] at hx
  obtain ⟨u, hu, rfl⟩ := List.mem_map.mp hx
  exact (hgwf start hstart u (mem_finsetAsc.mp hu)).2.1

/-! ### Claims C9 and C10 -/

/-- **C9 (counterexample).**  On the unweighted graph `UndirectedGraph([(0,1)])`,
`kruskal()` succeeds, but the `_weights[frozenset((0,1))]` read performed by
`edges(and_weights=True)` inserts the missing key with value `None` into the
*source* graph's weight defaultdict: the source compares unequal (under the
dict-equality of `__eq__`) to its pre-call state. -/
theorem claim_C9_counterexample :
    (pathG.kruskal).1 = some [(none, 0, 1)] ∧ ¬ graphEq (pathG.kruskal).2 pathG := by
  constructor
  · decide
  · decide

/-- **C9 (amended).**  If every edge of the (well-formed) source graph has a
`_weights` entry — as after a weighted `__init__` — and the start vertex is
tracked, then both `kruskal()` and `minimum_spanning_tree(start)` leave the
source graph's state (`_edges` and `_weights` dicts) literally unchanged: every
defaultdict access they perform hits an existing key. -/
theorem claim_C9 (g : UGraph) (start : Nat) (hgwf : GWF g) (hfw : FullyWeighted g)
    (hstart : start ∈ g.adjKeys) :
    (g.kruskal).2 = g ∧ (g.minimum_spanning_tree start).2 = g :=
  ⟨kruskal_frame hfw, mst_frame hgwf hfw hstart⟩

/-- Witness: the amended C9 on the weighted Halim graph with start vertex 0. -/
theorem claim_C9_witness :
    (halimG.kruskal).2 = halimG ∧ (halimG.minimum_spanning_tree 0).2 = halimG :=
  claim_C9 halimG 0 (by decide) (by decide) (by decide)

theorem addEdgeU_wKeys (g : UGraph) (a b : Nat) : (addEdgeU g a b).wKeys = g.wKeys := by
  unfold addEdgeU
  by_cases h : a = b
  · rw [if_pos h]
  · rw [if_neg h]

theorem mkGraphU_wKeys (edges : List (Nat × Nat)) : (mkGraphU edges).wKeys = ∅ := by
  unfold mkGraphU
  suffices h : ∀ g0 : UGraph,
      (edges.foldl (fun g p => addEdgeU g p.1 p.2) g0).wKeys = g0.wKeys by
    rw [h emptyG]
    rfl
  induction edges with
  | nil => exact fun g0 => rfl
  | cons p t ih =>
    intro g0
    show (t.foldl (fun g p => addEdgeU g p.1 p.2) (addEdgeU g0 p.1 p.2)).wKeys = g0.wKeys
    rw [ih (addEdgeU g0 p.1 p.2), addEdgeU_wKeys]

theorem foldW_wKeys (l : List ((Nat × Nat) × Option Int)) :
    ∀ (g0 : UGraph),
      ∀ q ∈ (l.foldl (fun g pc => addEdgeW g pc.1.1 pc.1.2 pc.2) g0).wKeys,
        q ∈ g0.wKeys ∨ ∃ a b : Nat, (a, b) ∈ l.map Prod.fst ∧ q = cp a b := by
  induction l with
  | nil => exact fun g0 q hq => Or.inl hq
  | cons pc t ih =>
    intro g0 q hq
    have hq' : q ∈ (t.foldl (fun g pc => addEdgeW g pc.1.1 pc.1.2 pc.2)
        (addEdgeW g0 pc.1.1 pc.1.2 pc.2)).wKeys := hq
    rcases ih _ q hq' with h1 | ⟨a, b, hab, rfl⟩
    · unfold addEdgeW at h1
      by_cases hab : pc.1.1 = pc.1.2
      · rw [if_pos hab] at h1
        exact Or.inl h1
      · rw [if_neg hab] at h1
        rcases Finset.mem_insert.mp h1 with h2 | h2
        · exact Or.inr ⟨pc.1.1, pc.1.2, by
            refine ⟨List.mem_map.mpr ⟨pc, List.mem_cons_self _ _, rfl⟩, h2⟩⟩
        · exact Or.inl h2
    · exact Or.inr ⟨a, b, List.mem_map.mpr
        (by
          obtain ⟨x, hx, hxe⟩ := List.mem_map.mp hab
          exact ⟨x, List.mem_cons_of_mem _ hx, hxe⟩), rfl⟩

theorem mkGraphW_wKeys_sub {edges : List (Nat × Nat)} {ws : List (Option Int)}
    {h : UGraph} (hmk : mkGraphW edges ws = some h) :
    ∀ q ∈ h.wKeys, ∃ a b : Nat, (a, b) ∈ edges ∧ q = cp a b := by
  unfold mkGraphW at hmk
  by_cases hws : ws.isEmpty
  · rw [if_pos hws] at hmk
    obtain rfl : mkGraphU edges = h := Option.some_injective _ hmk
    intro q hq
    rw [mkGraphU_wKeys] at hq
    exact absurd hq (Finset.not_mem_empty _)
  · rw [if_neg hws] at hmk
    by_cases hlen : edges.length = ws.length
    · rw [if_pos hlen] at hmk
      obtain rfl := Option.some_injective _ hmk
      intro q hq
      rcases foldW_wKeys (edges.zip ws) emptyG q hq with h1 | ⟨a, b, hab, rfl⟩
      · exact absurd h1 (Finset.not_mem_empty _)
      · obtain ⟨pc, hpc, hpce⟩ := List.mem_map.mp hab
        exact ⟨a, b, by
          have := List.of_mem_zip hpc
          rw [← hpce]
          exact this.1, rfl⟩
    · rw [if_neg hlen] at hmk
      exact Option.noConfusion hmk

/-- **C10.**  `remove(vertex)` never touches `_weights`: after `g.remove v` the
weight dict is literally the old one, so the weight key of any edge incident to
`v` survives, while no graph freshly constructed from the surviving edges (with
any weight list) can own that key — hence the removed graph is `__eq__`-unequal
to every such reconstruction. -/
theorem claim_C10 (g : UGraph) (v u : Nat) (hv : v ∈ g.adjKeys)
    (hu : u ∈ adjGet g v) (hfw : FullyWeighted g) :
    (g.remove v).wKeys = g.wKeys ∧
    cp v u ∈ (g.remove v).wKeys ∧
    ∀ ws h, mkGraphW ((g.remove v).edgeList) ws = some h →
      ¬ graphEq (g.remove v) h := by
  have hw : cp v u ∈ g.wKeys := hfw v hv u hu
  refine ⟨rfl, hw, ?_⟩
  intro ws h hmk hEq
  have hmem : cp v u ∈ h.wKeys := by
    rw [← hEq.2.1]
    exact hw
  obtain ⟨a, b, hab, hcp⟩ := mkGraphW_wKeys_sub hmk _ hmem
  obtain ⟨ha, hb, hlt⟩ := mem_edgeList.mp hab
  have hane : a ≠ v := by
    intro hh
    rw [hh] at ha
    exact (Finset.mem_erase.mp ha).1 rfl
  have hbne : b ≠ v := by
    intro hh
    have hb' : b ∈ adjGet (g.remove v) a := hb
    unfold adjGet at hb'
    by_cases hmem' : a ∈ (g.remove v).adjKeys
    · rw [if_pos hmem'] at hb'
      have : b ∈ (g.adj a).erase v := hb'
      rw [hh] at this
      exact (Finset.mem_erase.mp this).1 rfl
    · rw [if_neg hmem'] at hb'
      exact Finset.not_mem_empty _ hb'
  rcases cp_eq_iff.mp hcp with ⟨h1, h2⟩ | ⟨h1, h2⟩
  · exact hane h1.symm
  · exact hbne h1.symm

/-- Witness: C10 on `UndirectedGraph([(0,1),(1,2)], [5,7])` with `v = 0`,
`u = 1`. -/
theorem claim_C10_witness :
    (wG10.remove 0).wKeys = wG10.wKeys ∧
    cp 0 1 ∈ (wG10.remove 0).wKeys ∧
    ∀ ws h, mkGraphW ((wG10.remove 0).edgeList) ws = some h →
      ¬ graphEq (wG10.remove 0) h :=
  claim_C10 wG10 0 1 (by decide) (by decide) (by decide)
